import Mathlib

/-!
# AES-CBC + HMAC cryptor (`libs/libcipher/cbc.go`)

A shallow embedding of the Encrypt-then-MAC cryptor of `libcipher`:
the PKCS#7 padding codec, the MAC engine, the parcel assembly of `seal`,
the encryptor's and the decryptor's `Crypt`, and the constructors.

Modelling conventions.

* A byte is a `Fin 256`; a Go `[]byte` is a `List Byte`.  A slice that the
  code tests against `nil` is an `Option Bytes` (`none` is `nil`).
* Go `int` values that occur are lengths and offsets, all non-negative and
  far below `2^63`; they are `Nat`.  Conversions that truncate
  (`byte(x)`, `uint16(x)`) are written with an explicit `%`.
* A Go run-time panic (slice bounds out of range, the panics of
  `crypto/cipher`, integer division by zero) is the outcome `Run.panicked`.
* The standard-library collaborators are parameters: the block cipher
  (`cipher.Block`), the keyed hash (`hmac.New(hashing, token)`), the
  randomness source (`io.Reader`) and `aes.NewCipher`.  CBC chaining
  (`cipher.NewCBCEncrypter`, `cipher.NewCBCDecrypter`) is written out.
-/

namespace libcipher

/-- One octet. -/
abbrev Byte := Fin 256

/-- The contents of a Go byte slice. -/
abbrev Bytes := List Byte

/-- The error values the package can return.  `MessageError`,
`CipherTextError`, `EncryptionKeyError` and `InvalidUsageError` are the
string-based error types of the package; `errorString` is the value of
`errors.New` and of `fmt.Errorf` without `%w`; `wrapError msg inner` is the
value of `fmt.Errorf(msg + "%w", inner)`; `KeySizeError` is the error of
`aes.NewCipher`; `EOF` and `ErrUnexpectedEOF` are the errors of
`io.ReadFull`; `readerError` is any other error reported by the randomness
source. -/
inductive GoError where
  | MessageError (msg : String)
  | CipherTextError (msg : String)
  | EncryptionKeyError (msg : String)
  | InvalidUsageError (msg : String)
  | errorString (msg : String)
  | wrapError (msg : String) (inner : GoError)
  | KeySizeError (size : Nat)
  | EOF
  | ErrUnexpectedEOF
  | readerError (code : Nat)
  deriving DecidableEq, Repr

/-- The outcome of running a Go function: it returns a value or it panics. -/
inductive Run (α : Type) where
  | done (a : α)
  | panicked
  deriving DecidableEq, Repr

/-- Sequencing of two steps: a panic of the first step ends the run. -/
def Run.bind {α β : Type} (r : Run α) (f : α → Run β) : Run β :=
  match r with
  | Run.done a => f a
  | Run.panicked => Run.panicked

/-- A `cipher.Block`: an initialised block cipher (the key is part of it). -/
structure Block where
  /-- `BlockSize()`. -/
  BlockSize : Nat
  /-- `Encrypt(dst, src)` on one block, as a function of `src`. -/
  Encrypt : Bytes → Bytes
  /-- `Decrypt(dst, src)` on one block, as a function of `src`. -/
  Decrypt : Bytes → Bytes

/-- The MAC factory `calculateMAC func() hash.Hash` together with the keyed
hash built from it. -/
structure MacFactory where
  /-- `calculateMAC().Size()`. -/
  Size : Nat
  /-- `h := hmac.New(calculateMAC, token); h.Write(message); h.Sum(nil)`. -/
  hmac : Bytes → Bytes → Bytes

/-- An `io.Reader` used as randomness source: the bytes it still delivers,
and the error it reports once they are exhausted (`GoError.EOF` when the
stream simply ends). -/
structure Reader where
  data : Bytes
  err : GoError

/-- `io.ReadFull(r, buf)` with `len(buf) = n`: the bytes read, or the error
(`EOF` if nothing was read, `ErrUnexpectedEOF` if the stream ended after
some but not all bytes, otherwise the reader's own error).  Reading from a
`nil` reader (`none`) panics. -/
def ReadFull (r : Option Reader) (n : Nat) : Run (Bytes × Option GoError) :=
  match r with
  | none => Run.panicked
  | some r =>
    if n ≤ r.data.length then Run.done (r.data.take n, none)
    else if r.err = GoError.EOF ∧ 0 < r.data.length then
      Run.done (r.data, some GoError.ErrUnexpectedEOF)
    else Run.done (r.data, some r.err)

/-- The state shared by both modes (`type cryptorCBCHMAC struct`). -/
structure cryptorCBCHMAC where
  pher : Block
  macLength : Nat
  calcMac : MacFactory
  integrityKey : Bytes
  /-- The randomness source; `none` is the `nil` reader of a cryptor built
  for decryption. -/
  rand : Option Reader

/-- `const additionalDataHeaderLength = 2`. -/
def additionalDataHeaderLength : Nat := 2

/-- `const maxAdditionalDataSize = 65535`. -/
def maxAdditionalDataSize : Nat := 65535

/-- `byte(n)`: conversion of an integer to a byte keeps the low 8 bits. -/
def toByte (n : Nat) : Byte := ⟨n % 256, Nat.mod_lt n (by decide)⟩

/-- `make([]byte, n)`: a zeroed buffer. -/
def make (n : Nat) : Bytes := List.replicate n 0

/-- `copy(buf[lo:hi], src)` as a function of the buffer: the first
`min(hi - lo, len(src))` bytes of `src` overwrite the buffer from `lo`. -/
def copyInto (buf : Bytes) (lo hi : Nat) (src : Bytes) : Bytes :=
  let n := min (hi - lo) src.length
  buf.take lo ++ src.take n ++ buf.drop (lo + n)

/-- `s[lo:hi]`; panics when the bounds are out of range.  The capacity of a
slice is taken to be its length. -/
def slice (s : Bytes) (lo hi : Nat) : Run Bytes :=
  if lo ≤ hi ∧ hi ≤ s.length then Run.done ((s.take hi).drop lo) else Run.panicked

/-- `s[lo:]`; panics when `lo > len(s)`. -/
def sliceFrom (s : Bytes) (lo : Nat) : Run Bytes :=
  if lo ≤ s.length then Run.done (s.drop lo) else Run.panicked

/-- `binary.BigEndian.PutUint16(b, v)` for a two-byte `b`. -/
def PutUint16 (v : Nat) : Bytes := [toByte (v / 256), toByte v]

/-- `binary.BigEndian.Uint16(b)`: `uint16(b[1]) | uint16(b[0])<<8`. -/
def Uint16 (b : Bytes) : Nat := (b.getD 0 0).val * 256 + (b.getD 1 0).val

/-- `subtle.XORBytes`: bytewise exclusive or over the common length. -/
def xorBytes (a b : Bytes) : Bytes := List.zipWith (fun x y => x ^^^ y) a b

/-- `subtle.ConstantTimeCompare(x, y)`: 1 if the two slices have equal
contents (and so equal length), 0 otherwise. -/
def ConstantTimeCompare (x y : Bytes) : Nat := if x = y then 1 else 0

/-- The block loop of `cbcEncrypter.CryptBlocks` over `n` blocks: each
source block is xored with the previous ciphertext block (the IV for the
first) and encrypted. -/
def cbcEncryptBlocks (b : Block) : Nat → Bytes → Bytes → Bytes
  | 0, _, _ => []
  | n + 1, iv, src =>
    let c := b.Encrypt (xorBytes (src.take b.BlockSize) iv)
    c ++ cbcEncryptBlocks b n c (src.drop b.BlockSize)

/-- The block loop of `cbcDecrypter.CryptBlocks` over `n` blocks: each
ciphertext block is decrypted and xored with the previous ciphertext block
(the IV for the first). -/
def cbcDecryptBlocks (b : Block) : Nat → Bytes → Bytes → Bytes
  | 0, _, _ => []
  | n + 1, iv, src =>
    let c := src.take b.BlockSize
    xorBytes (b.Decrypt c) iv ++ cbcDecryptBlocks b n c (src.drop b.BlockSize)

/-- `cipher.NewCBCEncrypter(b, iv).CryptBlocks(dst, src)` with
`len(dst) = len(src)`, as a function of `src`.  Panics when the IV length is
not the block size or the input is not made of full blocks. -/
def CBCEncrypt (b : Block) (iv src : Bytes) : Run Bytes :=
  if b.BlockSize = 0 ∨ iv.length ≠ b.BlockSize ∨ src.length % b.BlockSize ≠ 0 then
    Run.panicked
  else Run.done (cbcEncryptBlocks b (src.length / b.BlockSize) iv src)

/-- `cipher.NewCBCDecrypter(b, iv).CryptBlocks(dst, src)` with
`len(dst) = len(src)`, as a function of `src`.  Panics when the IV length is
not the block size or the input is not made of full blocks. -/
def CBCDecrypt (b : Block) (iv src : Bytes) : Run Bytes :=
  if b.BlockSize = 0 ∨ iv.length ≠ b.BlockSize ∨ src.length % b.BlockSize ≠ 0 then
    Run.panicked
  else Run.done (cbcDecryptBlocks b (src.length / b.BlockSize) iv src)

/-- The loop of `unpadPKCS7` over the final `padding` bytes: false as soon as
one of them differs from `padding`. -/
def paddingRunOk (padding : Nat) : Bytes → Bool
  | [] => true
  | b :: rest => if b.val ≠ padding then false else paddingRunOk padding rest

/-- `unpadPKCS7(data)`: the index where the PKCS#7 padding starts, or an
error. -/
def unpadPKCS7 (data : Bytes) : Nat × Option GoError :=
  if data.length = 0 then (0, some (GoError.errorString "empty input"))
  else
    let padding := (data.getD (data.length - 1) 0).val
    if padding > data.length ∨ padding = 0 then
      (0, some (GoError.errorString "invalid padding"))
    else if paddingRunOk padding (data.drop (data.length - padding)) then
      (data.length - padding, none)
    else (0, some (GoError.errorString "invalid padding"))

/-- `padPKCS7(dataLen, blockSize)`: `padding` bytes each equal to
`byte(padding)`, where `padding = blockSize - dataLen % blockSize`.  A block
size of zero is a division by zero. -/
def padPKCS7 (dataLen blockSize : Nat) : Run Bytes :=
  if blockSize = 0 then Run.panicked
  else
    let padding := blockSize - dataLen % blockSize
    Run.done (List.replicate padding (toByte padding))

/-- `generateSignature(token, hashing, message...)`. -/
def generateSignature (token : Bytes) (hashing : MacFactory) (message : Bytes) : Bytes :=
  hashing.hmac token message

/-- `verify(hmac, token, hashing, should, message...)`: `none` is the `nil`
error. -/
def verify (hmac token : Bytes) (hashing : MacFactory)
    (should : Bytes → MacFactory → Bytes → Bytes) (message : Bytes) : Option GoError :=
  if ConstantTimeCompare (should token hashing message) hmac ≠ 1 then
    some (GoError.errorString "signature verification failed")
  else none

/-- `encryptorCBCHMAC.seal(iv, plaintext, additionalData)`: the parcel buffer
is allocated once and its slots are written in place. -/
def encryptorCBCHMAC.seal (crytor : cryptorCBCHMAC) (iv plaintext additionalData : Bytes) : Run Bytes :=
  let cypherLen := plaintext.length + crytor.pher.BlockSize + crytor.macLength
    + additionalDataHeaderLength + additionalData.length
  let parcel0 := make cypherLen
  let adLength := additionalData.length % 65536
  let adHeaderLocation := crytor.macLength
  let adLocation := adHeaderLocation + additionalDataHeaderLength
  let parcel1 := copyInto parcel0 adHeaderLocation adLocation (PutUint16 adLength)
  let ivLocation := adLocation + additionalData.length
  let parcel2 := copyInto parcel1 adLocation ivLocation additionalData
  let cipherTextLocation := ivLocation + iv.length
  let parcel3 := copyInto parcel2 ivLocation cipherTextLocation iv
  (CBCEncrypt crytor.pher iv plaintext).bind fun blocks =>
    let parcel4 := copyInto parcel3 cipherTextLocation cypherLen blocks
    let hmac := generateSignature crytor.integrityKey crytor.calcMac
      (parcel4.drop adHeaderLocation)
    Run.done (copyInto parcel4 0 adHeaderLocation hmac)

/-- `encryptorCBCHMAC.Crypt(message, additionalData)`: the parcel and the
error (`none` is `nil`). -/
def encryptorCBCHMAC.Crypt (crytor : cryptorCBCHMAC) (message : Option Bytes)
    (additionalData : Bytes) : Run (Option Bytes × Option GoError) :=
  match message with
  | none => Run.done (none, some (GoError.MessageError "message was nil"))
  | some message =>
    if additionalData.length > maxAdditionalDataSize then
      Run.done (none, some (GoError.MessageError "additional data too large"))
    else
      (padPKCS7 message.length crytor.pher.BlockSize).bind fun pad =>
        let payload0 := make (message.length + pad.length)
        let payload1 := copyInto payload0 0 message.length message
        let payload := copyInto payload1 message.length (message.length + pad.length) pad
        (ReadFull crytor.rand crytor.pher.BlockSize).bind fun read =>
          match read with
          | (_, some err) => Run.done (none, some err)
          | (iv, none) =>
            (encryptorCBCHMAC.seal crytor iv payload additionalData).bind fun parcel =>
              Run.done (some parcel, none)

/-- What the decryptor's `Crypt` returns: `(message, additionalData, err)`,
`none` standing for `nil`. -/
structure OpenResult where
  message : Option Bytes
  additionalData : Option Bytes
  err : Option GoError
  deriving DecidableEq, Repr

/-- `decryptorCBCHMAC.Crypt(ciphertext)`. -/
def decryptorCBCHMAC.Crypt (cryptor : cryptorCBCHMAC) (ciphertext : Option Bytes) :
    Run OpenResult :=
  match ciphertext with
  | none => Run.done ⟨none, none, some (GoError.CipherTextError "cipherText was nil")⟩
  | some ciphertext =>
    if ciphertext.length < cryptor.macLength + cryptor.pher.BlockSize then
      Run.done ⟨none, none, some (GoError.CipherTextError "cipherText is invalid")⟩
    else
      let minCiphertextSize :=
        cryptor.macLength + additionalDataHeaderLength + cryptor.pher.BlockSize
      if ciphertext.length < minCiphertextSize then
        Run.done ⟨none, none, some (GoError.CipherTextError "cipherText is too short")⟩
      else
        let adHeaderLocation := cryptor.macLength
        (slice ciphertext 0 adHeaderLocation).bind fun mac =>
        (sliceFrom ciphertext adHeaderLocation).bind fun rest =>
        match verify mac cryptor.integrityKey cryptor.calcMac generateSignature rest with
        | some err =>
          Run.done ⟨none, none, some (GoError.wrapError "data integrity compromised " err)⟩
        | none =>
          let adLocation := adHeaderLocation + additionalDataHeaderLength
          (slice ciphertext adHeaderLocation adLocation).bind fun adLengthHeader =>
          let adLength := Uint16 adLengthHeader
          let ivLocation := adLocation + adLength
          (slice ciphertext adLocation ivLocation).bind fun additionalData =>
          let cipherTextLocation := ivLocation + cryptor.pher.BlockSize
          (slice ciphertext ivLocation cipherTextLocation).bind fun iv =>
          (sliceFrom ciphertext cipherTextLocation).bind fun payload =>
          (CBCDecrypt cryptor.pher iv payload).bind fun dst =>
          match unpadPKCS7 dst with
          | (_, some err) => Run.done ⟨none, none, some err⟩
          | (unpadIndex, none) =>
            let message := copyInto (make unpadIndex) 0 unpadIndex (dst.take unpadIndex)
            Run.done ⟨some message, some additionalData, none⟩

/-- `aes.NewCipher(key)`: the cipher for a key of 16, 24 or 32 bytes,
`KeySizeError` otherwise.  The key schedule `aes` is a parameter. -/
def aesNewCipher (aes : Bytes → Block) (key : Bytes) : Except GoError Block :=
  if key.length = 16 ∨ key.length = 24 ∨ key.length = 32 then Except.ok (aes key)
  else Except.error (GoError.KeySizeError key.length)

/-- `newCBCHMACryptor(encryptionKey, integrityKey, calculateMAC)`.  On an
error the Go function returns the zero cryptor, which no caller uses; here
only the error is returned.  The new cryptor has no randomness source. -/
def newCBCHMACryptor (aes : Bytes → Block) (encryptionKey integrityKey : Bytes)
    (calculateMAC : MacFactory) : Except GoError cryptorCBCHMAC :=
  let minKeySize := 16
  if encryptionKey.length < minKeySize then
    Except.error (GoError.EncryptionKeyError "encryption key too short")
  else if integrityKey.length < minKeySize then
    Except.error (GoError.EncryptionKeyError "integrity key too short")
  else if encryptionKey = integrityKey then
    Except.error
      (GoError.InvalidUsageError "using same key for encryption and integrity is not allowed")
  else
    match aesNewCipher aes encryptionKey with
    | Except.error err => Except.error err
    | Except.ok block =>
      let newintegrityKey := copyInto (make integrityKey.length) 0 integrityKey.length integrityKey
      Except.ok
        { pher := block
          macLength := calculateMAC.Size
          integrityKey := newintegrityKey
          calcMac := calculateMAC
          rand := none }

/-- `NewCBCHMACEncryptor(encryptionKey, integrityKey, calculateMAC, rand)`:
the encryptor (`none` is `nil`) and the error. -/
def NewCBCHMACEncryptor (aes : Bytes → Block) (encryptionKey integrityKey : Bytes)
    (calculateMAC : MacFactory) (rand : Option Reader) :
    Option cryptorCBCHMAC × Option GoError :=
  match newCBCHMACryptor aes encryptionKey integrityKey calculateMAC with
  | Except.error err => (none, some err)
  | Except.ok cry => (some { cry with rand := rand }, none)

/-- `NewCBCHMACDecryptor(encryptionKey, integrityKey, calculateMAC)`: the
decryptor (`none` is `nil`) and the error. -/
def NewCBCHMACDecryptor (aes : Bytes → Block) (encryptionKey integrityKey : Bytes)
    (calculateMAC : MacFactory) : Option cryptorCBCHMAC × Option GoError :=
  match newCBCHMACryptor aes encryptionKey integrityKey calculateMAC with
  | Except.error err => (none, some err)
  | Except.ok cry => (some cry, none)

/-! ## Contracts of the standard-library collaborators -/

/-- The contract of a `cipher.Block`: a positive block size, encryption of
one block gives one block, and decryption inverts encryption. -/
structure Block.Sound (b : Block) : Prop where
  size_pos : 0 < b.BlockSize
  encrypt_length : ∀ x : Bytes, x.length = b.BlockSize → (b.Encrypt x).length = b.BlockSize
  decrypt_encrypt : ∀ x : Bytes, x.length = b.BlockSize → b.Decrypt (b.Encrypt x) = x

/-- The contract of `hash.Hash`: `Sum(nil)` has `Size()` bytes. -/
def MacFactory.Sound (h : MacFactory) : Prop :=
  ∀ token message : Bytes, (h.hmac token message).length = h.Size

/-- The invariant of a constructed cryptor: its collaborators keep their
contracts and `macLength` is the size probed from the MAC factory. -/
structure cryptorCBCHMAC.Valid (c : cryptorCBCHMAC) : Prop where
  block : c.pher.Sound
  mac : c.calcMac.Sound
  macLength_eq : c.macLength = c.calcMac.Size

/-- The integrity error of the decryptor:
`fmt.Errorf("data integrity compromised %w", err)` around the error of
`verify`. -/
def integrityError : GoError :=
  GoError.wrapError "data integrity compromised "
    (GoError.errorString "signature verification failed")

/-- The body of a parcel for a drawn IV and a padded payload:
`AD-Length | AD | IV | blocks`. -/
def parcelBody (c : cryptorCBCHMAC) (iv payload additionalData : Bytes) : Bytes :=
  PutUint16 additionalData.length ++ additionalData ++ iv
    ++ cbcEncryptBlocks c.pher (payload.length / c.pher.BlockSize) iv payload

/-- The payload that the encryptor's `Crypt` hands to `seal`: the message
followed by its PKCS#7 padding for block size `B`. -/
def paddedPayload (message : Bytes) (B : Nat) : Bytes :=
  message ++ List.replicate (B - message.length % B) (toByte (B - message.length % B))

/-- The tag check of the decryptor, as a proposition: the first `macLength`
bytes of the parcel equal the MAC of the rest. -/
def tagVerifies (c : cryptorCBCHMAC) (ciphertext : Bytes) : Prop :=
  ciphertext.take c.macLength
    = generateSignature c.integrityKey c.calcMac (ciphertext.drop c.macLength)

instance (c : cryptorCBCHMAC) (ciphertext : Bytes) : Decidable (tagVerifies c ciphertext) := by
  unfold tagVerifies
  exact inferInstance

/-- The AD length that the decryptor parses from a parcel. -/
def parsedADLength (c : cryptorCBCHMAC) (ciphertext : Bytes) : Nat :=
  Uint16 ((ciphertext.take (c.macLength + additionalDataHeaderLength)).drop c.macLength)

/-- The contract of `crypto/aes`: for a key of 16, 24 or 32 bytes the cipher
is a sound block cipher of block size 16. -/
def AESContract (aes : Bytes → Block) : Prop :=
  ∀ key : Bytes, (key.length = 16 ∨ key.length = 24 ∨ key.length = 32) →
    (aes key).Sound ∧ (aes key).BlockSize = 16

/-! ## Small concrete collaborators, used to evaluate the code -/

/-- A toy block cipher of block size 16: every byte is xored with `k`. -/
def xorBlock (k : Byte) : Block :=
  { BlockSize := 16
    Encrypt := fun x => x.map fun v => v ^^^ k
    Decrypt := fun x => x.map fun v => v ^^^ k }

/-- A toy key schedule: the first key byte selects the xor mask. -/
def toyAES (key : Bytes) : Block := xorBlock (key.headD 0)

/-- A toy keyed checksum of two bytes: the sum of key and message bytes,
and the message length. -/
def sumMac : MacFactory :=
  { Size := 2
    hmac := fun token message =>
      [(token ++ message).foldl (fun a v => a + v) 0, toByte message.length] }

/-- A degenerate MAC factory whose tag ignores key and message. -/
def constMac : MacFactory :=
  { Size := 2
    hmac := fun _ _ => [0, 0] }

/-- A randomness source delivering sixteen bytes `1, 2, ..., 16`. -/
def countingReader : Reader :=
  { data := [1, 2, 3, 4, 5, 6, 7, 8, 9, 10, 11, 12, 13, 14, 15, 16]
    err := GoError.EOF }

/-- A cryptor over the toy collaborators. -/
def toyCryptor : cryptorCBCHMAC :=
  { pher := xorBlock 90
    macLength := 2
    calcMac := sumMac
    integrityKey := [1, 1, 1, 1, 1, 1, 1, 1, 1, 1, 1, 1, 1, 1, 1, 1]
    rand := some countingReader }

/-- Sixteen zero bytes, an encryption key. -/
def zeroKey : Bytes := List.replicate 16 0

/-- Sixteen bytes `0x01`, an integrity key. -/
def onesKey : Bytes := List.replicate 16 1

/-- The bytes of `"hello"`. -/
def hello : Bytes := [104, 101, 108, 108, 111]

/-- The encryptor that `NewCBCHMACEncryptor` builds from the toy
collaborators and the keys `zeroKey`, `onesKey`. -/
def toyEncryptor : cryptorCBCHMAC :=
  { pher := toyAES zeroKey
    macLength := 2
    calcMac := sumMac
    integrityKey := onesKey
    rand := some countingReader }

/-- The decryptor that `NewCBCHMACDecryptor` builds from the same keys. -/
def toyDecryptor : cryptorCBCHMAC :=
  { pher := toyAES zeroKey
    macLength := 2
    calcMac := sumMac
    integrityKey := onesKey
    rand := none }

/-- A parcel for `toyCryptor` of length `M + 2 + B = 20` with a verifying
tag and the AD-length header `0xFFFF`: the announced AD overruns the
parcel. -/
def overrunParcel : Bytes :=
  [14, 18, 255, 255, 0, 0, 0, 0, 0, 0, 0, 0, 0, 0, 0, 0, 0, 0, 0, 0]

/-- A parcel for `toyCryptor` of length `M + 2 + B = 20` with a verifying
tag, an empty AD and an IV, and no ciphertext block. -/
def noBlockParcel : Bytes :=
  [16, 18, 0, 0, 0, 0, 0, 0, 0, 0, 0, 0, 0, 0, 0, 0, 0, 0, 0, 0]

/-- A parcel for `toyCryptor` of length 20 whose tag does not verify. -/
def badTagParcel : Bytes :=
  [0, 0, 0, 0, 0, 0, 0, 0, 0, 0, 0, 0, 0, 0, 0, 0, 0, 0, 0, 0]

/-- The toy cryptor with the degenerate MAC factory. -/
def constCryptor : cryptorCBCHMAC :=
  { pher := xorBlock 90
    macLength := 2
    calcMac := constMac
    integrityKey := onesKey
    rand := some countingReader }

/-- The parcel that `constCryptor` seals for `"hello"` with empty additional
data. -/
def constSealed : Bytes :=
  [0, 0, 0, 0, 1, 2, 3, 4, 5, 6, 7, 8, 9, 10, 11, 12, 13, 14, 15, 16,
   51, 61, 53, 50, 48, 87, 86, 89, 88, 91, 90, 93, 92, 95, 94, 65]

/-- The parcel that `toyCryptor` seals for `"hello"` with empty additional
data. -/
def toySealed : Bytes :=
  [105, 34, 0, 0, 1, 2, 3, 4, 5, 6, 7, 8, 9, 10, 11, 12, 13, 14, 15, 16,
   51, 61, 53, 50, 48, 87, 86, 89, 88, 91, 90, 93, 92, 95, 94, 65]

/-- Sixteen plaintext bytes whose last byte is `0x01`. -/
def endsInOne : Bytes := [65, 65, 65, 65, 65, 65, 65, 65, 65, 65, 65, 65, 65, 65, 65, 1]

/-- The parcel that `constCryptor` seals for `endsInOne` with empty
additional data: tag, header, IV and two blocks, 52 bytes. -/
def constSealedTwoBlocks : Bytes :=
  [0, 0, 0, 0, 1, 2, 3, 4, 5, 6, 7, 8, 9, 10, 11, 12, 13, 14, 15, 16,
   26, 25, 24, 31, 30, 29, 28, 19, 18, 17, 16, 23, 22, 21, 20, 75,
   80, 83, 82, 85, 84, 87, 86, 89, 88, 91, 90, 93, 92, 95, 94, 1]

/-- The parcel that `toyCryptor` seals for `endsInOne` with empty additional
data. -/
def toySealedTwoBlocks : Bytes :=
  [104, 50, 0, 0, 1, 2, 3, 4, 5, 6, 7, 8, 9, 10, 11, 12, 13, 14, 15, 16,
   26, 25, 24, 31, 30, 29, 28, 19, 18, 17, 16, 23, 22, 21, 20, 75,
   80, 83, 82, 85, 84, 87, 86, 89, 88, 91, 90, 93, 92, 95, 94, 1]

/-- The other half of a block cipher being a permutation of the blocks:
decryption of one block gives one block, and encryption inverts
decryption. -/
structure Block.Inverse (b : Block) : Prop where
  decrypt_length : ∀ x : Bytes, x.length = b.BlockSize → (b.Decrypt x).length = b.BlockSize
  encrypt_decrypt : ∀ x : Bytes, x.length = b.BlockSize → b.Encrypt (b.Decrypt x) = x

/-- A parcel for `toyCryptor` with a verifying tag whose two ciphertext
blocks decrypt to 32 bytes `0x20`. -/
def longRunParcel : Bytes :=
  [136, 50, 0, 0, 1, 2, 3, 4, 5, 6, 7, 8, 9, 10, 11, 12, 13, 14, 15, 16,
   123, 120, 121, 126, 127, 124, 125, 114, 115, 112, 113, 118, 119, 116, 117, 106,
   1, 2, 3, 4, 5, 6, 7, 8, 9, 10, 11, 12, 13, 14, 15, 16]

/-- The loop of `subtle.ConstantTimeCompare` over two slices of equal
length: `v |= x[i] ^ y[i]` for every index. -/
def constantTimeAccumulate : Bytes → Bytes → Byte → Byte
  | a :: x, b :: y, v => constantTimeAccumulate x y (v ||| (a ^^^ b))
  | _, _, v => v

/-- The body of `subtle.ConstantTimeCompare(x, y)` as written in the library:
0 when the lengths differ, otherwise `ConstantTimeByteEq(v, 0)` for the
accumulated `v`. -/
def ConstantTimeCompareLoop (x y : Bytes) : Nat :=
  if x.length ≠ y.length then 0
  else if constantTimeAccumulate x y 0 = 0 then 1 else 0

/-- A randomness source that ends after three bytes. -/
def shortReader : Reader :=
  { data := [7, 8, 9]
    err := GoError.EOF }

/-- The toy cryptor reading from `shortReader`. -/
def shortCryptor : cryptorCBCHMAC :=
  { pher := xorBlock 90
    macLength := 2
    calcMac := sumMac
    integrityKey := onesKey
    rand := some shortReader }

/-- The byte buffers that a call of the decryptor's `Crypt` can reach: the
caller's parcel and the two buffers the call allocates. -/
structure OpenMem where
  /-- The parcel passed by the caller (`none` is `nil`). -/
  ciphertext : Option Bytes
  /-- The local buffer `dst`. -/
  dst : Bytes
  /-- The local buffer `message`. -/
  message : Bytes

/-- `decryptorCBCHMAC.Crypt(ciphertext)` with the buffers passed explicitly:
the result and the buffers after the call.  The statements that write are
`make` and `CryptBlocks` on `dst`, and `make` and `copy` on `message`; every
other statement only reads. -/
def decryptorCBCHMAC.CryptMem (cryptor : cryptorCBCHMAC) (mem : OpenMem) :
    Run (OpenResult × OpenMem) :=
  match mem.ciphertext with
  | none =>
    Run.done (⟨none, none, some (GoError.CipherTextError "cipherText was nil")⟩, mem)
  | some ciphertext =>
    if ciphertext.length < cryptor.macLength + cryptor.pher.BlockSize then
      Run.done (⟨none, none, some (GoError.CipherTextError "cipherText is invalid")⟩, mem)
    else
      let minCiphertextSize :=
        cryptor.macLength + additionalDataHeaderLength + cryptor.pher.BlockSize
      if ciphertext.length < minCiphertextSize then
        Run.done (⟨none, none, some (GoError.CipherTextError "cipherText is too short")⟩, mem)
      else
        let adHeaderLocation := cryptor.macLength
        (slice ciphertext 0 adHeaderLocation).bind fun mac =>
        (sliceFrom ciphertext adHeaderLocation).bind fun rest =>
        match verify mac cryptor.integrityKey cryptor.calcMac generateSignature rest with
        | some err =>
          Run.done
            (⟨none, none, some (GoError.wrapError "data integrity compromised " err)⟩, mem)
        | none =>
          let adLocation := adHeaderLocation + additionalDataHeaderLength
          (slice ciphertext adHeaderLocation adLocation).bind fun adLengthHeader =>
          let adLength := Uint16 adLengthHeader
          let ivLocation := adLocation + adLength
          (slice ciphertext adLocation ivLocation).bind fun additionalData =>
          let cipherTextLocation := ivLocation + cryptor.pher.BlockSize
          (slice ciphertext ivLocation cipherTextLocation).bind fun iv =>
          (sliceFrom ciphertext cipherTextLocation).bind fun payload =>
          let mem1 : OpenMem := { mem with dst := make payload.length }
          (CBCDecrypt cryptor.pher iv payload).bind fun blocks =>
          let mem2 : OpenMem := { mem1 with dst := blocks }
          match unpadPKCS7 mem2.dst with
          | (_, some err) => Run.done (⟨none, none, some err⟩, mem2)
          | (unpadIndex, none) =>
            let mem3 : OpenMem := { mem2 with message := make unpadIndex }
            let mem4 : OpenMem :=
              { mem3 with
                message := copyInto mem3.message 0 unpadIndex (mem3.dst.take unpadIndex) }
            Run.done (⟨some mem4.message, some additionalData, none⟩, mem4)

/-- The byte buffers that a call of the encryptor's `Crypt` can reach: the
caller's message and additional data, and the buffers the call allocates. -/
structure SealMem where
  /-- The message passed by the caller (`none` is `nil`). -/
  message : Option Bytes
  /-- The additional data passed by the caller. -/
  additionalData : Bytes
  /-- The local buffer `payload`. -/
  payload : Bytes
  /-- The local buffer `iv`. -/
  iv : Bytes
  /-- The buffer `cypherParcel` allocated by `seal`. -/
  cypherParcel : Bytes

/-- `encryptorCBCHMAC.Crypt(message, additionalData)` with the buffers
passed explicitly: the result and the buffers after the call.  The statements
that write are `make` and the two `copy` calls on `payload`, `make` and
`io.ReadFull` on `iv`, and `seal` on the parcel it allocates; `message` and
`additionalData` are only read. -/
def encryptorCBCHMAC.CryptMem (crytor : cryptorCBCHMAC) (mem : SealMem) :
    Run ((Option Bytes × Option GoError) × SealMem) :=
  match mem.message with
  | none => Run.done ((none, some (GoError.MessageError "message was nil")), mem)
  | some message =>
    if mem.additionalData.length > maxAdditionalDataSize then
      Run.done ((none, some (GoError.MessageError "additional data too large")), mem)
    else
      (padPKCS7 message.length crytor.pher.BlockSize).bind fun pad =>
        let mem1 : SealMem := { mem with payload := make (message.length + pad.length) }
        let mem2 : SealMem :=
          { mem1 with payload := copyInto mem1.payload 0 message.length message }
        let mem3 : SealMem :=
          { mem2 with
            payload := copyInto mem2.payload message.length (message.length + pad.length) pad }
        let mem4 : SealMem := { mem3 with iv := make crytor.pher.BlockSize }
        (ReadFull crytor.rand crytor.pher.BlockSize).bind fun read =>
          match read with
          | (buf, some err) =>
            Run.done ((none, some err),
              { mem4 with iv := copyInto mem4.iv 0 crytor.pher.BlockSize buf })
          | (buf, none) =>
            let mem5 : SealMem :=
              { mem4 with iv := copyInto mem4.iv 0 crytor.pher.BlockSize buf }
            (encryptorCBCHMAC.seal crytor mem5.iv mem5.payload mem5.additionalData).bind
              fun parcel =>
                Run.done ((some parcel, none), { mem5 with cypherParcel := parcel })

/-- A byte sequence ends in a valid PKCS#7 padding run: for some `p` with
`1 <= p <= |d|`, each of the final `p` bytes equals `p`. -/
def ValidPKCS7Run (d : Bytes) : Prop :=
  ∃ p : Nat, 1 ≤ p ∧ p ≤ d.length
    ∧ ∀ i : Nat, d.length - p ≤ i → i < d.length → (d.getD i 0).val = p

/-- The payload that the decryptor hands to `unpadPKCS7`: the CBC
decryption, under the IV found in the parcel, of the bytes after the IV. -/
def decryptedPayload (c : cryptorCBCHMAC) (ciphertext : Bytes) : Bytes :=
  let cipherTextLocation := c.macLength + 2 + parsedADLength c ciphertext + c.pher.BlockSize
  cbcDecryptBlocks c.pher ((ciphertext.drop cipherTextLocation).length / c.pher.BlockSize)
    ((ciphertext.take cipherTextLocation).drop (c.macLength + 2 + parsedADLength c ciphertext))
    (ciphertext.drop cipherTextLocation)

/-- A parcel for `toyCryptor` with a verifying tag, an empty AD, an IV and
one ciphertext block that decrypts to bytes without a padding run. -/
def badPaddingParcel : Bytes :=
  [152, 34, 0, 0, 1, 2, 3, 4, 5, 6, 7, 8, 9, 10, 11, 12, 13, 14, 15, 16,
   0, 0, 0, 0, 0, 0, 0, 0, 0, 0, 0, 0, 0, 0, 0, 0]

/-- A parcel for `toyCryptor` of two bytes: the tag of the empty message and
nothing after it. -/
def tagOnlyParcel : Bytes := [16, 0]

/-- A randomness source delivering sixteen bytes `16, 15, ..., 1`. -/
def descendingReader : Reader :=
  { data := [16, 15, 14, 13, 12, 11, 10, 9, 8, 7, 6, 5, 4, 3, 2, 1]
    err := GoError.EOF }

/-- The parcel that `toyCryptor` seals for `"hello"` with empty additional
data when it reads its IV from `descendingReader`. -/
def toySealedDescending : Bytes :=
  [71, 34, 0, 0, 16, 15, 14, 13, 12, 11, 10, 9, 8, 7, 6, 5, 4, 3, 2, 1,
   34, 48, 56, 59, 57, 90, 91, 88, 89, 86, 87, 84, 85, 82, 83, 80]

/-! ## Basic facts -/

@[simp] theorem Run.bind_done {α β : Type} (a : α) (f : α → Run β) :
    (Run.done a).bind f = f a := rfl

@[simp] theorem Run.bind_panicked {α β : Type} (f : α → Run β) :
    (Run.panicked : Run α).bind f = Run.panicked := rfl

theorem byte_xor_cancel (x y : Byte) : (x ^^^ y) ^^^ y = x := by
  apply Fin.ext
  have hx : x.val < 2 ^ 8 := x.isLt
  have hy : y.val < 2 ^ 8 := y.isLt
  have h1 : (x ^^^ y).val = x.val ^^^ y.val := by
    show (x.val ^^^ y.val) % 256 = _
    exact Nat.mod_eq_of_lt (Nat.xor_lt_two_pow hx hy)
  have h2 : ((x ^^^ y) ^^^ y).val = (x ^^^ y).val ^^^ y.val := by
    show ((x ^^^ y).val ^^^ y.val) % 256 = _
    apply Nat.mod_eq_of_lt
    rw [h1]
    exact Nat.xor_lt_two_pow (Nat.xor_lt_two_pow hx hy) hy
  rw [h2, h1, Nat.xor_cancel_right]

theorem xorBytes_length (a b : Bytes) : (xorBytes a b).length = min a.length b.length := by
  simp [xorBytes]

theorem xorBytes_cancel : ∀ (a b : Bytes), a.length ≤ b.length → xorBytes (xorBytes a b) b = a
  | [], _, _ => by simp [xorBytes]
  | _ :: _, [], h => by simp at h
  | x :: a, y :: b, h => by
    have ih := xorBytes_cancel a b (by simpa using h)
    simp only [xorBytes, List.zipWith_cons_cons] at ih ⊢
    rw [ih, byte_xor_cancel]

theorem make_length (n : Nat) : (make n).length = n := by simp [make]

theorem make_add (m n : Nat) : make (m + n) = make m ++ make n := by
  unfold make
  exact List.replicate_add m n 0

/-- Writing a source of the slot's size into the slot `z` of `a ++ z ++ c`
replaces exactly that slot. -/
theorem copyInto_segment (a z c s : Bytes) (lo hi : Nat) (hlo : lo = a.length)
    (hhi : hi = lo + z.length) (hs : s.length = z.length) :
    copyInto (a ++ (z ++ c)) lo hi s = a ++ (s ++ c) := by
  subst hlo hhi
  have hn : min (a.length + z.length - a.length) s.length = s.length := by
    rw [Nat.add_sub_cancel_left, hs, Nat.min_self]
  unfold copyInto
  simp only [hn, List.take_length, List.append_assoc]
  rw [List.take_left' rfl, hs, List.drop_append, List.drop_left' rfl]

theorem copyInto_prefix (z c s : Bytes) (hi : Nat) (hhi : hi = z.length)
    (hs : s.length = z.length) : copyInto (z ++ c) 0 hi s = s ++ c := by
  have h := copyInto_segment [] z c s 0 hi rfl (by simpa using hhi) hs
  simpa using h

theorem cbcEncryptBlocks_length (b : Block) (hb : b.Sound) :
    ∀ (n : Nat) (iv src : Bytes), iv.length = b.BlockSize → src.length = n * b.BlockSize →
      (cbcEncryptBlocks b n iv src).length = n * b.BlockSize
  | 0, _, _, _, _ => by simp [cbcEncryptBlocks]
  | n + 1, iv, src, hiv, hsrc => by
    have hx : (xorBytes (src.take b.BlockSize) iv).length = b.BlockSize := by
      rw [xorBytes_length, List.length_take, hiv, hsrc, Nat.succ_mul]
      omega
    have hc := hb.encrypt_length _ hx
    have hd : (src.drop b.BlockSize).length = n * b.BlockSize := by
      rw [List.length_drop, hsrc, Nat.succ_mul]
      omega
    have ih := cbcEncryptBlocks_length b hb n _ (src.drop b.BlockSize) hc hd
    simp only [cbcEncryptBlocks, List.length_append, hc, ih, Nat.succ_mul]
    omega

/-- CBC decryption inverts CBC encryption on full blocks. -/
theorem cbcDecryptBlocks_encrypt (b : Block) (hb : b.Sound) :
    ∀ (n : Nat) (iv src : Bytes), iv.length = b.BlockSize → src.length = n * b.BlockSize →
      cbcDecryptBlocks b n iv (cbcEncryptBlocks b n iv src) = src
  | 0, _, src, _, hsrc => by
    have : src = [] := List.length_eq_zero.mp (by simpa using hsrc)
    simp [cbcDecryptBlocks, cbcEncryptBlocks, this]
  | n + 1, iv, src, hiv, hsrc => by
    have ht : (src.take b.BlockSize).length = b.BlockSize := by
      rw [List.length_take, hsrc, Nat.succ_mul]
      omega
    have hx : (xorBytes (src.take b.BlockSize) iv).length = b.BlockSize := by
      rw [xorBytes_length, ht, hiv, Nat.min_self]
    have hc := hb.encrypt_length _ hx
    have hd : (src.drop b.BlockSize).length = n * b.BlockSize := by
      rw [List.length_drop, hsrc, Nat.succ_mul]
      omega
    have ih := cbcDecryptBlocks_encrypt b hb n _ (src.drop b.BlockSize) hc hd
    simp only [cbcDecryptBlocks, cbcEncryptBlocks]
    rw [List.take_left' hc, List.drop_left' hc, hb.decrypt_encrypt _ hx,
      xorBytes_cancel _ _ (by rw [ht, hiv]), ih, List.take_append_drop]

theorem PutUint16_length (v : Nat) : (PutUint16 v).length = 2 := rfl

theorem parcelBody_length (c : cryptorCBCHMAC) (hb : c.pher.Sound) (iv payload ad : Bytes)
    (hiv : iv.length = c.pher.BlockSize) (hp : payload.length % c.pher.BlockSize = 0) :
    (parcelBody c iv payload ad).length
      = 2 + ad.length + c.pher.BlockSize + payload.length := by
  have hn : payload.length = payload.length / c.pher.BlockSize * c.pher.BlockSize :=
    (Nat.div_mul_cancel (Nat.dvd_of_mod_eq_zero hp)).symm
  have hl := cbcEncryptBlocks_length c.pher hb _ iv payload hiv hn
  simp only [parcelBody, List.length_append, PutUint16_length, hl, hiv, ← hn]

/-- The parcel assembled by `seal`, in closed form: the tag over the body,
followed by the body. -/
theorem seal_eq (c : cryptorCBCHMAC) (hv : c.Valid) (iv payload ad : Bytes)
    (hiv : iv.length = c.pher.BlockSize) (hp : payload.length % c.pher.BlockSize = 0)
    (had : ad.length ≤ 65535) :
    encryptorCBCHMAC.seal c iv payload ad
      = Run.done (c.calcMac.hmac c.integrityKey (parcelBody c iv payload ad)
          ++ parcelBody c iv payload ad) := by
  have hpos := hv.block.size_pos
  have hn : payload.length = payload.length / c.pher.BlockSize * c.pher.BlockSize :=
    (Nat.div_mul_cancel (Nat.dvd_of_mod_eq_zero hp)).symm
  have hl := cbcEncryptBlocks_length c.pher hv.block _ iv payload hiv hn
  rw [← hn] at hl
  have hmod : ad.length % 65536 = ad.length := Nat.mod_eq_of_lt (by omega)
  have hcbc : CBCEncrypt c.pher iv payload
      = Run.done (cbcEncryptBlocks c.pher (payload.length / c.pher.BlockSize) iv payload) := by
    unfold CBCEncrypt
    rw [if_neg]
    intro h
    rcases h with h | h | h
    · omega
    · exact h hiv
    · exact h hp
  have hlen : payload.length + c.pher.BlockSize + c.macLength + additionalDataHeaderLength
      + ad.length = c.macLength + (2 + (ad.length + (iv.length + payload.length))) := by
    simp only [additionalDataHeaderLength, hiv]
    omega
  have h0 : make (c.macLength + (2 + (ad.length + (iv.length + payload.length))))
      = make c.macLength ++ (make 2 ++ (make ad.length ++ (make iv.length
          ++ make payload.length))) := by
    simp only [make_add]
  unfold encryptorCBCHMAC.seal
  simp only [hcbc, Run.bind_done, hlen, h0, hmod]
  have h1 := copyInto_segment (make c.macLength) (make 2)
    (make ad.length ++ (make iv.length ++ make payload.length)) (PutUint16 ad.length)
    c.macLength (c.macLength + additionalDataHeaderLength) (make_length _).symm
    (by simp [additionalDataHeaderLength, make_length]) (by simp [make_length, PutUint16_length])
  rw [h1]
  have h2 := copyInto_segment (make c.macLength ++ PutUint16 ad.length) (make ad.length)
    (make iv.length ++ make payload.length) ad
    (c.macLength + additionalDataHeaderLength)
    (c.macLength + additionalDataHeaderLength + ad.length)
    (by simp [additionalDataHeaderLength, make_length, PutUint16_length])
    (by simp [make_length]) (by simp [make_length])
  simp only [List.append_assoc] at h2
  rw [h2]
  have h3 := copyInto_segment (make c.macLength ++ (PutUint16 ad.length ++ ad))
    (make iv.length) (make payload.length) iv
    (c.macLength + additionalDataHeaderLength + ad.length)
    (c.macLength + additionalDataHeaderLength + ad.length + iv.length)
    (by simp [additionalDataHeaderLength, make_length, PutUint16_length]; omega)
    (by simp [make_length]) (by simp [make_length])
  simp only [List.append_assoc] at h3
  rw [h3]
  have h4 := copyInto_segment (make c.macLength ++ (PutUint16 ad.length ++ (ad ++ iv)))
    (make payload.length) []
    (cbcEncryptBlocks c.pher (payload.length / c.pher.BlockSize) iv payload)
    (c.macLength + additionalDataHeaderLength + ad.length + iv.length)
    (c.macLength + (2 + (ad.length + (iv.length + payload.length))))
    (by simp [additionalDataHeaderLength, make_length, PutUint16_length]; omega)
    (by simp [additionalDataHeaderLength, make_length]; omega) (by simp [make_length, hl])
  simp only [List.append_assoc, List.append_nil] at h4
  rw [h4]
  have hbody : PutUint16 ad.length ++ (ad ++ (iv
      ++ cbcEncryptBlocks c.pher (payload.length / c.pher.BlockSize) iv payload))
      = parcelBody c iv payload ad := by
    simp [parcelBody]
  rw [hbody, List.drop_left' (make_length _)]
  have h5 := copyInto_prefix (make c.macLength) (parcelBody c iv payload ad)
    (generateSignature c.integrityKey c.calcMac (parcelBody c iv payload ad)) c.macLength
    (make_length _).symm
    (by rw [make_length, generateSignature, hv.mac, hv.macLength_eq])
  rw [h5]
  rfl

theorem padded_length_eq (L B : Nat) (hB : 0 < B) :
    L + (B - L % B) = (L / B + 1) * B := by
  have h := Nat.div_add_mod L B
  have hlt := Nat.mod_lt L hB
  have hm : (L / B + 1) * B = B * (L / B) + B := by
    rw [Nat.add_mul, Nat.one_mul, Nat.mul_comm]
  rw [hm]
  omega

theorem paddedPayload_length (P : Bytes) (B : Nat) :
    (paddedPayload P B).length = P.length + (B - P.length % B) := by
  simp [paddedPayload]

theorem paddedPayload_mod (P : Bytes) (B : Nat) (hB : 0 < B) :
    (paddedPayload P B).length % B = 0 := by
  rw [paddedPayload_length, padded_length_eq _ _ hB]
  exact Nat.mul_mod_left _ _

/-- A successful `io.ReadFull` delivers exactly the requested number of
bytes. -/
theorem ReadFull_ok (r : Option Reader) (n : Nat) (iv : Bytes)
    (h : ReadFull r n = Run.done (iv, none)) : iv.length = n := by
  unfold ReadFull at h
  cases r with
  | none => simp at h
  | some r =>
    simp only at h
    split at h
    · rename_i hn
      have hiv : r.data.take n = iv := by
        injection h with h
        exact congrArg Prod.fst h
      rw [← hiv, List.length_take]
      omega
    · split at h <;> simp at h

theorem ReadFull_of_le (r : Reader) (n : Nat) (h : n ≤ r.data.length) :
    ReadFull (some r) n = Run.done (r.data.take n, none) := by
  unfold ReadFull
  simp only
  rw [if_pos h]

/-- The two `copy` calls that build the payload give message followed by
padding. -/
theorem payload_copy (message pad : Bytes) :
    copyInto (copyInto (make (message.length + pad.length)) 0 message.length message)
      message.length (message.length + pad.length) pad = message ++ pad := by
  rw [make_add, copyInto_prefix _ _ _ _ (make_length _).symm (make_length _).symm]
  have h := copyInto_segment message (make pad.length) [] pad message.length
    (message.length + pad.length) rfl (by rw [make_length]) (make_length _).symm
  simpa using h

/-- The parcel returned by the encryptor's `Crypt`, in closed form. -/
theorem encryptor_Crypt_eq (c : cryptorCBCHMAC) (hv : c.Valid) (P ad iv : Bytes)
    (had : ad.length ≤ 65535) (hr : ReadFull c.rand c.pher.BlockSize = Run.done (iv, none)) :
    encryptorCBCHMAC.Crypt c (some P) ad
      = Run.done (some (c.calcMac.hmac c.integrityKey
            (parcelBody c iv (paddedPayload P c.pher.BlockSize) ad)
          ++ parcelBody c iv (paddedPayload P c.pher.BlockSize) ad), none) := by
  have hpos := hv.block.size_pos
  have hiv := ReadFull_ok _ _ _ hr
  have hpad : padPKCS7 P.length c.pher.BlockSize
      = Run.done (List.replicate (c.pher.BlockSize - P.length % c.pher.BlockSize)
          (toByte (c.pher.BlockSize - P.length % c.pher.BlockSize))) := by
    unfold padPKCS7
    rw [if_neg (by omega)]
  unfold encryptorCBCHMAC.Crypt
  simp only [maxAdditionalDataSize]
  rw [if_neg (by omega), hpad]
  simp only [Run.bind_done, payload_copy, hr]
  have hs := seal_eq c hv iv (paddedPayload P c.pher.BlockSize) ad hiv
    (paddedPayload_mod _ _ hpos) had
  unfold paddedPayload at hs
  rw [hs]
  rfl

theorem slice_segment (a z c : Bytes) (lo hi : Nat) (hlo : lo = a.length)
    (hhi : hi = lo + z.length) : slice (a ++ (z ++ c)) lo hi = Run.done z := by
  subst hlo hhi
  unfold slice
  rw [if_pos ⟨Nat.le_add_right _ _, by simp only [List.length_append]; omega⟩]
  rw [← List.append_assoc, ← List.length_append, List.take_left' rfl, List.drop_left' rfl]

theorem slice_prefix (z c : Bytes) (hi : Nat) (hhi : hi = z.length) :
    slice (z ++ c) 0 hi = Run.done z := by
  have h := slice_segment [] z c 0 hi rfl (by simpa using hhi)
  simpa using h

theorem sliceFrom_segment (a c : Bytes) (lo : Nat) (hlo : lo = a.length) :
    sliceFrom (a ++ c) lo = Run.done c := by
  subst hlo
  unfold sliceFrom
  rw [if_pos (by simp), List.drop_left' rfl]

theorem toByte_val (n : Nat) (h : n < 256) : (toByte n).val = n := Nat.mod_eq_of_lt h

theorem Uint16_PutUint16 (v : Nat) (h : v ≤ 65535) : Uint16 (PutUint16 v) = v := by
  have h1 : (toByte (v / 256)).val = v / 256 := toByte_val _ (by omega)
  have h2 : (toByte v).val = v % 256 := rfl
  simp only [Uint16, PutUint16, List.getD_cons_zero, List.getD_cons_succ, h1, h2]
  omega

theorem paddingRunOk_replicate (p : Nat) (b : Byte) (hb : b.val = p) :
    ∀ n : Nat, paddingRunOk p (List.replicate n b) = true
  | 0 => rfl
  | n + 1 => by
    simp only [List.replicate_succ, paddingRunOk, hb, ne_eq, not_true_eq_false, if_false]
    exact paddingRunOk_replicate p b hb n

/-- Unpadding a message followed by a PKCS#7 run of `p` bytes, `1 ≤ p ≤ 255`,
gives the length of the message. -/
theorem unpadPKCS7_append_run (P : Bytes) (p : Nat) (h1 : 0 < p) (h2 : p ≤ 255) :
    unpadPKCS7 (P ++ List.replicate p (toByte p)) = (P.length, none) := by
  have hv : (toByte p).val = p := toByte_val p (by omega)
  have hlen : (P ++ List.replicate p (toByte p)).length = P.length + p := by simp
  have hlast : (P ++ List.replicate p (toByte p)).getD (P.length + p - 1) 0 = toByte p := by
    rw [List.getD_eq_getElem?_getD, List.getElem?_append_right (by omega)]
    rw [List.getElem?_replicate, if_pos (by omega)]
    rfl
  unfold unpadPKCS7
  simp only [hlen, hlast, hv]
  rw [if_neg (by omega), if_neg (by omega)]
  have hd : P.length + p - p = P.length := by omega
  rw [hd, List.drop_left' rfl, paddingRunOk_replicate p _ hv]
  rfl

theorem unpadPKCS7_paddedPayload (P : Bytes) (B : Nat) (h1 : 0 < B) (h2 : B ≤ 255) :
    unpadPKCS7 (paddedPayload P B) = (P.length, none) := by
  have hlt := Nat.mod_lt P.length h1
  exact unpadPKCS7_append_run P _ (by omega) (by omega)

/-- A successful unpad returns an index inside the data. -/
theorem unpadPKCS7_le (d : Bytes) (i : Nat) (h : unpadPKCS7 d = (i, none)) : i ≤ d.length := by
  unfold unpadPKCS7 at h
  split at h
  · simp at h
  · simp only at h
    split at h
    · simp at h
    · split at h
      · have := congrArg Prod.fst h
        simp only at this
        omega
      · simp at h

theorem copy_take (d : Bytes) (i : Nat) (h : i ≤ d.length) :
    copyInto (make i) 0 i (d.take i) = d.take i := by
  have hl : (d.take i).length = i := by rw [List.length_take]; omega
  have h := copyInto_prefix (make i) [] (d.take i) i (make_length i).symm
    (by rw [hl, make_length])
  simpa using h

theorem verify_eq_none (tag token : Bytes) (h : MacFactory) (m : Bytes) :
    verify tag token h generateSignature m = none ↔ tag = generateSignature token h m := by
  unfold verify ConstantTimeCompare
  by_cases e : generateSignature token h m = tag
  · simp [e]
  · have e2 : ¬ tag = generateSignature token h m := fun x => e x.symm
    simp [e, e2]

theorem verify_eq_some (tag token : Bytes) (h : MacFactory) (m : Bytes)
    (hne : tag ≠ generateSignature token h m) :
    verify tag token h generateSignature m
      = some (GoError.errorString "signature verification failed") := by
  unfold verify ConstantTimeCompare
  have e : ¬ generateSignature token h m = tag := fun x => hne x.symm
  simp [e]

/-- A parcel of sufficient length whose tag does not verify is rejected with
the integrity error, before anything is parsed. -/
theorem decryptor_Crypt_unverified (c : cryptorCBCHMAC) (ct : Bytes)
    (hlen : c.macLength + 2 + c.pher.BlockSize ≤ ct.length) (hbad : ¬ tagVerifies c ct) :
    decryptorCBCHMAC.Crypt c (some ct) = Run.done ⟨none, none, some integrityError⟩ := by
  unfold decryptorCBCHMAC.Crypt
  simp only [additionalDataHeaderLength]
  rw [if_neg (by omega), if_neg (by omega)]
  have h1 : slice ct 0 c.macLength = Run.done (ct.take c.macLength) := by
    unfold slice
    rw [if_pos ⟨Nat.zero_le _, by omega⟩]
    rfl
  have h2 : sliceFrom ct c.macLength = Run.done (ct.drop c.macLength) := by
    unfold sliceFrom
    rw [if_pos (by omega)]
  simp only [h1, h2, Run.bind_done]
  rw [verify_eq_some _ _ _ _ hbad]
  rfl

/-- A parcel of sufficient length whose tag verifies goes on to be parsed. -/
theorem decryptor_Crypt_verified (c : cryptorCBCHMAC) (ct : Bytes)
    (hlen : c.macLength + 2 + c.pher.BlockSize ≤ ct.length) (hgood : tagVerifies c ct) :
    decryptorCBCHMAC.Crypt c (some ct) =
      (slice ct (c.macLength + 2) (c.macLength + 2 + parsedADLength c ct)).bind
        fun additionalData =>
      (slice ct (c.macLength + 2 + parsedADLength c ct)
        (c.macLength + 2 + parsedADLength c ct + c.pher.BlockSize)).bind fun iv =>
      (sliceFrom ct (c.macLength + 2 + parsedADLength c ct + c.pher.BlockSize)).bind
        fun payload =>
      (CBCDecrypt c.pher iv payload).bind fun dst =>
      match unpadPKCS7 dst with
      | (_, some err) => Run.done ⟨none, none, some err⟩
      | (unpadIndex, none) =>
        Run.done ⟨some (copyInto (make unpadIndex) 0 unpadIndex (dst.take unpadIndex)),
          some additionalData, none⟩ := by
  unfold decryptorCBCHMAC.Crypt
  simp only [additionalDataHeaderLength]
  rw [if_neg (by omega), if_neg (by omega)]
  have h1 : slice ct 0 c.macLength = Run.done (ct.take c.macLength) := by
    unfold slice
    rw [if_pos ⟨Nat.zero_le _, by omega⟩]
    rfl
  have h2 : sliceFrom ct c.macLength = Run.done (ct.drop c.macLength) := by
    unfold sliceFrom
    rw [if_pos (by omega)]
  have h3 : slice ct c.macLength (c.macLength + 2)
      = Run.done ((ct.take (c.macLength + 2)).drop c.macLength) := by
    unfold slice
    rw [if_pos ⟨by omega, by omega⟩]
  simp only [h1, h2, h3, Run.bind_done]
  rw [(verify_eq_none _ _ _ _).mpr hgood]
  rfl

/-- The decryptor on a parcel given by its parts `tag | header | AD | IV |
blocks`, when the tag verifies and the blocks are full: the outcome is
decided by unpadding the CBC decryption of the blocks. -/
theorem decryptor_Crypt_parts (c : cryptorCBCHMAC) (hB : 0 < c.pher.BlockSize)
    (tag hdr ad iv blocks : Bytes) (htag : tag.length = c.macLength) (hhdr : hdr.length = 2)
    (hu : Uint16 hdr = ad.length) (hiv : iv.length = c.pher.BlockSize)
    (hver : tag = c.calcMac.hmac c.integrityKey (hdr ++ (ad ++ (iv ++ blocks))))
    (hmod : blocks.length % c.pher.BlockSize = 0) :
    decryptorCBCHMAC.Crypt c (some (tag ++ (hdr ++ (ad ++ (iv ++ blocks))))) =
      match unpadPKCS7 (cbcDecryptBlocks c.pher (blocks.length / c.pher.BlockSize) iv blocks) with
      | (_, some err) => Run.done ⟨none, none, some err⟩
      | (unpadIndex, none) =>
        Run.done ⟨some (copyInto (make unpadIndex) 0 unpadIndex
          ((cbcDecryptBlocks c.pher (blocks.length / c.pher.BlockSize) iv blocks).take
            unpadIndex)), some ad, none⟩ := by
  have hlen : c.macLength + 2 + c.pher.BlockSize
      ≤ (tag ++ (hdr ++ (ad ++ (iv ++ blocks)))).length := by
    simp only [List.length_append, htag, hhdr, hiv]
    omega
  have hgood : tagVerifies c (tag ++ (hdr ++ (ad ++ (iv ++ blocks)))) := by
    unfold tagVerifies generateSignature
    rw [List.take_left' htag, List.drop_left' htag]
    exact hver
  have hparsed : parsedADLength c (tag ++ (hdr ++ (ad ++ (iv ++ blocks)))) = ad.length := by
    unfold parsedADLength
    have e : tag ++ (hdr ++ (ad ++ (iv ++ blocks))) = (tag ++ hdr) ++ (ad ++ (iv ++ blocks)) := by
      simp
    rw [e, List.take_left' (by simp [htag, hhdr, additionalDataHeaderLength]),
      List.drop_left' htag, hu]
  rw [decryptor_Crypt_verified c _ hlen hgood, hparsed]
  have s1 : slice (tag ++ (hdr ++ (ad ++ (iv ++ blocks)))) (c.macLength + 2)
      (c.macLength + 2 + ad.length) = Run.done ad := by
    have e : tag ++ (hdr ++ (ad ++ (iv ++ blocks))) = (tag ++ hdr) ++ (ad ++ (iv ++ blocks)) := by
      simp
    rw [e]
    exact slice_segment _ _ _ _ _ (by simp [htag, hhdr]) rfl
  have s2 : slice (tag ++ (hdr ++ (ad ++ (iv ++ blocks)))) (c.macLength + 2 + ad.length)
      (c.macLength + 2 + ad.length + c.pher.BlockSize) = Run.done iv := by
    have e : tag ++ (hdr ++ (ad ++ (iv ++ blocks))) = (tag ++ (hdr ++ ad)) ++ (iv ++ blocks) := by
      simp
    rw [e]
    exact slice_segment _ _ _ _ _ (by simp [htag, hhdr]; omega) (by rw [hiv])
  have s3 : sliceFrom (tag ++ (hdr ++ (ad ++ (iv ++ blocks))))
      (c.macLength + 2 + ad.length + c.pher.BlockSize) = Run.done blocks := by
    have e : tag ++ (hdr ++ (ad ++ (iv ++ blocks))) = (tag ++ (hdr ++ (ad ++ iv))) ++ blocks := by
      simp
    rw [e]
    exact sliceFrom_segment _ _ _ (by simp [htag, hhdr, hiv]; omega)
  have s4 : CBCDecrypt c.pher iv blocks
      = Run.done (cbcDecryptBlocks c.pher (blocks.length / c.pher.BlockSize) iv blocks) := by
    unfold CBCDecrypt
    rw [if_neg]
    intro h
    rcases h with h | h | h
    · omega
    · exact h hiv
    · exact h hmod
  simp only [s1, s2, s3, s4, Run.bind_done]

/-- Round trip over any sound block cipher of block size at most 255: the
decryptor returns what was sealed. -/
theorem roundtrip_core (c : cryptorCBCHMAC) (hv : c.Valid) (hB : c.pher.BlockSize ≤ 255)
    (P ad iv : Bytes) (had : ad.length ≤ 65535) (hiv : iv.length = c.pher.BlockSize) :
    decryptorCBCHMAC.Crypt c
        (some (c.calcMac.hmac c.integrityKey
            (parcelBody c iv (paddedPayload P c.pher.BlockSize) ad)
          ++ parcelBody c iv (paddedPayload P c.pher.BlockSize) ad))
      = Run.done ⟨some P, some ad, none⟩ := by
  have hpos := hv.block.size_pos
  have hp := paddedPayload_mod P _ hpos
  have hn : (paddedPayload P c.pher.BlockSize).length
      = (paddedPayload P c.pher.BlockSize).length / c.pher.BlockSize * c.pher.BlockSize :=
    (Nat.div_mul_cancel (Nat.dvd_of_mod_eq_zero hp)).symm
  have hl := cbcEncryptBlocks_length c.pher hv.block _ iv _ hiv hn
  rw [← hn] at hl
  have hbody : parcelBody c iv (paddedPayload P c.pher.BlockSize) ad
      = PutUint16 ad.length ++ (ad ++ (iv ++ cbcEncryptBlocks c.pher
          ((paddedPayload P c.pher.BlockSize).length / c.pher.BlockSize) iv
          (paddedPayload P c.pher.BlockSize))) := by
    simp [parcelBody]
  rw [hbody]
  rw [decryptor_Crypt_parts c hpos _ _ _ _ _ (by rw [hv.mac, hv.macLength_eq])
    (PutUint16_length _) (Uint16_PutUint16 _ had) hiv rfl (by rw [hl]; exact hp)]
  rw [hl, cbcDecryptBlocks_encrypt c.pher hv.block _ iv _ hiv hn,
    unpadPKCS7_paddedPayload P _ hpos hB]
  simp only
  have hle : P.length ≤ (paddedPayload P c.pher.BlockSize).length := by
    rw [paddedPayload_length]
    omega
  rw [copy_take _ _ hle]
  unfold paddedPayload
  rw [List.take_left' rfl]

/-- The decryptor never consults the randomness source. -/
theorem decryptor_Crypt_rand (c : cryptorCBCHMAC) (r : Option Reader) (ct : Option Bytes) :
    decryptorCBCHMAC.Crypt { c with rand := r } ct = decryptorCBCHMAC.Crypt c ct := rfl

theorem Valid_rand (c : cryptorCBCHMAC) (r : Option Reader) (h : c.Valid) :
    cryptorCBCHMAC.Valid { c with rand := r } :=
  ⟨h.block, h.mac, h.macLength_eq⟩

/-- What a successful `newCBCHMACryptor` has checked and built. -/
theorem newCBCHMACryptor_ok (aes : Bytes → Block) (EK IK : Bytes) (mac : MacFactory)
    (cry : cryptorCBCHMAC) (h : newCBCHMACryptor aes EK IK mac = Except.ok cry) :
    16 ≤ EK.length ∧ 16 ≤ IK.length ∧ EK ≠ IK
      ∧ (EK.length = 16 ∨ EK.length = 24 ∨ EK.length = 32)
      ∧ cry = { pher := aes EK, macLength := mac.Size, calcMac := mac, integrityKey := IK,
                rand := none } := by
  unfold newCBCHMACryptor at h
  simp only at h
  split at h
  · simp at h
  · split at h
    · simp at h
    · split at h
      · simp at h
      · rename_i h1 h2 h3
        unfold aesNewCipher at h
        by_cases hk : EK.length = 16 ∨ EK.length = 24 ∨ EK.length = 32
        · rw [if_pos hk] at h
          simp only at h
          have hc : copyInto (make IK.length) 0 IK.length IK = IK := by
            have := copy_take IK IK.length (Nat.le_refl _)
            rwa [List.take_length] at this
          rw [hc] at h
          injection h with h
          exact ⟨by omega, by omega, h3, hk, h.symm⟩
        · rw [if_neg hk] at h
          simp at h

theorem xorBlock_sound (k : Byte) : (xorBlock k).Sound where
  size_pos := by
    show 0 < 16
    decide
  encrypt_length := by
    intro x hx
    simpa [xorBlock] using hx
  decrypt_encrypt := by
    intro x _
    simp only [xorBlock, List.map_map]
    have : ((fun v : Byte => v ^^^ k) ∘ fun v : Byte => v ^^^ k) = id := by
      funext v
      exact byte_xor_cancel v k
    rw [this, List.map_id]

theorem toyAES_contract : AESContract toyAES :=
  fun _ _ => ⟨xorBlock_sound _, rfl⟩

theorem sumMac_sound : sumMac.Sound := fun _ _ => rfl

theorem constMac_sound : constMac.Sound := fun _ _ => rfl

theorem toyCryptor_valid : toyCryptor.Valid := ⟨xorBlock_sound _, sumMac_sound, rfl⟩

/-- With a verifying tag and an announced AD that overruns the parcel, the
decryptor slices out of range. -/
theorem decryptor_Crypt_overrun (c : cryptorCBCHMAC) (ct : Bytes)
    (hlen : c.macLength + 2 + c.pher.BlockSize ≤ ct.length) (hgood : tagVerifies c ct)
    (hover : ct.length < c.macLength + 2 + parsedADLength c ct + c.pher.BlockSize) :
    decryptorCBCHMAC.Crypt c (some ct) = Run.panicked := by
  rw [decryptor_Crypt_verified c ct hlen hgood]
  by_cases h1 : c.macLength + 2 + parsedADLength c ct ≤ ct.length
  · have s1 : slice ct (c.macLength + 2) (c.macLength + 2 + parsedADLength c ct)
        = Run.done ((ct.take (c.macLength + 2 + parsedADLength c ct)).drop (c.macLength + 2)) := by
      unfold slice
      rw [if_pos ⟨by omega, h1⟩]
    have s2 : slice ct (c.macLength + 2 + parsedADLength c ct)
        (c.macLength + 2 + parsedADLength c ct + c.pher.BlockSize) = Run.panicked := by
      unfold slice
      rw [if_neg (by omega)]
    simp only [s1, s2, Run.bind_done, Run.bind_panicked]
  · have s1 : slice ct (c.macLength + 2) (c.macLength + 2 + parsedADLength c ct)
        = Run.panicked := by
      unfold slice
      rw [if_neg (by omega)]
    simp only [s1, Run.bind_panicked]

/-- With a verifying tag, an AD in range and no ciphertext block after the
IV, the decryptor fails in `unpadPKCS7` with its "empty input" error. -/
theorem decryptor_Crypt_no_block (c : cryptorCBCHMAC) (hB : 0 < c.pher.BlockSize) (ct : Bytes)
    (hgood : tagVerifies c ct)
    (hzero : ct.length = c.macLength + 2 + parsedADLength c ct + c.pher.BlockSize) :
    decryptorCBCHMAC.Crypt c (some ct)
      = Run.done ⟨none, none, some (GoError.errorString "empty input")⟩ := by
  rw [decryptor_Crypt_verified c ct (by omega) hgood]
  have s1 : slice ct (c.macLength + 2) (c.macLength + 2 + parsedADLength c ct)
      = Run.done ((ct.take (c.macLength + 2 + parsedADLength c ct)).drop (c.macLength + 2)) := by
    unfold slice
    rw [if_pos ⟨by omega, by omega⟩]
  have s2 : slice ct (c.macLength + 2 + parsedADLength c ct)
      (c.macLength + 2 + parsedADLength c ct + c.pher.BlockSize)
      = Run.done ((ct.take (c.macLength + 2 + parsedADLength c ct + c.pher.BlockSize)).drop
          (c.macLength + 2 + parsedADLength c ct)) := by
    unfold slice
    rw [if_pos ⟨by omega, by omega⟩]
  have s3 : sliceFrom ct (c.macLength + 2 + parsedADLength c ct + c.pher.BlockSize)
      = Run.done [] := by
    unfold sliceFrom
    rw [if_pos (by omega), ← hzero, List.drop_length]
  have hivl : ((ct.take (c.macLength + 2 + parsedADLength c ct + c.pher.BlockSize)).drop
      (c.macLength + 2 + parsedADLength c ct)).length = c.pher.BlockSize := by
    rw [List.length_drop, List.length_take]
    omega
  have s4 : CBCDecrypt c.pher
      ((ct.take (c.macLength + 2 + parsedADLength c ct + c.pher.BlockSize)).drop
        (c.macLength + 2 + parsedADLength c ct)) [] = Run.done [] := by
    unfold CBCDecrypt
    rw [if_neg]
    · simp [cbcDecryptBlocks]
    · intro h
      rcases h with h | h | h
      · omega
      · exact h hivl
      · simp at h
  simp only [s1, s2, s3, s4, Run.bind_done]
  rfl

/-- What a successful encryptor `Crypt` implies about its inputs. -/
theorem encryptor_Crypt_success (c : cryptorCBCHMAC) (m : Option Bytes) (A parcel : Bytes)
    (h : encryptorCBCHMAC.Crypt c m A = Run.done (some parcel, none)) :
    ∃ P iv : Bytes, m = some P ∧ A.length ≤ 65535
      ∧ ReadFull c.rand c.pher.BlockSize = Run.done (iv, none) := by
  unfold encryptorCBCHMAC.Crypt at h
  cases m with
  | none => simp at h
  | some P =>
    simp only [maxAdditionalDataSize] at h
    by_cases hA : A.length > 65535
    · rw [if_pos hA] at h
      simp at h
    · rw [if_neg hA] at h
      cases hp : padPKCS7 P.length c.pher.BlockSize with
      | panicked => rw [hp] at h; simp at h
      | done pad =>
        rw [hp] at h
        simp only [Run.bind_done] at h
        cases hr : ReadFull c.rand c.pher.BlockSize with
        | panicked => rw [hr] at h; simp at h
        | done read =>
          rw [hr] at h
          simp only [Run.bind_done] at h
          obtain ⟨iv, e⟩ := read
          cases e with
          | some err => simp at h
          | none => exact ⟨P, iv, rfl, by omega, rfl⟩

/-- The closed form of every parcel that the encryptor's `Crypt` returns. -/
theorem sealed_form (c : cryptorCBCHMAC) (hv : c.Valid) (P A parcel : Bytes)
    (h : encryptorCBCHMAC.Crypt c (some P) A = Run.done (some parcel, none)) :
    ∃ iv : Bytes, ReadFull c.rand c.pher.BlockSize = Run.done (iv, none)
      ∧ iv.length = c.pher.BlockSize ∧ A.length ≤ 65535
      ∧ parcel = c.calcMac.hmac c.integrityKey
            (parcelBody c iv (paddedPayload P c.pher.BlockSize) A)
          ++ parcelBody c iv (paddedPayload P c.pher.BlockSize) A := by
  obtain ⟨P', iv, _, hA, hr⟩ := encryptor_Crypt_success c (some P) A parcel h
  refine ⟨iv, hr, ReadFull_ok _ _ _ hr, hA, ?_⟩
  have h2 := encryptor_Crypt_eq c hv P A iv hA hr
  rw [h] at h2
  injection h2 with h2
  injection h2 with h2
  injection h2 with h2

theorem take_set_of_le {α : Type} (v : α) :
    ∀ (l : List α) (m n : Nat), m ≤ n → (l.set n v).take m = l.take m
  | [], _, _, _ => by simp
  | _ :: _, 0, _, _ => by simp
  | x :: l, m + 1, 0, h => by omega
  | x :: l, m + 1, n + 1, h => by
    simp only [List.set_cons_succ, List.take_succ_cons]
    rw [take_set_of_le v l m n (by omega)]

theorem take_set_ne {α : Type} (l : List α) (i m : Nat) (v d : α) (hi : i < l.length)
    (him : i < m) (hne : l.getD i d ≠ v) : (l.set i v).take m ≠ l.take m := by
  intro h
  have h1 : ((l.set i v).take m)[i]? = some v := by
    rw [List.getElem?_take, if_pos him, List.getElem?_set_self hi]
  have h2 : (l.take m)[i]? = some (l.getD i d) := by
    rw [List.getElem?_take, if_pos him, List.getD_eq_getElem?_getD, List.getElem?_eq_getElem hi]
    rfl
  rw [h, h2] at h1
  injection h1 with h1
  exact hne h1

/-- The parts of a sealed parcel: tag, header, AD, IV and blocks, with
their lengths. -/
theorem sealed_parts (c : cryptorCBCHMAC) (hv : c.Valid) (P A parcel : Bytes)
    (h : encryptorCBCHMAC.Crypt c (some P) A = Run.done (some parcel, none)) :
    ∃ tag iv blocks : Bytes,
      ReadFull c.rand c.pher.BlockSize = Run.done (iv, none)
      ∧ A.length ≤ 65535
      ∧ tag.length = c.macLength
      ∧ iv.length = c.pher.BlockSize
      ∧ blocks.length = (P.length / c.pher.BlockSize + 1) * c.pher.BlockSize
      ∧ blocks = cbcEncryptBlocks c.pher
          ((paddedPayload P c.pher.BlockSize).length / c.pher.BlockSize) iv
          (paddedPayload P c.pher.BlockSize)
      ∧ tag = generateSignature c.integrityKey c.calcMac
          (PutUint16 A.length ++ (A ++ (iv ++ blocks)))
      ∧ parcel = tag ++ (PutUint16 A.length ++ (A ++ (iv ++ blocks))) := by
  obtain ⟨iv, hr, hiv, hA, hp⟩ := sealed_form c hv P A parcel h
  have hpos := hv.block.size_pos
  have hmod := paddedPayload_mod P _ hpos
  have hn : (paddedPayload P c.pher.BlockSize).length
      = (paddedPayload P c.pher.BlockSize).length / c.pher.BlockSize * c.pher.BlockSize :=
    (Nat.div_mul_cancel (Nat.dvd_of_mod_eq_zero hmod)).symm
  have hl := cbcEncryptBlocks_length c.pher hv.block _ iv _ hiv hn
  rw [← hn] at hl
  have hl2 := hl.trans ((paddedPayload_length P _).trans (padded_length_eq _ _ hpos))
  have hbody : parcelBody c iv (paddedPayload P c.pher.BlockSize) A
      = PutUint16 A.length ++ (A ++ (iv ++ cbcEncryptBlocks c.pher
          ((paddedPayload P c.pher.BlockSize).length / c.pher.BlockSize) iv
          (paddedPayload P c.pher.BlockSize))) := by
    simp [parcelBody]
  rw [hbody] at hp
  exact ⟨_, iv, _, hr, hA, hv.macLength_eq ▸ hv.mac _ _, hiv, hl2, rfl, rfl, hp⟩

/-- With a positive block size, an IV of one block and a payload of full
blocks, `seal` returns a parcel. -/
theorem seal_done (c : cryptorCBCHMAC) (hB : 0 < c.pher.BlockSize) (iv payload A : Bytes)
    (hiv : iv.length = c.pher.BlockSize) (hp : payload.length % c.pher.BlockSize = 0) :
    ∃ parcel : Bytes, encryptorCBCHMAC.seal c iv payload A = Run.done parcel := by
  have hcbc : CBCEncrypt c.pher iv payload
      = Run.done (cbcEncryptBlocks c.pher (payload.length / c.pher.BlockSize) iv payload) := by
    unfold CBCEncrypt
    rw [if_neg]
    intro h
    rcases h with h | h | h
    · omega
    · exact h hiv
    · exact h hp
  unfold encryptorCBCHMAC.seal
  simp only [hcbc, Run.bind_done]
  exact ⟨_, rfl⟩

/-- The length of a sealed parcel. -/
theorem sealed_length (c : cryptorCBCHMAC) (hv : c.Valid) (P A parcel : Bytes)
    (h : encryptorCBCHMAC.Crypt c (some P) A = Run.done (some parcel, none)) :
    parcel.length = c.macLength + 2 + A.length + c.pher.BlockSize
      + (P.length / c.pher.BlockSize + 1) * c.pher.BlockSize := by
  obtain ⟨tag, iv, blocks, _, _, htag, hiv, hbl, _, _, hp⟩ := sealed_parts c hv P A parcel h
  rw [hp]
  simp only [List.length_append, htag, hiv, hbl, PutUint16_length]
  omega

theorem ceil_div_succ (L B : Nat) (hB : 0 < B) : (L + 1 + (B - 1)) / B = L / B + 1 := by
  have e : L + 1 + (B - 1) = L + B := by omega
  rw [e, Nat.add_div_right L hB]

/-- A non-nil parcel shorter than `M + 2 + B` is rejected by one of the two
length checks, before the tag is looked at. -/
theorem decryptor_Crypt_short (c : cryptorCBCHMAC) (b : Bytes)
    (h : b.length < c.macLength + 2 + c.pher.BlockSize) :
    decryptorCBCHMAC.Crypt c (some b)
      = Run.done ⟨none, none, some (GoError.CipherTextError
          (if b.length < c.macLength + c.pher.BlockSize then "cipherText is invalid"
           else "cipherText is too short"))⟩ := by
  unfold decryptorCBCHMAC.Crypt
  simp only [additionalDataHeaderLength]
  by_cases h1 : b.length < c.macLength + c.pher.BlockSize
  · rw [if_pos h1, if_pos h1]
  · rw [if_neg h1, if_neg h1, if_pos h]

/-- The errors of `unpadPKCS7` are its two plain errors. -/
theorem unpadPKCS7_err (d : Bytes) (i : Nat) (e : GoError) (h : unpadPKCS7 d = (i, some e)) :
    e = GoError.errorString "empty input" ∨ e = GoError.errorString "invalid padding" := by
  unfold unpadPKCS7 at h
  split at h
  · left
    simp only [Prod.mk.injEq, Option.some.injEq] at h
    exact h.2.symm
  · simp only at h
    split at h
    · right
      simp only [Prod.mk.injEq, Option.some.injEq] at h
      exact h.2.symm
    · split at h
      · simp at h
      · right
        simp only [Prod.mk.injEq, Option.some.injEq] at h
        exact h.2.symm

/-- The possible outcomes of the decryptor on a parcel of at least
`M + 2 + B` bytes: a panic, the integrity error, a plain error of
`unpadPKCS7`, or a plaintext with its AD. -/
theorem decryptor_Crypt_long_cases (c : cryptorCBCHMAC) (ct : Bytes)
    (hlen : c.macLength + 2 + c.pher.BlockSize ≤ ct.length) :
    decryptorCBCHMAC.Crypt c (some ct) = Run.panicked
      ∨ decryptorCBCHMAC.Crypt c (some ct) = Run.done ⟨none, none, some integrityError⟩
      ∨ (∃ msg : String, decryptorCBCHMAC.Crypt c (some ct)
          = Run.done ⟨none, none, some (GoError.errorString msg)⟩)
      ∨ ∃ P A : Bytes, decryptorCBCHMAC.Crypt c (some ct) = Run.done ⟨some P, some A, none⟩ := by
  by_cases hgood : tagVerifies c ct
  · rw [decryptor_Crypt_verified c ct hlen hgood]
    cases slice ct (c.macLength + 2) (c.macLength + 2 + parsedADLength c ct) with
    | panicked => exact Or.inl rfl
    | done ad =>
      simp only [Run.bind_done]
      cases slice ct (c.macLength + 2 + parsedADLength c ct)
          (c.macLength + 2 + parsedADLength c ct + c.pher.BlockSize) with
      | panicked => exact Or.inl rfl
      | done iv =>
        simp only [Run.bind_done]
        cases sliceFrom ct (c.macLength + 2 + parsedADLength c ct + c.pher.BlockSize) with
        | panicked => exact Or.inl rfl
        | done payload =>
          simp only [Run.bind_done]
          cases CBCDecrypt c.pher iv payload with
          | panicked => exact Or.inl rfl
          | done dst =>
            simp only [Run.bind_done]
            rcases hu : unpadPKCS7 dst with ⟨i, _ | e⟩
            · exact Or.inr (Or.inr (Or.inr ⟨_, _, rfl⟩))
            · rcases unpadPKCS7_err dst i e hu with he | he
              · exact Or.inr (Or.inr (Or.inl ⟨_, by rw [he]⟩))
              · exact Or.inr (Or.inr (Or.inl ⟨_, by rw [he]⟩))
  · exact Or.inr (Or.inl (decryptor_Crypt_unverified c ct hlen hgood))

/-- The tag of a sealed parcel verifies, and the parcel is long enough to be
parsed. -/
theorem sealed_tagVerifies (c : cryptorCBCHMAC) (hv : c.Valid) (P A parcel : Bytes)
    (h : encryptorCBCHMAC.Crypt c (some P) A = Run.done (some parcel, none)) :
    tagVerifies c parcel := by
  obtain ⟨tag, iv, blocks, _, _, htag, _, _, _, ht, hp⟩ := sealed_parts c hv P A parcel h
  unfold tagVerifies
  rw [hp, List.take_left' htag, List.drop_left' htag]
  exact ht

theorem cbcDecryptBlocks_length (b : Block) (hi : b.Inverse) :
    ∀ (n : Nat) (iv src : Bytes), iv.length = b.BlockSize → src.length = n * b.BlockSize →
      (cbcDecryptBlocks b n iv src).length = n * b.BlockSize
  | 0, _, _, _, _ => by simp [cbcDecryptBlocks]
  | n + 1, iv, src, hiv, hsrc => by
    have ht : (src.take b.BlockSize).length = b.BlockSize := by
      rw [List.length_take, hsrc, Nat.succ_mul]
      omega
    have hx : (xorBytes (b.Decrypt (src.take b.BlockSize)) iv).length = b.BlockSize := by
      rw [xorBytes_length, hi.decrypt_length _ ht, hiv, Nat.min_self]
    have hd : (src.drop b.BlockSize).length = n * b.BlockSize := by
      rw [List.length_drop, hsrc, Nat.succ_mul]
      omega
    have ih := cbcDecryptBlocks_length b hi n _ (src.drop b.BlockSize) ht hd
    simp only [cbcDecryptBlocks, List.length_append, hx, ih, Nat.succ_mul]
    omega

/-- CBC encryption inverts CBC decryption on full blocks. -/
theorem cbcEncryptBlocks_decrypt (b : Block) (hi : b.Inverse) :
    ∀ (n : Nat) (iv src : Bytes), iv.length = b.BlockSize → src.length = n * b.BlockSize →
      cbcEncryptBlocks b n iv (cbcDecryptBlocks b n iv src) = src
  | 0, _, src, _, hsrc => by
    have : src = [] := List.length_eq_zero.mp (by simpa using hsrc)
    simp [cbcDecryptBlocks, cbcEncryptBlocks, this]
  | n + 1, iv, src, hiv, hsrc => by
    have ht : (src.take b.BlockSize).length = b.BlockSize := by
      rw [List.length_take, hsrc, Nat.succ_mul]
      omega
    have hdl := hi.decrypt_length _ ht
    have hx : (xorBytes (b.Decrypt (src.take b.BlockSize)) iv).length = b.BlockSize := by
      rw [xorBytes_length, hdl, hiv, Nat.min_self]
    have hd : (src.drop b.BlockSize).length = n * b.BlockSize := by
      rw [List.length_drop, hsrc, Nat.succ_mul]
      omega
    have ih := cbcEncryptBlocks_decrypt b hi n (src.take b.BlockSize) (src.drop b.BlockSize) ht hd
    simp only [cbcDecryptBlocks, cbcEncryptBlocks]
    rw [List.take_left' hx, List.drop_left' hx, xorBytes_cancel _ _ (by rw [hdl, hiv]),
      hi.encrypt_decrypt _ ht, ih, List.take_append_drop]

theorem take_drop_split {α : Type} (l : List α) (a b : Nat) (h : a ≤ b) :
    l.take a ++ (l.take b).drop a = l.take b := by
  have e : l.take a = (l.take b).take a := by
    rw [List.take_take, Nat.min_eq_left h]
  rw [e, List.take_append_drop]

theorem toByte_eq_of_val (b : Byte) (p : Nat) (h : b.val = p) : b = toByte p := by
  apply Fin.ext
  show b.val = p % 256
  rw [← h, Nat.mod_eq_of_lt b.isLt]

theorem paddingRunOk_eq_replicate (p : Nat) :
    ∀ l : Bytes, paddingRunOk p l = true → l = List.replicate l.length (toByte p)
  | [], _ => rfl
  | b :: rest, h => by
    simp only [paddingRunOk] at h
    by_cases hb : b.val = p
    · simp only [hb, ne_eq, not_true_eq_false, if_false] at h
      rw [List.length_cons, List.replicate_succ, ← paddingRunOk_eq_replicate p rest h,
        toByte_eq_of_val b p hb]
    · simp [hb] at h

/-- What a successful unpad has checked: the data ends in a run of `p` bytes
equal to `p`, with `1 <= p <= |data|`, and the index is where the run
starts. -/
theorem unpadPKCS7_ok (d : Bytes) (i : Nat) (h : unpadPKCS7 d = (i, none)) :
    ∃ p : Nat, 0 < p ∧ p ≤ d.length ∧ i = d.length - p
      ∧ d.drop i = List.replicate p (toByte p) := by
  unfold unpadPKCS7 at h
  split at h
  · simp at h
  · simp only at h
    split at h
    · simp at h
    · rename_i h0 hp
      split at h
      · rename_i hrun
        have hi : d.length - (d.getD (d.length - 1) 0).val = i := congrArg Prod.fst h
        refine ⟨(d.getD (d.length - 1) 0).val, by omega, by omega, hi.symm, ?_⟩
        have hrep := paddingRunOk_eq_replicate _ _ hrun
        rw [hi] at hrep
        have hdl : (d.drop i).length = (d.getD (d.length - 1) 0).val := by
          rw [List.length_drop]
          omega
        rw [hdl] at hrep
        exact hrep
      · simp at h

theorem PutUint16_Uint16 (hdr : Bytes) (h : hdr.length = 2) :
    PutUint16 (Uint16 hdr) = hdr ∧ Uint16 hdr ≤ 65535 := by
  match hdr, h with
  | [x, y], _ =>
    have hx := x.isLt
    have hy := y.isLt
    have e1 : (x.val * 256 + y.val) / 256 = x.val := by omega
    have e2 : (x.val * 256 + y.val) % 256 = y.val := by omega
    constructor
    · simp only [Uint16, PutUint16, List.getD_cons_zero, List.getD_cons_succ, e1]
      rw [← toByte_eq_of_val x x.val rfl]
      have e3 : toByte (x.val * 256 + y.val) = y := by
        apply Fin.ext
        show (x.val * 256 + y.val) % 256 = y.val
        exact e2
      rw [e3]
    · simp only [Uint16, List.getD_cons_zero, List.getD_cons_succ]
      omega

/-- What a successful decryptor `Crypt` has parsed and checked: the parcel
splits into tag, header, AD, IV and full blocks, the tag verifies, and the
CBC decryption of the blocks unpads to the returned plaintext. -/
theorem decryptor_Crypt_success (c : cryptorCBCHMAC) (C P A : Bytes)
    (h : decryptorCBCHMAC.Crypt c (some C) = Run.done ⟨some P, some A, none⟩) :
    ∃ tag hdr iv blocks : Bytes,
      C = tag ++ (hdr ++ (A ++ (iv ++ blocks)))
      ∧ tag.length = c.macLength ∧ hdr.length = 2 ∧ Uint16 hdr = A.length
      ∧ iv.length = c.pher.BlockSize ∧ 0 < c.pher.BlockSize
      ∧ blocks.length % c.pher.BlockSize = 0
      ∧ tag = c.calcMac.hmac c.integrityKey (hdr ++ (A ++ (iv ++ blocks)))
      ∧ unpadPKCS7 (cbcDecryptBlocks c.pher (blocks.length / c.pher.BlockSize) iv blocks)
          = (P.length, none)
      ∧ P = (cbcDecryptBlocks c.pher (blocks.length / c.pher.BlockSize) iv blocks).take
          P.length := by
  by_cases hlen : c.macLength + 2 + c.pher.BlockSize ≤ C.length
  swap
  · rw [decryptor_Crypt_short c C (by omega)] at h
    cases h
  by_cases hgood : tagVerifies c C
  swap
  · rw [decryptor_Crypt_unverified c C hlen hgood] at h
    cases h
  rw [decryptor_Crypt_verified c C hlen hgood] at h
  by_cases h1 : c.macLength + 2 + parsedADLength c C ≤ C.length
  swap
  · have s1 : slice C (c.macLength + 2) (c.macLength + 2 + parsedADLength c C)
        = Run.panicked := by
      unfold slice
      rw [if_neg (by omega)]
    rw [s1] at h
    cases h
  have s1 : slice C (c.macLength + 2) (c.macLength + 2 + parsedADLength c C)
      = Run.done ((C.take (c.macLength + 2 + parsedADLength c C)).drop (c.macLength + 2)) := by
    unfold slice
    rw [if_pos ⟨by omega, h1⟩]
  by_cases h2 : c.macLength + 2 + parsedADLength c C + c.pher.BlockSize ≤ C.length
  swap
  · have s2 : slice C (c.macLength + 2 + parsedADLength c C)
        (c.macLength + 2 + parsedADLength c C + c.pher.BlockSize) = Run.panicked := by
      unfold slice
      rw [if_neg (by omega)]
    rw [s1, s2] at h
    cases h
  have s2 : slice C (c.macLength + 2 + parsedADLength c C)
      (c.macLength + 2 + parsedADLength c C + c.pher.BlockSize)
      = Run.done ((C.take (c.macLength + 2 + parsedADLength c C + c.pher.BlockSize)).drop
          (c.macLength + 2 + parsedADLength c C)) := by
    unfold slice
    rw [if_pos ⟨by omega, h2⟩]
  have s3 : sliceFrom C (c.macLength + 2 + parsedADLength c C + c.pher.BlockSize)
      = Run.done (C.drop (c.macLength + 2 + parsedADLength c C + c.pher.BlockSize)) := by
    unfold sliceFrom
    rw [if_pos h2]
  rw [s1, s2, s3] at h
  simp only [Run.bind_done] at h
  generalize htag : C.take c.macLength = tag at *
  generalize hhdr : (C.take (c.macLength + 2)).drop c.macLength = hdr at *
  generalize had : (C.take (c.macLength + 2 + parsedADLength c C)).drop (c.macLength + 2)
    = ad at *
  generalize hiv : (C.take (c.macLength + 2 + parsedADLength c C + c.pher.BlockSize)).drop
    (c.macLength + 2 + parsedADLength c C) = iv at *
  generalize hbl : C.drop (c.macLength + 2 + parsedADLength c C + c.pher.BlockSize)
    = blocks at *
  have ltag : tag.length = c.macLength := by
    rw [← htag, List.length_take]
    omega
  have lhdr : hdr.length = 2 := by
    rw [← hhdr, List.length_drop, List.length_take]
    omega
  have lad : ad.length = parsedADLength c C := by
    rw [← had, List.length_drop, List.length_take]
    omega
  have liv : iv.length = c.pher.BlockSize := by
    rw [← hiv, List.length_drop, List.length_take]
    omega
  have hC : C = tag ++ (hdr ++ (ad ++ (iv ++ blocks))) := by
    have e1 := take_drop_split C c.macLength (c.macLength + 2) (by omega)
    have e2 := take_drop_split C (c.macLength + 2) (c.macLength + 2 + parsedADLength c C)
      (by omega)
    have e3 := take_drop_split C (c.macLength + 2 + parsedADLength c C)
      (c.macLength + 2 + parsedADLength c C + c.pher.BlockSize) (by omega)
    have e4 := List.take_append_drop
      (c.macLength + 2 + parsedADLength c C + c.pher.BlockSize) C
    rw [htag, hhdr] at e1
    rw [had, ← e1] at e2
    rw [hiv, ← e2] at e3
    rw [hbl, ← e3] at e4
    rw [← e4]
    simp
  have hparsed : Uint16 hdr = ad.length := by
    rw [lad, ← hhdr]
    rfl
  have hver : tag = c.calcMac.hmac c.integrityKey (hdr ++ (ad ++ (iv ++ blocks))) := by
    have hg := hgood
    unfold tagVerifies generateSignature at hg
    rw [htag] at hg
    rw [hg]
    congr 1
    rw [hC, List.drop_left' ltag]
  by_cases hcond : c.pher.BlockSize = 0 ∨ iv.length ≠ c.pher.BlockSize
      ∨ blocks.length % c.pher.BlockSize ≠ 0
  · unfold CBCDecrypt at h
    rw [if_pos hcond] at h
    cases h
  · have hpos : 0 < c.pher.BlockSize := by
      rcases Nat.eq_zero_or_pos c.pher.BlockSize with h0 | h0
      · exact absurd (Or.inl h0) hcond
      · exact h0
    have hmod : blocks.length % c.pher.BlockSize = 0 := by
      by_contra hm
      exact hcond (Or.inr (Or.inr hm))
    unfold CBCDecrypt at h
    rw [if_neg hcond] at h
    simp only [Run.bind_done] at h
    rcases hu : unpadPKCS7 (cbcDecryptBlocks c.pher (blocks.length / c.pher.BlockSize) iv
      blocks) with ⟨i, _ | e⟩
    · rw [hu] at h
      simp only [Run.done.injEq, OpenResult.mk.injEq, Option.some.injEq, and_true] at h
      obtain ⟨hP, hA⟩ := h
      rw [copy_take _ _ (unpadPKCS7_le _ _ hu)] at hP
      have hPl : P.length = i := by
        rw [← hP, List.length_take]
        have := unpadPKCS7_le _ _ hu
        omega
      subst hA
      refine ⟨tag, hdr, iv, blocks, hC, ltag, lhdr, hparsed, liv, hpos, hmod, hver, ?_, ?_⟩
      · rw [hPl]
        exact hu
      · rw [hPl]
        exact hP.symm
    · rw [hu] at h
      cases h

theorem xorBlock_inverse (k : Byte) : (xorBlock k).Inverse where
  decrypt_length := by
    intro x hx
    simpa [xorBlock] using hx
  encrypt_decrypt := by
    intro x _
    simp only [xorBlock, List.map_map]
    have : ((fun v : Byte => v ^^^ k) ∘ fun v : Byte => v ^^^ k) = id := by
      funext v
      exact byte_xor_cancel v k
    rw [this, List.map_id]

/-- The constructor as a decision list: the two length checks, the equality
check, then the cipher initialisation. -/
theorem newCBCHMACryptor_eq (aes : Bytes → Block) (EK IK : Bytes) (mac : MacFactory) :
    newCBCHMACryptor aes EK IK mac =
      if EK.length < 16 then
        Except.error (GoError.EncryptionKeyError "encryption key too short")
      else if IK.length < 16 then
        Except.error (GoError.EncryptionKeyError "integrity key too short")
      else if EK = IK then
        Except.error (GoError.InvalidUsageError
          "using same key for encryption and integrity is not allowed")
      else if EK.length = 16 ∨ EK.length = 24 ∨ EK.length = 32 then
        Except.ok { pher := aes EK, macLength := mac.Size, calcMac := mac, integrityKey := IK,
                    rand := none }
      else Except.error (GoError.KeySizeError EK.length) := by
  have hc : copyInto (make IK.length) 0 IK.length IK = IK := by
    have := copy_take IK IK.length (Nat.le_refl _)
    rwa [List.take_length] at this
  unfold newCBCHMACryptor aesNewCipher
  simp only [hc]
  by_cases h1 : EK.length < 16
  · rw [if_pos h1, if_pos h1]
  · rw [if_neg h1, if_neg h1]
    by_cases h2 : IK.length < 16
    · rw [if_pos h2, if_pos h2]
    · rw [if_neg h2, if_neg h2]
      by_cases h3 : EK = IK
      · rw [if_pos h3, if_pos h3]
      · rw [if_neg h3, if_neg h3]
        by_cases h4 : EK.length = 16 ∨ EK.length = 24 ∨ EK.length = 32
        · rw [if_pos h4, if_pos h4]
        · rw [if_neg h4, if_neg h4]

/-- When `newCBCHMACryptor` fails, both public constructors return no
cryptor and that error. -/
theorem constructors_of_error (aes : Bytes → Block) (EK IK : Bytes) (mac : MacFactory)
    (rand : Option Reader) (e : GoError)
    (h : newCBCHMACryptor aes EK IK mac = Except.error e) :
    NewCBCHMACEncryptor aes EK IK mac rand = (none, some e)
      ∧ NewCBCHMACDecryptor aes EK IK mac = (none, some e) := by
  unfold NewCBCHMACEncryptor NewCBCHMACDecryptor
  rw [h]
  exact ⟨rfl, rfl⟩

/-- When `newCBCHMACryptor` succeeds, both public constructors return a
cryptor and no error. -/
theorem constructors_of_ok (aes : Bytes → Block) (EK IK : Bytes) (mac : MacFactory)
    (rand : Option Reader) (cry : cryptorCBCHMAC)
    (h : newCBCHMACryptor aes EK IK mac = Except.ok cry) :
    NewCBCHMACEncryptor aes EK IK mac rand = (some { cry with rand := rand }, none)
      ∧ NewCBCHMACDecryptor aes EK IK mac = (some cry, none) := by
  unfold NewCBCHMACEncryptor NewCBCHMACDecryptor
  rw [h]
  exact ⟨rfl, rfl⟩

theorem nat_or_eq_zero (a b : Nat) (h : a ||| b = 0) : a = 0 ∧ b = 0 := by
  constructor
  · apply Nat.eq_of_testBit_eq
    intro i
    have := congrArg (fun n => Nat.testBit n i) h
    simp only [Nat.testBit_or, Nat.zero_testBit, Bool.or_eq_false_iff] at this
    rw [this.1, Nat.zero_testBit]
  · apply Nat.eq_of_testBit_eq
    intro i
    have := congrArg (fun n => Nat.testBit n i) h
    simp only [Nat.testBit_or, Nat.zero_testBit, Bool.or_eq_false_iff] at this
    rw [this.2, Nat.zero_testBit]

theorem byte_or_eq_zero (v w : Byte) : v ||| w = 0 ↔ v = 0 ∧ w = 0 := by
  constructor
  · intro h
    have hv : v.val < 2 ^ 8 := v.isLt
    have hw : w.val < 2 ^ 8 := w.isLt
    have h1 : (v.val ||| w.val) % 256 = 0 := congrArg Fin.val h
    rw [Nat.mod_eq_of_lt (Nat.or_lt_two_pow hv hw)] at h1
    obtain ⟨a, b⟩ := nat_or_eq_zero _ _ h1
    exact ⟨Fin.ext a, Fin.ext b⟩
  · rintro ⟨rfl, rfl⟩
    rfl

theorem byte_xor_eq_zero (a b : Byte) : a ^^^ b = 0 ↔ a = b := by
  constructor
  · intro h
    have ha : a.val < 2 ^ 8 := a.isLt
    have hb : b.val < 2 ^ 8 := b.isLt
    have h1 : (a.val ^^^ b.val) % 256 = 0 := congrArg Fin.val h
    rw [Nat.mod_eq_of_lt (Nat.xor_lt_two_pow ha hb)] at h1
    exact Fin.ext (Nat.xor_eq_zero.mp h1)
  · rintro rfl
    apply Fin.ext
    show (a.val ^^^ a.val) % 256 = 0
    rw [Nat.xor_self]

theorem constantTimeAccumulate_eq_zero :
    ∀ (x y : Bytes) (v : Byte), x.length = y.length →
      (constantTimeAccumulate x y v = 0 ↔ v = 0 ∧ x = y)
  | [], [], v, _ => by simp [constantTimeAccumulate]
  | [], _ :: _, _, h => by simp at h
  | _ :: _, [], _, h => by simp at h
  | a :: x, b :: y, v, h => by
    have ih := constantTimeAccumulate_eq_zero x y (v ||| (a ^^^ b)) (by simpa using h)
    simp only [constantTimeAccumulate, ih, byte_or_eq_zero, byte_xor_eq_zero,
      List.cons.injEq]
    tauto

/-- The library loop computes equality of contents: the model
`ConstantTimeCompare` agrees with it. -/
theorem ConstantTimeCompare_eq_loop (x y : Bytes) :
    ConstantTimeCompare x y = ConstantTimeCompareLoop x y := by
  unfold ConstantTimeCompare ConstantTimeCompareLoop
  by_cases hl : x.length = y.length
  · have hl' : ¬ x.length ≠ y.length := fun h => h hl
    by_cases hxy : x = y
    · have ha := (constantTimeAccumulate_eq_zero x y 0 hl).mpr ⟨rfl, hxy⟩
      rw [if_pos hxy, if_neg hl', if_pos ha]
    · have ha : ¬ constantTimeAccumulate x y 0 = 0 :=
        fun h => hxy ((constantTimeAccumulate_eq_zero x y 0 hl).mp h).2
      rw [if_neg hxy, if_neg hl', if_neg ha]
  · have hxy : ¬ x = y := fun h => hl (congrArg List.length h)
    have hl' : x.length ≠ y.length := hl
    rw [if_neg hxy, if_pos hl']

/-- The error of `io.ReadFull` when the source holds fewer bytes than
requested. -/
theorem ReadFull_short (r : Reader) (n : Nat) (h : r.data.length < n) :
    ReadFull (some r) n
      = Run.done (r.data, some (if r.err = GoError.EOF ∧ 0 < r.data.length
          then GoError.ErrUnexpectedEOF else r.err)) := by
  unfold ReadFull
  simp only
  rw [if_neg (by omega)]
  by_cases h2 : r.err = GoError.EOF ∧ 0 < r.data.length
  · rw [if_pos h2, if_pos h2]
  · rw [if_neg h2, if_neg h2]

/-- The encryptor's `Crypt` when the IV cannot be read in full. -/
theorem encryptor_Crypt_short_read (c : cryptorCBCHMAC) (hB : 0 < c.pher.BlockSize)
    (r : Reader) (hrand : c.rand = some r) (hshort : r.data.length < c.pher.BlockSize)
    (P A : Bytes) (hA : A.length ≤ 65535) :
    encryptorCBCHMAC.Crypt c (some P) A
      = Run.done (none, some (if r.err = GoError.EOF ∧ 0 < r.data.length
          then GoError.ErrUnexpectedEOF else r.err)) := by
  have hpad : padPKCS7 P.length c.pher.BlockSize
      = Run.done (List.replicate (c.pher.BlockSize - P.length % c.pher.BlockSize)
          (toByte (c.pher.BlockSize - P.length % c.pher.BlockSize))) := by
    unfold padPKCS7
    rw [if_neg (by omega)]
  unfold encryptorCBCHMAC.Crypt
  simp only [maxAdditionalDataSize]
  rw [if_neg (by omega), hpad, hrand, ReadFull_short r _ hshort]
  rfl

/-- The decryptor with explicit buffers returns what the decryptor returns,
and leaves the caller's parcel as it was. -/
theorem CryptMem_spec (c : cryptorCBCHMAC) (mem : OpenMem) :
    (∀ (res : OpenResult) (mem' : OpenMem),
        decryptorCBCHMAC.CryptMem c mem = Run.done (res, mem') →
          mem'.ciphertext = mem.ciphertext
            ∧ decryptorCBCHMAC.Crypt c mem.ciphertext = Run.done res)
      ∧ (decryptorCBCHMAC.CryptMem c mem = Run.panicked →
          decryptorCBCHMAC.Crypt c mem.ciphertext = Run.panicked)
      ∧ ∀ res : OpenResult, decryptorCBCHMAC.Crypt c mem.ciphertext = Run.done res →
          ∃ mem' : OpenMem, decryptorCBCHMAC.CryptMem c mem = Run.done (res, mem') := by
  obtain ⟨ct, dst, message⟩ := mem
  unfold decryptorCBCHMAC.CryptMem decryptorCBCHMAC.Crypt
  cases ct with
  | none =>
    simp only
    refine ⟨?_, ?_, ?_⟩
    · intro res mem' h
      injection h with h
      injection h with h1 h2
      subst h1 h2
      exact ⟨rfl, rfl⟩
    · intro h
      cases h
    · intro res h
      injection h with h
      subst h
      exact ⟨_, rfl⟩
  | some b =>
    simp only
    split
    · refine ⟨?_, ?_, ?_⟩
      · intro res mem' h
        injection h with h
        injection h with h1 h2
        subst h1 h2
        exact ⟨rfl, rfl⟩
      · intro h
        cases h
      · intro res h
        injection h with h
        subst h
        exact ⟨_, rfl⟩
    · split
      · refine ⟨?_, ?_, ?_⟩
        · intro res mem' h
          injection h with h
          injection h with h1 h2
          subst h1 h2
          exact ⟨rfl, rfl⟩
        · intro h
          cases h
        · intro res h
          injection h with h
          subst h
          exact ⟨_, rfl⟩
      · cases slice b 0 c.macLength with
        | panicked => exact ⟨fun _ _ h => (by cases h), fun _ => rfl, fun _ h => (by cases h)⟩
        | done mac =>
        simp only [Run.bind_done]
        cases sliceFrom b c.macLength with
        | panicked => exact ⟨fun _ _ h => (by cases h), fun _ => rfl, fun _ h => (by cases h)⟩
        | done rest =>
        simp only [Run.bind_done]
        cases verify mac c.integrityKey c.calcMac generateSignature rest with
        | some err =>
          simp only
          refine ⟨?_, ?_, ?_⟩
          · intro res mem' h
            injection h with h
            injection h with h1 h2
            subst h1 h2
            exact ⟨rfl, rfl⟩
          · intro h
            cases h
          · intro res h
            injection h with h
            subst h
            exact ⟨_, rfl⟩
        | none =>
        simp only
        cases slice b c.macLength (c.macLength + additionalDataHeaderLength) with
        | panicked => exact ⟨fun _ _ h => (by cases h), fun _ => rfl, fun _ h => (by cases h)⟩
        | done hdr =>
        simp only [Run.bind_done]
        cases slice b (c.macLength + additionalDataHeaderLength)
            (c.macLength + additionalDataHeaderLength + Uint16 hdr) with
        | panicked => exact ⟨fun _ _ h => (by cases h), fun _ => rfl, fun _ h => (by cases h)⟩
        | done ad =>
        simp only [Run.bind_done]
        cases slice b (c.macLength + additionalDataHeaderLength + Uint16 hdr)
            (c.macLength + additionalDataHeaderLength + Uint16 hdr + c.pher.BlockSize) with
        | panicked => exact ⟨fun _ _ h => (by cases h), fun _ => rfl, fun _ h => (by cases h)⟩
        | done iv =>
        simp only [Run.bind_done]
        cases sliceFrom b
            (c.macLength + additionalDataHeaderLength + Uint16 hdr + c.pher.BlockSize) with
        | panicked => exact ⟨fun _ _ h => (by cases h), fun _ => rfl, fun _ h => (by cases h)⟩
        | done payload =>
        simp only [Run.bind_done]
        cases CBCDecrypt c.pher iv payload with
        | panicked => exact ⟨fun _ _ h => (by cases h), fun _ => rfl, fun _ h => (by cases h)⟩
        | done blocks =>
        simp only [Run.bind_done]
        rcases hu : unpadPKCS7 blocks with ⟨i, _ | e⟩
        · simp only
          refine ⟨?_, ?_, ?_⟩
          · intro res mem' h
            injection h with h
            injection h with h1 h2
            subst h1 h2
            exact ⟨rfl, rfl⟩
          · intro h
            cases h
          · intro res h
            injection h with h
            subst h
            exact ⟨_, rfl⟩
        · simp only
          refine ⟨?_, ?_, ?_⟩
          · intro res mem' h
            injection h with h
            injection h with h1 h2
            subst h1 h2
            exact ⟨rfl, rfl⟩
          · intro h
            cases h
          · intro res h
            injection h with h
            subst h
            exact ⟨_, rfl⟩

theorem paddingRunOk_iff (p : Nat) :
    ∀ l : Bytes, paddingRunOk p l = true ↔ ∀ b ∈ l, b.val = p
  | [] => by simp [paddingRunOk]
  | b :: rest => by
    have ih := paddingRunOk_iff p rest
    by_cases hb : b.val = p
    · simp only [paddingRunOk, hb, ne_eq, not_true_eq_false, if_false, ih, List.mem_cons,
        forall_eq_or_imp, true_and]
    · simp only [paddingRunOk, ne_eq, hb, not_false_eq_true, if_true, List.mem_cons,
        forall_eq_or_imp, false_and]
      exact ⟨fun h => absurd h (by decide), fun h => h.elim⟩

/-- The loop over the final bytes, by index: it passes exactly when every
byte at an index from `k` on equals `p`. -/
theorem paddingRunOk_drop_iff (D : Bytes) (k p : Nat) :
    paddingRunOk p (D.drop k) = true
      ↔ ∀ i : Nat, k ≤ i → i < D.length → (D.getD i 0).val = p := by
  rw [paddingRunOk_iff]
  constructor
  · intro h i hk hi
    apply h
    rw [List.getD_eq_getElem D 0 hi]
    have hj : i - k < (D.drop k).length := by
      rw [List.length_drop]
      omega
    have e : (D.drop k)[i - k] = D[i] := by
      rw [List.getElem_drop]
      congr 1
      omega
    rw [← e]
    exact List.getElem_mem hj
  · intro h b hb
    obtain ⟨j, hj, e⟩ := List.mem_iff_getElem.mp hb
    rw [List.length_drop] at hj
    rw [List.getElem_drop] at e
    have := h (k + j) (by omega) (by omega)
    rw [List.getD_eq_getElem D 0 (by omega), e] at this
    exact this

/-- When `unpadPKCS7` returns no error, and what it returns then. -/
theorem unpadPKCS7_ok_iff (D : Bytes) :
    ((unpadPKCS7 D).2 = none
        ↔ (D.length ≠ 0 ∧ (D.getD (D.length - 1) 0).val ≠ 0
            ∧ (D.getD (D.length - 1) 0).val ≤ D.length
            ∧ ∀ i : Nat, D.length - (D.getD (D.length - 1) 0).val ≤ i → i < D.length →
                (D.getD i 0).val = (D.getD (D.length - 1) 0).val))
      ∧ ((unpadPKCS7 D).2 = none →
          (unpadPKCS7 D).1 = D.length - (D.getD (D.length - 1) 0).val) := by
  unfold unpadPKCS7
  by_cases h0 : D.length = 0
  · rw [if_pos h0]
    simp [h0]
  · rw [if_neg h0]
    simp only
    by_cases h1 : (D.getD (D.length - 1) 0).val > D.length ∨ (D.getD (D.length - 1) 0).val = 0
    · rw [if_pos h1]
      constructor
      · constructor
        · intro h
          cases h
        · rintro ⟨_, h2, h3, _⟩
          rcases h1 with h1 | h1
          · omega
          · exact absurd h1 h2
      · intro h
        cases h
    · rw [if_neg h1]
      have h2 : (D.getD (D.length - 1) 0).val ≠ 0 := fun h => h1 (Or.inr h)
      have h3 : (D.getD (D.length - 1) 0).val ≤ D.length := by
        by_contra h
        exact h1 (Or.inl (by omega))
      by_cases hrun : paddingRunOk (D.getD (D.length - 1) 0).val
          (D.drop (D.length - (D.getD (D.length - 1) 0).val)) = true
      · rw [if_pos hrun]
        exact ⟨⟨fun _ => ⟨h0, h2, h3, (paddingRunOk_drop_iff _ _ _).mp hrun⟩, fun _ => rfl⟩,
          fun _ => rfl⟩
      · rw [if_neg hrun]
        constructor
        · constructor
          · intro h
            cases h
          · rintro ⟨_, _, _, h4⟩
            exact absurd ((paddingRunOk_drop_iff _ _ _).mpr h4) hrun
        · intro h
          cases h

/-- A full read fills the IV buffer with the bytes read. -/
theorem iv_copy (r : Option Reader) (n : Nat) (buf : Bytes)
    (h : ReadFull r n = Run.done (buf, none)) : copyInto (make n) 0 n buf = buf := by
  have hl := ReadFull_ok r n buf h
  have h2 := copyInto_prefix (make n) [] buf n (make_length n).symm (by rw [hl, make_length])
  simpa using h2

/-- The encryptor with explicit buffers returns what the encryptor returns,
and leaves the caller's message and additional data as they were. -/
theorem encryptor_CryptMem_spec (c : cryptorCBCHMAC) (mem mem' : SealMem)
    (res : Option Bytes × Option GoError)
    (h : encryptorCBCHMAC.CryptMem c mem = Run.done (res, mem')) :
    mem'.message = mem.message ∧ mem'.additionalData = mem.additionalData
      ∧ encryptorCBCHMAC.Crypt c mem.message mem.additionalData = Run.done res := by
  obtain ⟨message, ad, payload, iv, parcel⟩ := mem
  unfold encryptorCBCHMAC.CryptMem at h
  unfold encryptorCBCHMAC.Crypt
  cases message with
  | none =>
    simp only at h ⊢
    injection h with h
    injection h with h1 h2
    subst h1 h2
    exact ⟨rfl, rfl, rfl⟩
  | some P =>
    simp only at h ⊢
    split at h
    · rename_i hA
      rw [if_pos hA]
      injection h with h
      injection h with h1 h2
      subst h1 h2
      exact ⟨rfl, rfl, rfl⟩
    · rename_i hA
      rw [if_neg hA]
      cases hp : padPKCS7 P.length c.pher.BlockSize with
      | panicked =>
        rw [hp] at h
        cases h
      | done pad =>
        rw [hp] at h
        simp only [Run.bind_done] at h ⊢
        cases hr : ReadFull c.rand c.pher.BlockSize with
        | panicked =>
          rw [hr] at h
          cases h
        | done read =>
          rw [hr] at h
          simp only [Run.bind_done] at h ⊢
          obtain ⟨buf, e⟩ := read
          cases e with
          | some err =>
            simp only at h ⊢
            injection h with h
            injection h with h1 h2
            subst h1 h2
            exact ⟨rfl, rfl, rfl⟩
          | none =>
            simp only at h ⊢
            rw [iv_copy _ _ _ hr] at h
            cases hs : encryptorCBCHMAC.seal c buf
                (copyInto (copyInto (make (P.length + pad.length)) 0 P.length P) P.length
                  (P.length + pad.length) pad) ad with
            | panicked =>
              rw [hs] at h
              cases h
            | done p =>
              rw [hs] at h
              simp only [Run.bind_done] at h ⊢
              injection h with h
              injection h with h1 h2
              subst h1 h2
              exact ⟨rfl, rfl, rfl⟩

/-- `unpadPKCS7` succeeds exactly on the data that end in a valid padding
run. -/
theorem ValidPKCS7Run_iff (d : Bytes) : ValidPKCS7Run d ↔ (unpadPKCS7 d).2 = none := by
  rw [(unpadPKCS7_ok_iff d).1]
  constructor
  · rintro ⟨p, hp1, hp2, hall⟩
    have hlast : (d.getD (d.length - 1) 0).val = p := hall (d.length - 1) (by omega) (by omega)
    rw [hlast]
    exact ⟨by omega, by omega, hp2, hall⟩
  · rintro ⟨h0, h1, h2, hall⟩
    exact ⟨_, by omega, h2, hall⟩

/-- On non-empty data the error of `unpadPKCS7` is "invalid padding". -/
theorem unpadPKCS7_err_nonempty (d : Bytes) (i : Nat) (e : GoError) (hd : d ≠ [])
    (h : unpadPKCS7 d = (i, some e)) : e = GoError.errorString "invalid padding" := by
  have hl : d.length ≠ 0 := fun h0 => hd (List.length_eq_zero.mp h0)
  unfold unpadPKCS7 at h
  rw [if_neg hl] at h
  simp only at h
  split at h
  · simp only [Prod.mk.injEq, Option.some.injEq] at h
    exact h.2.symm
  · split at h
    · simp at h
    · simp only [Prod.mk.injEq, Option.some.injEq] at h
      exact h.2.symm

/-- The decryptor on a parcel whose tag verifies, whose AD is in range and
whose ciphertext is made of full blocks: the outcome is decided by unpadding
the decrypted payload. -/
theorem decryptor_Crypt_full_blocks (c : cryptorCBCHMAC) (hB : 0 < c.pher.BlockSize)
    (ct : Bytes) (hgood : tagVerifies c ct)
    (hrange : c.macLength + 2 + parsedADLength c ct + c.pher.BlockSize ≤ ct.length)
    (hmult : (ct.length - (c.macLength + 2 + parsedADLength c ct + c.pher.BlockSize))
      % c.pher.BlockSize = 0) :
    decryptorCBCHMAC.Crypt c (some ct) =
      match unpadPKCS7 (decryptedPayload c ct) with
      | (_, some err) => Run.done ⟨none, none, some err⟩
      | (unpadIndex, none) =>
        Run.done ⟨some (copyInto (make unpadIndex) 0 unpadIndex
            ((decryptedPayload c ct).take unpadIndex)),
          some ((ct.take (c.macLength + 2 + parsedADLength c ct)).drop (c.macLength + 2)),
          none⟩ := by
  rw [decryptor_Crypt_verified c ct (by omega) hgood]
  have s1 : slice ct (c.macLength + 2) (c.macLength + 2 + parsedADLength c ct)
      = Run.done ((ct.take (c.macLength + 2 + parsedADLength c ct)).drop (c.macLength + 2)) := by
    unfold slice
    rw [if_pos ⟨by omega, by omega⟩]
  have s2 : slice ct (c.macLength + 2 + parsedADLength c ct)
      (c.macLength + 2 + parsedADLength c ct + c.pher.BlockSize)
      = Run.done ((ct.take (c.macLength + 2 + parsedADLength c ct + c.pher.BlockSize)).drop
          (c.macLength + 2 + parsedADLength c ct)) := by
    unfold slice
    rw [if_pos ⟨by omega, by omega⟩]
  have s3 : sliceFrom ct (c.macLength + 2 + parsedADLength c ct + c.pher.BlockSize)
      = Run.done (ct.drop (c.macLength + 2 + parsedADLength c ct + c.pher.BlockSize)) := by
    unfold sliceFrom
    rw [if_pos (by omega)]
  have hivl : ((ct.take (c.macLength + 2 + parsedADLength c ct + c.pher.BlockSize)).drop
      (c.macLength + 2 + parsedADLength c ct)).length = c.pher.BlockSize := by
    rw [List.length_drop, List.length_take]
    omega
  have s4 : CBCDecrypt c.pher
      ((ct.take (c.macLength + 2 + parsedADLength c ct + c.pher.BlockSize)).drop
        (c.macLength + 2 + parsedADLength c ct))
      (ct.drop (c.macLength + 2 + parsedADLength c ct + c.pher.BlockSize))
      = Run.done (decryptedPayload c ct) := by
    unfold CBCDecrypt
    rw [if_neg]
    · rfl
    · intro h
      rcases h with h | h | h
      · omega
      · exact h hivl
      · rw [List.length_drop] at h
        exact h hmult
  simp only [s1, s2, s3, s4, Run.bind_done]

/-- In every failing outcome of the decryptor both byte sequences are
absent. -/
theorem decryptor_Crypt_failure_absent (c : cryptorCBCHMAC) (ct : Option Bytes)
    (res : OpenResult) (h : decryptorCBCHMAC.Crypt c ct = Run.done res)
    (he : res.err ≠ none) : res.message = none ∧ res.additionalData = none := by
  cases ct with
  | none =>
    have e : decryptorCBCHMAC.Crypt c none
        = Run.done ⟨none, none, some (GoError.CipherTextError "cipherText was nil")⟩ := rfl
    rw [e] at h
    injection h with h
    rw [← h]
    exact ⟨rfl, rfl⟩
  | some b =>
    by_cases hlen : c.macLength + 2 + c.pher.BlockSize ≤ b.length
    · rcases decryptor_Crypt_long_cases c b hlen with h1 | h1 | ⟨m, h1⟩ | ⟨P, A, h1⟩
      · rw [h1] at h
        cases h
      · rw [h1] at h
        injection h with h
        rw [← h]
        exact ⟨rfl, rfl⟩
      · rw [h1] at h
        injection h with h
        rw [← h]
        exact ⟨rfl, rfl⟩
      · rw [h1] at h
        injection h with h
        rw [← h] at he
        exact absurd rfl he
    · rw [decryptor_Crypt_short c b (by omega)] at h
      injection h with h
      rw [← h]
      exact ⟨rfl, rfl⟩

/-- The IV slot of a sealed parcel holds the IV that was read. -/
theorem sealed_iv (c : cryptorCBCHMAC) (hv : c.Valid) (P A parcel iv : Bytes)
    (h : encryptorCBCHMAC.Crypt c (some P) A = Run.done (some parcel, none))
    (hr : ReadFull c.rand c.pher.BlockSize = Run.done (iv, none)) :
    (parcel.drop (c.macLength + 2 + A.length)).take c.pher.BlockSize = iv := by
  obtain ⟨tag, iv', blocks, hr', _, htag, hiv, _, _, _, hp⟩ := sealed_parts c hv P A parcel h
  have e : iv' = iv := by
    rw [hr] at hr'
    injection hr' with hr'
    exact (congrArg Prod.fst hr').symm
  subst e
  have e : parcel = (tag ++ (PutUint16 A.length ++ A)) ++ (iv' ++ blocks) := by
    rw [hp]
    simp
  rw [e, List.drop_left' (by simp [htag, PutUint16_length]; omega), List.take_left' hiv]

/-- `padPKCS7` never returns more than `blockSize` bytes. -/
theorem padPKCS7_length_le (L B : Nat) (pad : Bytes) (h : padPKCS7 L B = Run.done pad) :
    pad.length ≤ B := by
  unfold padPKCS7 at h
  split at h
  · cases h
  · injection h with h
    rw [← h, List.length_replicate]
    omega

/-! ## The claims -/

/-- C1 (round trip): for keys accepted by both constructors, a plaintext `P`
(possibly empty), additional data `A` of at most 65535 bytes and an IV
delivered in full by the randomness source, the encryptor's `Crypt` returns a
parcel and the decryptor's `Crypt` on that parcel returns exactly `(P, A)`
with no error.  The block cipher and the MAC are assumed to keep their
library contracts. -/
theorem roundtrip_open_seal (aes : Bytes → Block) (haes : AESContract aes)
    (mac : MacFactory) (hmac : mac.Sound) (EK IK : Bytes) (rand : Option Reader)
    (enc dec : cryptorCBCHMAC)
    (henc : NewCBCHMACEncryptor aes EK IK mac rand = (some enc, none))
    (hdec : NewCBCHMACDecryptor aes EK IK mac = (some dec, none))
    (P A iv : Bytes) (hA : A.length ≤ 65535)
    (hr : ReadFull rand enc.pher.BlockSize = Run.done (iv, none)) :
    ∃ parcel : Bytes,
      encryptorCBCHMAC.Crypt enc (some P) A = Run.done (some parcel, none)
      ∧ decryptorCBCHMAC.Crypt dec (some parcel) = Run.done ⟨some P, some A, none⟩ := by
  unfold NewCBCHMACEncryptor at henc
  unfold NewCBCHMACDecryptor at hdec
  cases hc : newCBCHMACryptor aes EK IK mac with
  | error e => rw [hc] at henc; simp at henc
  | ok cry =>
    rw [hc] at henc hdec
    simp only [Prod.mk.injEq, Option.some.injEq, and_true] at henc hdec
    obtain ⟨_, _, _, hk, hcry⟩ := newCBCHMACryptor_ok aes EK IK mac cry hc
    obtain ⟨hsound, hsize⟩ := haes EK hk
    have hvalid : cry.Valid := by
      rw [hcry]
      exact ⟨hsound, hmac, rfl⟩
    have hvenc : enc.Valid := by
      rw [← henc]
      exact Valid_rand cry rand hvalid
    have hrand : enc.rand = rand := by rw [← henc]
    have hB : enc.pher.BlockSize = 16 := by
      rw [← henc, hcry]
      exact hsize
    rw [← hrand] at hr
    refine ⟨_, encryptor_Crypt_eq enc hvenc P A iv hA hr, ?_⟩
    have hdd : decryptorCBCHMAC.Crypt dec = decryptorCBCHMAC.Crypt enc := by
      rw [← hdec, ← henc]
      funext ct
      exact (decryptor_Crypt_rand cry rand ct).symm
    rw [hdd]
    exact roundtrip_core enc hvenc (by omega) P A iv hA (ReadFull_ok _ _ _ hr)

/-- Witness of C1: `"hello"` with empty additional data under the toy
collaborators. -/
theorem roundtrip_open_seal_witness :
    ∃ parcel : Bytes,
      encryptorCBCHMAC.Crypt toyEncryptor (some hello) [] = Run.done (some parcel, none)
      ∧ decryptorCBCHMAC.Crypt toyDecryptor (some parcel) = Run.done ⟨some hello, some [], none⟩ :=
  roundtrip_open_seal toyAES toyAES_contract sumMac sumMac_sound zeroKey onesKey
    (some countingReader) toyEncryptor toyDecryptor rfl rfl hello [] countingReader.data
    (by decide) rfl

/-- C2 (failing input): on a parcel of length `M + 2 + B` whose tag verifies
and whose AD-length header announces 65535 bytes, the decryptor's `Crypt`
takes the out-of-range slice and panics; it returns no `CipherTextError`. -/
theorem overrun_parcel_panics :
    toyCryptor.macLength + 2 + toyCryptor.pher.BlockSize ≤ overrunParcel.length
      ∧ tagVerifies toyCryptor overrunParcel
      ∧ parsedADLength toyCryptor overrunParcel = 65535
      ∧ overrunParcel.length
          < toyCryptor.macLength + 2 + parsedADLength toyCryptor overrunParcel
            + toyCryptor.pher.BlockSize
      ∧ decryptorCBCHMAC.Crypt toyCryptor (some overrunParcel) = Run.panicked :=
  ⟨by decide, by decide, rfl, by decide, rfl⟩

/-- C3 (counterexample): a parcel whose tag verifies, whose AD length is in
range and whose remaining ciphertext length is zero is not answered with a
`CipherTextError`: the decryptor's `Crypt` returns the plain error
"empty input" of `unpadPKCS7`. -/
theorem no_block_not_CipherTextError :
    tagVerifies toyCryptor noBlockParcel
      ∧ toyCryptor.macLength + 2 + parsedADLength toyCryptor noBlockParcel
          + toyCryptor.pher.BlockSize ≤ noBlockParcel.length
      ∧ noBlockParcel.length - toyCryptor.macLength - 2
          - parsedADLength toyCryptor noBlockParcel - toyCryptor.pher.BlockSize = 0
      ∧ decryptorCBCHMAC.Crypt toyCryptor (some noBlockParcel)
          = Run.done ⟨none, none, some (GoError.errorString "empty input")⟩
      ∧ ¬ ∃ msg : String, decryptorCBCHMAC.Crypt toyCryptor (some noBlockParcel)
          = Run.done ⟨none, none, some (GoError.CipherTextError msg)⟩ := by
  refine ⟨by decide, by decide, by decide, rfl, ?_⟩
  rintro ⟨msg, h⟩
  have e : decryptorCBCHMAC.Crypt toyCryptor (some noBlockParcel)
      = Run.done ⟨none, none, some (GoError.errorString "empty input")⟩ := rfl
  rw [e] at h
  injection h with h
  injection h with _ _ h
  injection h with h
  injection h

/-- C3 (amended): for every parcel whose tag verifies and whose AD length is
in range, if the remaining ciphertext length is zero, the decryptor's `Crypt`
fails with the plain error "empty input" raised by `unpadPKCS7` and returns
neither plaintext nor AD. -/
theorem no_block_empty_input (c : cryptorCBCHMAC) (hB : 0 < c.pher.BlockSize) (ct : Bytes)
    (hgood : tagVerifies c ct)
    (hrange : c.macLength + 2 + parsedADLength c ct + c.pher.BlockSize ≤ ct.length)
    (hzero : ct.length - c.macLength - 2 - parsedADLength c ct - c.pher.BlockSize = 0) :
    decryptorCBCHMAC.Crypt c (some ct)
      = Run.done ⟨none, none, some (GoError.errorString "empty input")⟩ :=
  decryptor_Crypt_no_block c hB ct hgood (by omega)

/-- Witness of C3 (amended): the parcel `noBlockParcel` under `toyCryptor`. -/
theorem no_block_empty_input_witness :
    decryptorCBCHMAC.Crypt toyCryptor (some noBlockParcel)
      = Run.done ⟨none, none, some (GoError.errorString "empty input")⟩ :=
  no_block_empty_input toyCryptor (by decide) noBlockParcel (by decide) (by decide) (by decide)

/-- C4 (MAC gates decryption): for every parcel of length at least
`M + 2 + B` whose first `M` bytes differ from `MAC(IK, parcel[M..])`, the
decryptor's `Crypt` returns the integrity error, wrapping the error of
`verify`, with no plaintext and no AD; and the outcome is this same value
under every other block cipher of the same block size, so nothing parsed,
decrypted or unpadded enters it. -/
theorem mac_gates_decryption (c : cryptorCBCHMAC) (ct : Bytes)
    (hlen : c.macLength + 2 + c.pher.BlockSize ≤ ct.length)
    (hbad : ct.take c.macLength
      ≠ generateSignature c.integrityKey c.calcMac (ct.drop c.macLength)) :
    decryptorCBCHMAC.Crypt c (some ct)
        = Run.done ⟨none, none, some (GoError.wrapError "data integrity compromised "
            (GoError.errorString "signature verification failed"))⟩
      ∧ ∀ pher : Block, pher.BlockSize = c.pher.BlockSize →
          decryptorCBCHMAC.Crypt { c with pher := pher } (some ct)
            = decryptorCBCHMAC.Crypt c (some ct) := by
  have h1 := decryptor_Crypt_unverified c ct hlen hbad
  refine ⟨h1, ?_⟩
  intro pher hp
  rw [h1]
  exact decryptor_Crypt_unverified { c with pher := pher } ct
    (by show c.macLength + 2 + pher.BlockSize ≤ ct.length; omega) hbad

/-- Witness of C4: the parcel `badTagParcel` under `toyCryptor`. -/
theorem mac_gates_decryption_witness :
    decryptorCBCHMAC.Crypt toyCryptor (some badTagParcel)
        = Run.done ⟨none, none, some (GoError.wrapError "data integrity compromised "
            (GoError.errorString "signature verification failed"))⟩
      ∧ ∀ pher : Block, pher.BlockSize = toyCryptor.pher.BlockSize →
          decryptorCBCHMAC.Crypt { toyCryptor with pher := pher } (some badTagParcel)
            = decryptorCBCHMAC.Crypt toyCryptor (some badTagParcel) :=
  mac_gates_decryption toyCryptor badTagParcel (by decide) (by decide)

/-- C5 (counterexample): under a MAC factory whose tag ignores the message,
replacing the first IV byte of a sealed parcel by a different value gives a
parcel that the decryptor's `Crypt` accepts, with an altered plaintext; it
does not fail with the integrity error. -/
theorem flipped_byte_accepted :
    encryptorCBCHMAC.Crypt constCryptor (some hello) [] = Run.done (some constSealed, none)
      ∧ constSealed.getD 4 0 ≠ 0
      ∧ decryptorCBCHMAC.Crypt constCryptor (some (constSealed.set 4 0))
          = Run.done ⟨some [105, 101, 108, 108, 111], some [], none⟩
      ∧ decryptorCBCHMAC.Crypt constCryptor (some (constSealed.set 4 0))
          ≠ Run.done ⟨none, none, some integrityError⟩ := by
  refine ⟨rfl, by decide, rfl, ?_⟩
  intro h
  have e : decryptorCBCHMAC.Crypt constCryptor (some (constSealed.set 4 0))
      = Run.done ⟨some [105, 101, 108, 108, 111], some [], none⟩ := rfl
  rw [e] at h
  injection h with h
  injection h with h
  injection h

/-- C5 (amended): for every parcel `C` produced by the encryptor's `Crypt` and
every offset `i < |C|`, replacing the byte at `i` by a different value gives a
parcel on which the decryptor's `Crypt` fails with the integrity error,
provided that, when `i` lies at or after offset `M`, the MAC of the modified
suffix differs from the MAC of the original suffix. -/
theorem flipped_byte_rejected (c : cryptorCBCHMAC) (hv : c.Valid) (P A parcel : Bytes)
    (hC : encryptorCBCHMAC.Crypt c (some P) A = Run.done (some parcel, none))
    (i : Nat) (hi : i < parcel.length) (v : Byte) (hne : parcel.getD i 0 ≠ v)
    (hmac : c.macLength ≤ i →
      generateSignature c.integrityKey c.calcMac ((parcel.set i v).drop c.macLength)
        ≠ generateSignature c.integrityKey c.calcMac (parcel.drop c.macLength)) :
    decryptorCBCHMAC.Crypt c (some (parcel.set i v))
      = Run.done ⟨none, none, some integrityError⟩ := by
  obtain ⟨iv, _, hiv, hA, hp⟩ := sealed_form c hv P A parcel hC
  have hpos := hv.block.size_pos
  have hbl := parcelBody_length c hv.block iv (paddedPayload P c.pher.BlockSize) A hiv
    (paddedPayload_mod _ _ hpos)
  have htl : (c.calcMac.hmac c.integrityKey
      (parcelBody c iv (paddedPayload P c.pher.BlockSize) A)).length = c.macLength := by
    rw [hv.mac, hv.macLength_eq]
  have hlen : c.macLength + 2 + c.pher.BlockSize ≤ (parcel.set i v).length := by
    rw [List.length_set, hp, List.length_append, htl, hbl]
    omega
  have hgood : parcel.take c.macLength
      = generateSignature c.integrityKey c.calcMac (parcel.drop c.macLength) := by
    rw [hp, List.take_left' htl, List.drop_left' htl]
    rfl
  apply decryptor_Crypt_unverified c _ hlen
  unfold tagVerifies
  by_cases him : i < c.macLength
  · rw [List.drop_set_of_lt v parcel him, ← hgood]
    exact take_set_ne parcel i c.macLength v 0 hi him hne
  · have hle : c.macLength ≤ i := by omega
    rw [take_set_of_le v parcel c.macLength i hle, hgood]
    exact fun h => hmac hle h.symm

/-- Witness of C5 (amended): the last byte of the parcel sealed by `toyCryptor`
for `"hello"` is replaced by zero. -/
theorem flipped_byte_rejected_witness :
    decryptorCBCHMAC.Crypt toyCryptor (some (toySealed.set 35 0))
      = Run.done ⟨none, none, some integrityError⟩ :=
  flipped_byte_rejected toyCryptor toyCryptor_valid hello [] toySealed rfl 35 (by decide) 0
    (by decide) (fun _ => by decide)

/-- C6 (parcel layout): in every parcel returned by the encryptor's `Crypt`
for `(P, A)` with drawn IV `iv`, the bytes at offsets `M` and `M + 1` are the
high and the low byte of `|A|` (16-bit big-endian), the bytes at
`[M + 2, M + 2 + |A|)` are `A`, and the bytes at
`[M + 2 + |A|, M + 2 + |A| + B)` are `iv`. -/
theorem parcel_layout (c : cryptorCBCHMAC) (hv : c.Valid) (P A parcel iv : Bytes)
    (hC : encryptorCBCHMAC.Crypt c (some P) A = Run.done (some parcel, none))
    (hr : ReadFull c.rand c.pher.BlockSize = Run.done (iv, none)) :
    (parcel.getD c.macLength 0).val = A.length / 256
      ∧ (parcel.getD (c.macLength + 1) 0).val = A.length % 256
      ∧ A.length < 65536
      ∧ (parcel.drop (c.macLength + 2)).take A.length = A
      ∧ (parcel.drop (c.macLength + 2 + A.length)).take c.pher.BlockSize = iv := by
  obtain ⟨tag, iv', blocks, hr', hA, htag, hiv, _, _, _, hp⟩ := sealed_parts c hv P A parcel hC
  have e : iv' = iv := by
    rw [hr] at hr'
    injection hr' with hr'
    exact (congrArg Prod.fst hr').symm
  subst e
  have h0 : parcel.getD c.macLength 0 = toByte (A.length / 256) := by
    rw [hp, List.getD_eq_getElem?_getD, List.getElem?_append_right (by omega), htag,
      Nat.sub_self]
    simp [PutUint16]
  have h1 : parcel.getD (c.macLength + 1) 0 = toByte A.length := by
    rw [hp, List.getD_eq_getElem?_getD, List.getElem?_append_right (by omega), htag,
      Nat.add_sub_cancel_left]
    simp [PutUint16]
  refine ⟨?_, ?_, by omega, ?_, ?_⟩
  · rw [h0]
    exact toByte_val _ (by omega)
  · rw [h1]
    rfl
  · have e : parcel = (tag ++ PutUint16 A.length) ++ (A ++ (iv' ++ blocks)) := by
      rw [hp]
      simp
    rw [e, List.drop_left' (by simp [htag, PutUint16_length]), List.take_left' rfl]
  · have e : parcel = (tag ++ (PutUint16 A.length ++ A)) ++ (iv' ++ blocks) := by
      rw [hp]
      simp
    rw [e, List.drop_left' (by simp [htag, PutUint16_length]; omega), List.take_left' hiv]

/-- Witness of C6: the parcel sealed by `toyCryptor` for `"hello"`. -/
theorem parcel_layout_witness :
    (toySealed.getD toyCryptor.macLength 0).val = ([] : Bytes).length / 256
      ∧ (toySealed.getD (toyCryptor.macLength + 1) 0).val = ([] : Bytes).length % 256
      ∧ ([] : Bytes).length < 65536
      ∧ (toySealed.drop (toyCryptor.macLength + 2)).take ([] : Bytes).length = []
      ∧ (toySealed.drop (toyCryptor.macLength + 2 + ([] : Bytes).length)).take
          toyCryptor.pher.BlockSize = countingReader.data :=
  parcel_layout toyCryptor toyCryptor_valid hello [] toySealed countingReader.data rfl rfl

/-- C7 (Encrypt-then-MAC coverage): in every parcel returned by the
encryptor's `Crypt`, the first `M` bytes are `MAC(IK, parcel[M..])`: the tag
is taken over the whole suffix `AD-Length | AD | IV | ciphertext` of the
finished parcel and over nothing else. -/
theorem tag_covers_suffix (c : cryptorCBCHMAC) (hv : c.Valid) (P A parcel : Bytes)
    (hC : encryptorCBCHMAC.Crypt c (some P) A = Run.done (some parcel, none)) :
    parcel.take c.macLength
        = generateSignature c.integrityKey c.calcMac (parcel.drop c.macLength)
      ∧ ∃ iv : Bytes, ReadFull c.rand c.pher.BlockSize = Run.done (iv, none)
          ∧ parcel.drop c.macLength
            = PutUint16 A.length ++ A ++ iv
              ++ cbcEncryptBlocks c.pher
                  ((paddedPayload P c.pher.BlockSize).length / c.pher.BlockSize) iv
                  (paddedPayload P c.pher.BlockSize) := by
  obtain ⟨tag, iv, blocks, hr, _, htag, _, _, hb, ht, hp⟩ := sealed_parts c hv P A parcel hC
  rw [hp, List.take_left' htag, List.drop_left' htag]
  refine ⟨ht, iv, hr, ?_⟩
  rw [hb]
  simp

/-- Witness of C7: the parcel sealed by `toyCryptor` for `"hello"`. -/
theorem tag_covers_suffix_witness :
    toySealed.take toyCryptor.macLength
        = generateSignature toyCryptor.integrityKey toyCryptor.calcMac
            (toySealed.drop toyCryptor.macLength)
      ∧ ∃ iv : Bytes, ReadFull toyCryptor.rand toyCryptor.pher.BlockSize = Run.done (iv, none)
          ∧ toySealed.drop toyCryptor.macLength
            = PutUint16 ([] : Bytes).length ++ [] ++ iv
              ++ cbcEncryptBlocks toyCryptor.pher
                  ((paddedPayload hello toyCryptor.pher.BlockSize).length
                    / toyCryptor.pher.BlockSize) iv
                  (paddedPayload hello toyCryptor.pher.BlockSize) :=
  tag_covers_suffix toyCryptor toyCryptor_valid hello [] toySealed rfl

/-- C8 (parcel length): for a plaintext `P` and additional data `A`, the
parcel returned by the encryptor's `Crypt` has length
`M + 2 + |A| + B + B * ceil((|P| + 1) / B)`; a plaintext whose length is a
multiple of `B` gets one extra full block; with `B = 16`, `|P| = 5` and
`|P| = 0` with empty `A` give `M + 34`, and `|P| = 16` with `|A| = 2` gives
`M + 52`. -/
theorem parcel_length (c : cryptorCBCHMAC) (hv : c.Valid) (P A parcel : Bytes)
    (hC : encryptorCBCHMAC.Crypt c (some P) A = Run.done (some parcel, none)) :
    parcel.length = c.macLength + 2 + A.length + c.pher.BlockSize
        + c.pher.BlockSize * ((P.length + 1 + (c.pher.BlockSize - 1)) / c.pher.BlockSize)
      ∧ (P.length % c.pher.BlockSize = 0 →
          parcel.length
            = c.macLength + 2 + A.length + c.pher.BlockSize + (P.length + c.pher.BlockSize))
      ∧ (c.pher.BlockSize = 16 → P.length = 5 → A.length = 0 →
          parcel.length = c.macLength + 34)
      ∧ (c.pher.BlockSize = 16 → P.length = 0 → A.length = 0 →
          parcel.length = c.macLength + 34)
      ∧ (c.pher.BlockSize = 16 → P.length = 16 → A.length = 2 →
          parcel.length = c.macLength + 52) := by
  have hpos := hv.block.size_pos
  have hl := sealed_length c hv P A parcel hC
  refine ⟨?_, ?_, ?_, ?_, ?_⟩
  · rw [hl, ceil_div_succ _ _ hpos, Nat.mul_comm c.pher.BlockSize]
  · intro hm
    have hd : P.length / c.pher.BlockSize * c.pher.BlockSize = P.length :=
      Nat.div_mul_cancel (Nat.dvd_of_mod_eq_zero hm)
    rw [hl, Nat.add_mul, Nat.one_mul, hd]
  · intro hb hp ha
    rw [hl, hb, hp, ha]
  · intro hb hp ha
    rw [hl, hb, hp, ha]
  · intro hb hp ha
    rw [hl, hb, hp, ha]

/-- Witness of C8: `"hello"` with empty additional data under `toyCryptor`
(`M = 2`, `B = 16`) gives a parcel of `M + 34 = 36` bytes. -/
theorem parcel_length_witness :
    toySealed.length = toyCryptor.macLength + 2 + ([] : Bytes).length
          + toyCryptor.pher.BlockSize
        + toyCryptor.pher.BlockSize
          * ((hello.length + 1 + (toyCryptor.pher.BlockSize - 1)) / toyCryptor.pher.BlockSize)
      ∧ (hello.length % toyCryptor.pher.BlockSize = 0 →
          toySealed.length = toyCryptor.macLength + 2 + ([] : Bytes).length
            + toyCryptor.pher.BlockSize + (hello.length + toyCryptor.pher.BlockSize))
      ∧ (toyCryptor.pher.BlockSize = 16 → hello.length = 5 → ([] : Bytes).length = 0 →
          toySealed.length = toyCryptor.macLength + 34)
      ∧ (toyCryptor.pher.BlockSize = 16 → hello.length = 0 → ([] : Bytes).length = 0 →
          toySealed.length = toyCryptor.macLength + 34)
      ∧ (toyCryptor.pher.BlockSize = 16 → hello.length = 16 → ([] : Bytes).length = 2 →
          toySealed.length = toyCryptor.macLength + 52) :=
  parcel_length toyCryptor toyCryptor_valid hello [] toySealed rfl

/-- C9 (valid-parcel invariants): every parcel returned by the encryptor's
`Crypt(P, A)` has total length at least `M + 2 + B + B`, and
`total length - M - 2 - |A| - B` is a positive multiple of `B`. -/
theorem parcel_invariants (c : cryptorCBCHMAC) (hv : c.Valid) (P A parcel : Bytes)
    (hC : encryptorCBCHMAC.Crypt c (some P) A = Run.done (some parcel, none)) :
    c.macLength + 2 + c.pher.BlockSize + c.pher.BlockSize ≤ parcel.length
      ∧ ∃ k : Nat, 0 < k
          ∧ parcel.length - c.macLength - 2 - A.length - c.pher.BlockSize
            = k * c.pher.BlockSize := by
  have hl := sealed_length c hv P A parcel hC
  have hk : (P.length / c.pher.BlockSize + 1) * c.pher.BlockSize
      = P.length / c.pher.BlockSize * c.pher.BlockSize + c.pher.BlockSize := by
    rw [Nat.add_mul, Nat.one_mul]
  refine ⟨by omega, P.length / c.pher.BlockSize + 1, Nat.succ_pos _, ?_⟩
  omega

/-- Witness of C9: the parcel sealed by `toyCryptor` for `"hello"`. -/
theorem parcel_invariants_witness :
    toyCryptor.macLength + 2 + toyCryptor.pher.BlockSize + toyCryptor.pher.BlockSize
        ≤ toySealed.length
      ∧ ∃ k : Nat, 0 < k
          ∧ toySealed.length - toyCryptor.macLength - 2 - ([] : Bytes).length
              - toyCryptor.pher.BlockSize
            = k * toyCryptor.pher.BlockSize :=
  parcel_invariants toyCryptor toyCryptor_valid hello [] toySealed rfl

/-- C10 (seal input validation): with a positive block size and a randomness
source that delivers `B` bytes, the encryptor's `Crypt(P, A)` returns (it does
not panic), and it returns an error exactly when `P` is nil or `|A| > 65535`:
a nil `P` gives `MessageError("message was nil")` whatever `A` is, otherwise
`|A| > 65535` gives `MessageError("additional data too large")`, and in every
other case, empty `P` and empty `A` included, a parcel is returned with no
error. -/
theorem seal_input_validation (c : cryptorCBCHMAC) (hB : 0 < c.pher.BlockSize)
    (r : Reader) (hrand : c.rand = some r) (hr : c.pher.BlockSize ≤ r.data.length)
    (m : Option Bytes) (A : Bytes) :
    ∃ res : Option Bytes × Option GoError,
      encryptorCBCHMAC.Crypt c m A = Run.done res
      ∧ (res.2 ≠ none ↔ (m = none ∨ 65535 < A.length))
      ∧ (m = none → res = (none, some (GoError.MessageError "message was nil")))
      ∧ (m ≠ none → 65535 < A.length →
          res = (none, some (GoError.MessageError "additional data too large")))
      ∧ (m ≠ none → A.length ≤ 65535 → ∃ parcel : Bytes, res = (some parcel, none)) := by
  cases m with
  | none =>
    refine ⟨_, rfl, ?_, fun _ => rfl, fun h => absurd rfl h, fun h => absurd rfl h⟩
    simp
  | some P =>
    by_cases hA : 65535 < A.length
    · refine ⟨(none, some (GoError.MessageError "additional data too large")), ?_, ?_,
        fun h => by simp at h, fun _ _ => rfl, fun _ h => by omega⟩
      · unfold encryptorCBCHMAC.Crypt
        simp only [maxAdditionalDataSize]
        rw [if_pos hA]
      · simp [hA]
    · have hpad : padPKCS7 P.length c.pher.BlockSize
          = Run.done (List.replicate (c.pher.BlockSize - P.length % c.pher.BlockSize)
              (toByte (c.pher.BlockSize - P.length % c.pher.BlockSize))) := by
        unfold padPKCS7
        rw [if_neg (by omega)]
      have hread := ReadFull_of_le r _ hr
      have hiv : (r.data.take c.pher.BlockSize).length = c.pher.BlockSize := by
        rw [List.length_take]
        omega
      obtain ⟨parcel, hs⟩ := seal_done c hB (r.data.take c.pher.BlockSize)
        (paddedPayload P c.pher.BlockSize) A hiv (paddedPayload_mod _ _ hB)
      refine ⟨(some parcel, none), ?_, ?_, fun h => by simp at h, fun _ h => absurd h hA,
        fun _ _ => ⟨parcel, rfl⟩⟩
      · unfold encryptorCBCHMAC.Crypt
        simp only [maxAdditionalDataSize]
        rw [if_neg hA, hpad, hrand, hread]
        simp only [Run.bind_done, payload_copy]
        unfold paddedPayload at hs
        rw [hs]
        rfl
      · simp [hA]

/-- Witness of C10: `toyCryptor` with an empty, non-nil plaintext and empty
additional data. -/
theorem seal_input_validation_witness :
    ∃ res : Option Bytes × Option GoError,
      encryptorCBCHMAC.Crypt toyCryptor (some []) [] = Run.done res
      ∧ (res.2 ≠ none ↔ ((some [] : Option Bytes) = none ∨ 65535 < ([] : Bytes).length))
      ∧ ((some [] : Option Bytes) = none →
          res = (none, some (GoError.MessageError "message was nil")))
      ∧ ((some [] : Option Bytes) ≠ none → 65535 < ([] : Bytes).length →
          res = (none, some (GoError.MessageError "additional data too large")))
      ∧ ((some [] : Option Bytes) ≠ none → ([] : Bytes).length ≤ 65535 →
          ∃ parcel : Bytes, res = (some parcel, none)) :=
  seal_input_validation toyCryptor (by decide) countingReader rfl (by decide) (some []) []

/-- C11 (open length validation): a nil parcel fails with
`CipherTextError("cipherText was nil")`; every non-nil parcel shorter than
`M + 2 + B` fails with a `CipherTextError` that depends neither on the MAC
factory and integrity key nor on the bytes of the parcel; a parcel that the
first check `|parcel| >= M + B` rejects is also below `M + 2 + B` and gets a
`CipherTextError` either way; and a `CipherTextError` is returned exactly for
the parcels that are nil or shorter than `M + 2 + B`. -/
theorem open_length_validation (c : cryptorCBCHMAC) :
    decryptorCBCHMAC.Crypt c none
        = Run.done ⟨none, none, some (GoError.CipherTextError "cipherText was nil")⟩
      ∧ (∀ b : Bytes, b.length < c.macLength + 2 + c.pher.BlockSize →
          (∃ msg : String, decryptorCBCHMAC.Crypt c (some b)
            = Run.done ⟨none, none, some (GoError.CipherTextError msg)⟩)
          ∧ (∀ (mac : MacFactory) (IK : Bytes),
              decryptorCBCHMAC.Crypt { c with calcMac := mac, integrityKey := IK } (some b)
                = decryptorCBCHMAC.Crypt c (some b))
          ∧ ∀ b' : Bytes, b'.length = b.length →
              decryptorCBCHMAC.Crypt c (some b') = decryptorCBCHMAC.Crypt c (some b))
      ∧ (∀ b : Bytes, b.length < c.macLength + c.pher.BlockSize →
          b.length < c.macLength + 2 + c.pher.BlockSize
            ∧ ∃ msg : String, decryptorCBCHMAC.Crypt c (some b)
                = Run.done ⟨none, none, some (GoError.CipherTextError msg)⟩)
      ∧ ∀ ct : Option Bytes,
          (∃ msg : String, decryptorCBCHMAC.Crypt c ct
            = Run.done ⟨none, none, some (GoError.CipherTextError msg)⟩)
          ↔ (ct = none ∨ ∃ b : Bytes, ct = some b
              ∧ b.length < c.macLength + 2 + c.pher.BlockSize) := by
  refine ⟨rfl, ?_, ?_, ?_⟩
  · intro b hb
    refine ⟨⟨_, decryptor_Crypt_short c b hb⟩, ?_, ?_⟩
    · intro mac IK
      rw [decryptor_Crypt_short c b hb]
      exact decryptor_Crypt_short { c with calcMac := mac, integrityKey := IK } b hb
    · intro b' hb'
      rw [decryptor_Crypt_short c b hb, decryptor_Crypt_short c b' (by omega), hb']
  · intro b hb
    exact ⟨by omega, _, decryptor_Crypt_short c b (by omega)⟩
  · intro ct
    constructor
    · rintro ⟨msg, h⟩
      cases ct with
      | none => exact Or.inl rfl
      | some b =>
        right
        refine ⟨b, rfl, ?_⟩
        by_contra hlong
        have hlen : c.macLength + 2 + c.pher.BlockSize ≤ b.length := by omega
        rcases decryptor_Crypt_long_cases c b hlen with h1 | h1 | ⟨m, h1⟩ | ⟨P, A, h1⟩
        · rw [h1] at h
          cases h
        · rw [h1] at h
          cases h
        · rw [h1] at h
          cases h
        · rw [h1] at h
          cases h
    · rintro (h | ⟨b, h, hb⟩)
      · subst h
        exact ⟨_, rfl⟩
      · subst h
        exact ⟨_, decryptor_Crypt_short c b hb⟩

/-- Witness of C11: a parcel of three bytes under `toyCryptor`
(`M + 2 + B = 20`). -/
theorem open_length_validation_witness :
    ∃ msg : String, decryptorCBCHMAC.Crypt toyCryptor (some [1, 2, 3])
      = Run.done ⟨none, none, some (GoError.CipherTextError msg)⟩ :=
  ((open_length_validation toyCryptor).2.1 [1, 2, 3] (by decide)).1

/-- C12 (counterexample): under a MAC factory whose tag ignores the message,
the parcel sealed for a 16-byte plaintext ending in `0x01` and cut back by one
block (`k = 16`) is accepted by the decryptor's `Crypt`, which returns the
first fifteen plaintext bytes; it fails neither with a `CipherTextError` nor
with the integrity error. -/
theorem truncated_parcel_accepted :
    encryptorCBCHMAC.Crypt constCryptor (some endsInOne) []
        = Run.done (some constSealedTwoBlocks, none)
      ∧ 1 ≤ 16 ∧ 16 < constSealedTwoBlocks.length
      ∧ decryptorCBCHMAC.Crypt constCryptor
          (some (constSealedTwoBlocks.take (constSealedTwoBlocks.length - 16)))
        = Run.done ⟨some [65, 65, 65, 65, 65, 65, 65, 65, 65, 65, 65, 65, 65, 65, 65],
            some [], none⟩
      ∧ ¬ ((∃ msg : String, decryptorCBCHMAC.Crypt constCryptor
              (some (constSealedTwoBlocks.take (constSealedTwoBlocks.length - 16)))
            = Run.done ⟨none, none, some (GoError.CipherTextError msg)⟩)
          ∨ decryptorCBCHMAC.Crypt constCryptor
              (some (constSealedTwoBlocks.take (constSealedTwoBlocks.length - 16)))
            = Run.done ⟨none, none, some integrityError⟩) := by
  have e : decryptorCBCHMAC.Crypt constCryptor
      (some (constSealedTwoBlocks.take (constSealedTwoBlocks.length - 16)))
      = Run.done ⟨some [65, 65, 65, 65, 65, 65, 65, 65, 65, 65, 65, 65, 65, 65, 65],
          some [], none⟩ := rfl
  refine ⟨rfl, by decide, by decide, e, ?_⟩
  rw [e]
  rintro (⟨msg, h⟩ | h)
  · cases h
  · cases h

/-- C12 (amended): for every parcel `C` produced by the encryptor's `Crypt`
and every `k` with `1 <= k < |C|`, the decryptor's `Crypt` on the first
`|C| - k` bytes of `C` fails with a `CipherTextError` or with the integrity
error, provided that, when `|C| - k >= M + 2 + B`, the MAC of the truncated
suffix differs from the MAC of the full suffix. -/
theorem truncated_parcel_rejected (c : cryptorCBCHMAC) (hv : c.Valid) (P A parcel : Bytes)
    (hC : encryptorCBCHMAC.Crypt c (some P) A = Run.done (some parcel, none))
    (k : Nat) (hk1 : 1 ≤ k) (hk2 : k < parcel.length)
    (hmac : c.macLength + 2 + c.pher.BlockSize ≤ parcel.length - k →
      generateSignature c.integrityKey c.calcMac
          ((parcel.take (parcel.length - k)).drop c.macLength)
        ≠ generateSignature c.integrityKey c.calcMac (parcel.drop c.macLength)) :
    (∃ msg : String, decryptorCBCHMAC.Crypt c (some (parcel.take (parcel.length - k)))
        = Run.done ⟨none, none, some (GoError.CipherTextError msg)⟩)
      ∨ decryptorCBCHMAC.Crypt c (some (parcel.take (parcel.length - k)))
        = Run.done ⟨none, none, some integrityError⟩ := by
  have hl : (parcel.take (parcel.length - k)).length = parcel.length - k := by
    rw [List.length_take]
    omega
  by_cases hs : parcel.length - k < c.macLength + 2 + c.pher.BlockSize
  · exact Or.inl ⟨_, decryptor_Crypt_short c _ (by rw [hl]; exact hs)⟩
  · right
    have hlen : c.macLength + 2 + c.pher.BlockSize ≤ parcel.length - k := by omega
    apply decryptor_Crypt_unverified c _ (by rw [hl]; exact hlen)
    intro hgood
    unfold tagVerifies at hgood
    have ht := sealed_tagVerifies c hv P A parcel hC
    unfold tagVerifies at ht
    have hmin : min c.macLength (parcel.length - k) = c.macLength := by omega
    rw [List.take_take, hmin, ht] at hgood
    exact hmac hlen hgood.symm

/-- Witness of C12 (amended): the parcel sealed by `toyCryptor` for a 16-byte
plaintext, cut back by one block. -/
theorem truncated_parcel_rejected_witness :
    (∃ msg : String, decryptorCBCHMAC.Crypt toyCryptor
        (some (toySealedTwoBlocks.take (toySealedTwoBlocks.length - 16)))
        = Run.done ⟨none, none, some (GoError.CipherTextError msg)⟩)
      ∨ decryptorCBCHMAC.Crypt toyCryptor
          (some (toySealedTwoBlocks.take (toySealedTwoBlocks.length - 16)))
        = Run.done ⟨none, none, some integrityError⟩ :=
  truncated_parcel_rejected toyCryptor toyCryptor_valid endsInOne [] toySealedTwoBlocks rfl 16
    (by decide) (by decide) (fun _ => by decide)

/-- C13 (counterexample): the decryptor's `Crypt` accepts a parcel whose
blocks decrypt to 32 bytes `0x20` and returns the empty plaintext with empty
AD, yet no IV of `B` bytes makes `seal` of the padded empty plaintext produce
that parcel: every such seal has 36 bytes, the parcel has 52. -/
theorem accepted_parcel_not_sealed :
    decryptorCBCHMAC.Crypt toyCryptor (some longRunParcel)
        = Run.done ⟨some [], some [], none⟩
      ∧ ¬ ∃ iv : Bytes, iv.length = toyCryptor.pher.BlockSize
          ∧ encryptorCBCHMAC.seal toyCryptor iv (paddedPayload [] toyCryptor.pher.BlockSize) []
            = Run.done longRunParcel := by
  refine ⟨rfl, ?_⟩
  rintro ⟨iv, hiv, hs⟩
  have hmod : (paddedPayload [] toyCryptor.pher.BlockSize).length
      % toyCryptor.pher.BlockSize = 0 := by decide
  rw [seal_eq toyCryptor toyCryptor_valid iv _ [] hiv hmod (by decide)] at hs
  injection hs with hs
  have hl := congrArg List.length hs
  rw [List.length_append, toyCryptor_valid.mac,
    parcelBody_length toyCryptor toyCryptor_valid.block iv _ [] hiv hmod] at hl
  revert hl
  decide

/-- C13 (amended): for every parcel `C` on which the decryptor's `Crypt`
succeeds with result `(P, A)` and whose length is the length
`M + 2 + |A| + B + B * ceil((|P| + 1) / B)` of a sealed `(P, A)`, there is an
IV of `B` bytes such that `seal` of `P` with its PKCS#7 padding and `A` under
that IV yields exactly `C`.  The block cipher is a permutation of the
blocks. -/
theorem accepted_parcel_is_sealed (c : cryptorCBCHMAC) (hv : c.Valid) (hinv : c.pher.Inverse)
    (C P A : Bytes)
    (hopen : decryptorCBCHMAC.Crypt c (some C) = Run.done ⟨some P, some A, none⟩)
    (hcanon : C.length = c.macLength + 2 + A.length + c.pher.BlockSize
      + c.pher.BlockSize * ((P.length + 1 + (c.pher.BlockSize - 1)) / c.pher.BlockSize)) :
    ∃ iv : Bytes, iv.length = c.pher.BlockSize
      ∧ encryptorCBCHMAC.seal c iv (paddedPayload P c.pher.BlockSize) A = Run.done C := by
  obtain ⟨tag, hdr, iv, blocks, hC, ltag, lhdr, hparsed, liv, hpos, hmod, hver, hunpad, hP⟩ :=
    decryptor_Crypt_success c C P A hopen
  have hn : blocks.length = blocks.length / c.pher.BlockSize * c.pher.BlockSize :=
    (Nat.div_mul_cancel (Nat.dvd_of_mod_eq_zero hmod)).symm
  have hbl : blocks.length = P.length + (c.pher.BlockSize - P.length % c.pher.BlockSize) := by
    have hl := congrArg List.length hC
    simp only [List.length_append, ltag, lhdr, liv] at hl
    rw [hcanon, ceil_div_succ _ _ hpos, Nat.mul_comm, ← padded_length_eq _ _ hpos] at hl
    omega
  have hdl := cbcDecryptBlocks_length c.pher hinv _ iv blocks liv hn
  rw [← hn] at hdl
  obtain ⟨p, _, hple, hidx, hrun⟩ := unpadPKCS7_ok _ _ hunpad
  have hp : p = c.pher.BlockSize - P.length % c.pher.BlockSize := by
    rw [hdl] at hple hidx
    omega
  have hdst : cbcDecryptBlocks c.pher (blocks.length / c.pher.BlockSize) iv blocks
      = paddedPayload P c.pher.BlockSize := by
    have e := List.take_append_drop P.length
      (cbcDecryptBlocks c.pher (blocks.length / c.pher.BlockSize) iv blocks)
    rw [hrun, ← hP, hp] at e
    exact e.symm
  have henc := cbcEncryptBlocks_decrypt c.pher hinv _ iv blocks liv hn
  rw [hdst] at henc
  have hpl : (paddedPayload P c.pher.BlockSize).length = blocks.length := by
    rw [paddedPayload_length, hbl]
  obtain ⟨hput, hA⟩ := PutUint16_Uint16 hdr lhdr
  rw [hparsed] at hput hA
  refine ⟨iv, liv, ?_⟩
  rw [seal_eq c hv iv _ A liv (paddedPayload_mod _ _ hpos) hA]
  have hbody : parcelBody c iv (paddedPayload P c.pher.BlockSize) A
      = hdr ++ (A ++ (iv ++ blocks)) := by
    unfold parcelBody
    rw [hpl, henc, hput]
    simp
  rw [hbody, ← hver, ← hC]

/-- Witness of C13 (amended): the parcel sealed by `toyCryptor` for
`"hello"`. -/
theorem accepted_parcel_is_sealed_witness :
    ∃ iv : Bytes, iv.length = toyCryptor.pher.BlockSize
      ∧ encryptorCBCHMAC.seal toyCryptor iv (paddedPayload hello toyCryptor.pher.BlockSize) []
        = Run.done toySealed :=
  accepted_parcel_is_sealed toyCryptor toyCryptor_valid (xorBlock_inverse 90) toySealed hello []
    rfl (by decide)

/-- C14 (equal keys are rejected): when `EK` equals `IK` bytewise, whatever
their length, `NewCBCHMACEncryptor` and `NewCBCHMACDecryptor` return no
cryptor and an error; when the common length is at least 16 the error is
`InvalidUsageError("using same key for encryption and integrity is not
allowed")`, also for lengths that the block cipher would refuse, and the
outcome does not depend on the block cipher, which is not initialised. -/
theorem equal_keys_rejected (aes : Bytes → Block) (EK IK : Bytes) (heq : EK = IK)
    (mac : MacFactory) (rand : Option Reader) :
    (∃ e : GoError, NewCBCHMACEncryptor aes EK IK mac rand = (none, some e)
        ∧ NewCBCHMACDecryptor aes EK IK mac = (none, some e))
      ∧ (16 ≤ EK.length →
          NewCBCHMACEncryptor aes EK IK mac rand
              = (none, some (GoError.InvalidUsageError
                  "using same key for encryption and integrity is not allowed"))
            ∧ NewCBCHMACDecryptor aes EK IK mac
              = (none, some (GoError.InvalidUsageError
                  "using same key for encryption and integrity is not allowed")))
      ∧ ∀ aes' : Bytes → Block,
          NewCBCHMACEncryptor aes' EK IK mac rand = NewCBCHMACEncryptor aes EK IK mac rand
            ∧ NewCBCHMACDecryptor aes' EK IK mac = NewCBCHMACDecryptor aes EK IK mac := by
  subst heq
  have hshort : ∀ a : Bytes → Block, EK.length < 16 →
      newCBCHMACryptor a EK EK mac
        = Except.error (GoError.EncryptionKeyError "encryption key too short") := by
    intro a h
    rw [newCBCHMACryptor_eq, if_pos h]
  have hlong : ∀ a : Bytes → Block, 16 ≤ EK.length →
      newCBCHMACryptor a EK EK mac
        = Except.error (GoError.InvalidUsageError
            "using same key for encryption and integrity is not allowed") := by
    intro a h
    rw [newCBCHMACryptor_eq, if_neg (by omega), if_neg (by omega), if_pos rfl]
  refine ⟨?_, ?_, ?_⟩
  · by_cases h : EK.length < 16
    · exact ⟨_, constructors_of_error aes EK EK mac rand _ (hshort aes h)⟩
    · exact ⟨_, constructors_of_error aes EK EK mac rand _ (hlong aes (by omega))⟩
  · intro h
    exact constructors_of_error aes EK EK mac rand _ (hlong aes h)
  · intro aes'
    by_cases h : EK.length < 16
    · have h1 := constructors_of_error aes EK EK mac rand _ (hshort aes h)
      have h2 := constructors_of_error aes' EK EK mac rand _ (hshort aes' h)
      exact ⟨h2.1.trans h1.1.symm, h2.2.trans h1.2.symm⟩
    · have h1 := constructors_of_error aes EK EK mac rand _ (hlong aes (by omega))
      have h2 := constructors_of_error aes' EK EK mac rand _ (hlong aes' (by omega))
      exact ⟨h2.1.trans h1.1.symm, h2.2.trans h1.2.symm⟩

/-- Witness of C14: `EK = IK =` sixteen zero bytes. -/
theorem equal_keys_rejected_witness :
    NewCBCHMACEncryptor toyAES zeroKey zeroKey sumMac (some countingReader)
        = (none, some (GoError.InvalidUsageError
            "using same key for encryption and integrity is not allowed"))
      ∧ NewCBCHMACDecryptor toyAES zeroKey zeroKey sumMac
        = (none, some (GoError.InvalidUsageError
            "using same key for encryption and integrity is not allowed")) :=
  (equal_keys_rejected toyAES zeroKey zeroKey rfl sumMac (some countingReader)).2.1 (by decide)

/-- C15 (constructor check order): if `|EK| < 16` both constructors fail with
`EncryptionKeyError("encryption key too short")` whatever `IK` is; otherwise
if `|IK| < 16` they fail with `EncryptionKeyError("integrity key too short")`;
and an `InvalidUsageError` is returned only when both lengths are at least 16
(and the keys are equal). -/
theorem constructor_check_order (aes : Bytes → Block) (EK IK : Bytes) (mac : MacFactory)
    (rand : Option Reader) :
    (EK.length < 16 →
        NewCBCHMACEncryptor aes EK IK mac rand
            = (none, some (GoError.EncryptionKeyError "encryption key too short"))
          ∧ NewCBCHMACDecryptor aes EK IK mac
            = (none, some (GoError.EncryptionKeyError "encryption key too short")))
      ∧ (16 ≤ EK.length → IK.length < 16 →
          NewCBCHMACEncryptor aes EK IK mac rand
              = (none, some (GoError.EncryptionKeyError "integrity key too short"))
            ∧ NewCBCHMACDecryptor aes EK IK mac
              = (none, some (GoError.EncryptionKeyError "integrity key too short")))
      ∧ ∀ msg : String,
          (NewCBCHMACEncryptor aes EK IK mac rand
              = (none, some (GoError.InvalidUsageError msg))
            ∨ NewCBCHMACDecryptor aes EK IK mac
              = (none, some (GoError.InvalidUsageError msg))) →
          16 ≤ EK.length ∧ 16 ≤ IK.length ∧ EK = IK := by
  refine ⟨?_, ?_, ?_⟩
  · intro h
    exact constructors_of_error aes EK IK mac rand _ (by rw [newCBCHMACryptor_eq, if_pos h])
  · intro h1 h2
    exact constructors_of_error aes EK IK mac rand _
      (by rw [newCBCHMACryptor_eq, if_neg (by omega), if_pos h2])
  · intro msg h
    have key : ∀ e : GoError, newCBCHMACryptor aes EK IK mac = Except.error e →
        e = GoError.InvalidUsageError msg → 16 ≤ EK.length ∧ 16 ≤ IK.length ∧ EK = IK := by
      intro e he hmsg
      rw [newCBCHMACryptor_eq] at he
      by_cases h1 : EK.length < 16
      · rw [if_pos h1] at he
        injection he with he
        rw [← he] at hmsg
        cases hmsg
      · rw [if_neg h1] at he
        by_cases h2 : IK.length < 16
        · rw [if_pos h2] at he
          injection he with he
          rw [← he] at hmsg
          cases hmsg
        · rw [if_neg h2] at he
          by_cases h3 : EK = IK
          · exact ⟨by omega, by omega, h3⟩
          · rw [if_neg h3] at he
            by_cases h4 : EK.length = 16 ∨ EK.length = 24 ∨ EK.length = 32
            · rw [if_pos h4] at he
              cases he
            · rw [if_neg h4] at he
              injection he with he
              rw [← he] at hmsg
              cases hmsg
    cases hc : newCBCHMACryptor aes EK IK mac with
    | error e =>
      obtain ⟨h1, h2⟩ := constructors_of_error aes EK IK mac rand e hc
      rcases h with h | h
      · rw [h1] at h
        simp only [Prod.mk.injEq, Option.some.injEq, true_and] at h
        exact key e hc h
      · rw [h2] at h
        simp only [Prod.mk.injEq, Option.some.injEq, true_and] at h
        exact key e hc h
    | ok cry =>
      obtain ⟨h1, h2⟩ := constructors_of_ok aes EK IK mac rand cry hc
      rcases h with h | h
      · rw [h1] at h
        cases h
      · rw [h2] at h
        cases h

/-- Witness of C15: a 15-byte encryption key with a 3-byte integrity key
fails on the encryption key. -/
theorem constructor_check_order_witness :
    NewCBCHMACEncryptor toyAES (List.replicate 15 0) [1, 2, 3] sumMac none
        = (none, some (GoError.EncryptionKeyError "encryption key too short"))
      ∧ NewCBCHMACDecryptor toyAES (List.replicate 15 0) [1, 2, 3] sumMac
        = (none, some (GoError.EncryptionKeyError "encryption key too short")) :=
  (constructor_check_order toyAES (List.replicate 15 0) [1, 2, 3] sumMac none).1 (by decide)

/-- C16 (counterexample): an `EK` of 17 zero bytes has at least 16 bytes and a
length that is not 16, 24 or 32, yet with `IK` equal to it both constructors
return `InvalidUsageError`, and with an `IK` of 3 bytes both return
`EncryptionKeyError("integrity key too short")`; in neither case is the error
the `KeySizeError` of the block cipher. -/
theorem unsupported_key_size_other_error :
    16 ≤ (List.replicate 17 (0 : Byte)).length
      ∧ ¬ ((List.replicate 17 (0 : Byte)).length = 16
          ∨ (List.replicate 17 (0 : Byte)).length = 24
          ∨ (List.replicate 17 (0 : Byte)).length = 32)
      ∧ NewCBCHMACEncryptor toyAES (List.replicate 17 0) (List.replicate 17 0) sumMac none
          = (none, some (GoError.InvalidUsageError
              "using same key for encryption and integrity is not allowed"))
      ∧ NewCBCHMACDecryptor toyAES (List.replicate 17 0) (List.replicate 17 0) sumMac
          = (none, some (GoError.InvalidUsageError
              "using same key for encryption and integrity is not allowed"))
      ∧ NewCBCHMACEncryptor toyAES (List.replicate 17 0) (List.replicate 17 0) sumMac none
          ≠ (none, some (GoError.KeySizeError 17))
      ∧ NewCBCHMACDecryptor toyAES (List.replicate 17 0) (List.replicate 17 0) sumMac
          ≠ (none, some (GoError.KeySizeError 17))
      ∧ NewCBCHMACEncryptor toyAES (List.replicate 17 0) [1, 2, 3] sumMac none
          = (none, some (GoError.EncryptionKeyError "integrity key too short"))
      ∧ NewCBCHMACDecryptor toyAES (List.replicate 17 0) [1, 2, 3] sumMac
          = (none, some (GoError.EncryptionKeyError "integrity key too short")) := by
  have e1 : NewCBCHMACEncryptor toyAES (List.replicate 17 0) (List.replicate 17 0) sumMac none
      = (none, some (GoError.InvalidUsageError
          "using same key for encryption and integrity is not allowed")) := rfl
  have e2 : NewCBCHMACDecryptor toyAES (List.replicate 17 0) (List.replicate 17 0) sumMac
      = (none, some (GoError.InvalidUsageError
          "using same key for encryption and integrity is not allowed")) := rfl
  refine ⟨by decide, by decide, e1, e2, ?_, ?_, rfl, rfl⟩
  · rw [e1]
    intro h
    cases h
  · rw [e2]
    intro h
    cases h

/-- C16 (amended): `NewCBCHMACEncryptor` and `NewCBCHMACDecryptor` succeed on
the same key pairs, namely exactly when `|EK|` is 16, 24 or 32, `|IK| >= 16`
and `EK` differs from `IK`; in every other case both return no cryptor and the
same error.  An `EK` of at least 16 bytes whose length is not 16, 24 or 32 is
never refused as too short and is always rejected: with the `KeySizeError` of
the block cipher when `|IK| >= 16` and `EK` differs from `IK`, with
`EncryptionKeyError("integrity key too short")` when `|IK| < 16`, and with
the `InvalidUsageError` when `EK` equals `IK`. -/
theorem constructor_acceptance (aes : Bytes → Block) (EK IK : Bytes) (mac : MacFactory)
    (rand : Option Reader) :
    ((∃ enc : cryptorCBCHMAC, NewCBCHMACEncryptor aes EK IK mac rand = (some enc, none))
        ↔ ((EK.length = 16 ∨ EK.length = 24 ∨ EK.length = 32) ∧ 16 ≤ IK.length ∧ EK ≠ IK))
      ∧ ((∃ dec : cryptorCBCHMAC, NewCBCHMACDecryptor aes EK IK mac = (some dec, none))
        ↔ ((EK.length = 16 ∨ EK.length = 24 ∨ EK.length = 32) ∧ 16 ≤ IK.length ∧ EK ≠ IK))
      ∧ (¬ ((EK.length = 16 ∨ EK.length = 24 ∨ EK.length = 32) ∧ 16 ≤ IK.length ∧ EK ≠ IK) →
          ∃ e : GoError, NewCBCHMACEncryptor aes EK IK mac rand = (none, some e)
            ∧ NewCBCHMACDecryptor aes EK IK mac = (none, some e))
      ∧ (16 ≤ EK.length → ¬ (EK.length = 16 ∨ EK.length = 24 ∨ EK.length = 32) →
          NewCBCHMACEncryptor aes EK IK mac rand
              ≠ (none, some (GoError.EncryptionKeyError "encryption key too short"))
            ∧ NewCBCHMACDecryptor aes EK IK mac
              ≠ (none, some (GoError.EncryptionKeyError "encryption key too short"))
            ∧ (16 ≤ IK.length → EK ≠ IK →
                NewCBCHMACEncryptor aes EK IK mac rand
                    = (none, some (GoError.KeySizeError EK.length))
                  ∧ NewCBCHMACDecryptor aes EK IK mac
                    = (none, some (GoError.KeySizeError EK.length)))
            ∧ (IK.length < 16 →
                NewCBCHMACEncryptor aes EK IK mac rand
                    = (none, some (GoError.EncryptionKeyError "integrity key too short"))
                  ∧ NewCBCHMACDecryptor aes EK IK mac
                    = (none, some (GoError.EncryptionKeyError "integrity key too short")))
            ∧ (EK = IK →
                NewCBCHMACEncryptor aes EK IK mac rand
                    = (none, some (GoError.InvalidUsageError
                        "using same key for encryption and integrity is not allowed"))
                  ∧ NewCBCHMACDecryptor aes EK IK mac
                    = (none, some (GoError.InvalidUsageError
                        "using same key for encryption and integrity is not allowed")))) := by
  have hok : ((EK.length = 16 ∨ EK.length = 24 ∨ EK.length = 32) ∧ 16 ≤ IK.length ∧ EK ≠ IK) →
      ∃ cry : cryptorCBCHMAC, newCBCHMACryptor aes EK IK mac = Except.ok cry := by
    rintro ⟨h4, h2, h3⟩
    have h1 : ¬ EK.length < 16 := by omega
    have h2' : ¬ IK.length < 16 := by omega
    rw [newCBCHMACryptor_eq, if_neg h1, if_neg h2', if_neg h3, if_pos h4]
    exact ⟨_, rfl⟩
  have hbad : ¬ ((EK.length = 16 ∨ EK.length = 24 ∨ EK.length = 32) ∧ 16 ≤ IK.length
      ∧ EK ≠ IK) → ∃ e : GoError, newCBCHMACryptor aes EK IK mac = Except.error e := by
    intro hn
    rw [newCBCHMACryptor_eq]
    by_cases h1 : EK.length < 16
    · exact ⟨_, by rw [if_pos h1]⟩
    · rw [if_neg h1]
      by_cases h2 : IK.length < 16
      · exact ⟨_, by rw [if_pos h2]⟩
      · rw [if_neg h2]
        by_cases h3 : EK = IK
        · exact ⟨_, by rw [if_pos h3]⟩
        · rw [if_neg h3]
          by_cases h4 : EK.length = 16 ∨ EK.length = 24 ∨ EK.length = 32
          · exact absurd ⟨h4, by omega, h3⟩ hn
          · exact ⟨_, by rw [if_neg h4]⟩
  refine ⟨?_, ?_, ?_, ?_⟩
  · constructor
    · rintro ⟨enc, h⟩
      by_contra hn
      obtain ⟨e, he⟩ := hbad hn
      rw [(constructors_of_error aes EK IK mac rand e he).1] at h
      cases h
    · intro hc
      obtain ⟨cry, h⟩ := hok hc
      exact ⟨_, (constructors_of_ok aes EK IK mac rand cry h).1⟩
  · constructor
    · rintro ⟨dec, h⟩
      by_contra hn
      obtain ⟨e, he⟩ := hbad hn
      rw [(constructors_of_error aes EK IK mac rand e he).2] at h
      cases h
    · intro hc
      obtain ⟨cry, h⟩ := hok hc
      exact ⟨_, (constructors_of_ok aes EK IK mac rand cry h).2⟩
  · intro hn
    obtain ⟨e, he⟩ := hbad hn
    exact ⟨e, constructors_of_error aes EK IK mac rand e he⟩
  · intro h1 h4
    obtain ⟨e, he⟩ := hbad (fun hc => h4 hc.1)
    obtain ⟨e1, e2⟩ := constructors_of_error aes EK IK mac rand e he
    have hne : e ≠ GoError.EncryptionKeyError "encryption key too short" := by
      intro hcontra
      rw [newCBCHMACryptor_eq, if_neg (by omega)] at he
      by_cases h2 : IK.length < 16
      · rw [if_pos h2] at he
        injection he with he
        rw [← he] at hcontra
        revert hcontra
        decide
      · rw [if_neg h2] at he
        by_cases h3 : EK = IK
        · rw [if_pos h3] at he
          injection he with he
          rw [← he] at hcontra
          cases hcontra
        · rw [if_neg h3, if_neg h4] at he
          injection he with he
          rw [← he] at hcontra
          cases hcontra
    have hE : ¬ EK.length < 16 := by omega
    refine ⟨?_, ?_, ?_, ?_, ?_⟩
    · rw [e1]
      intro hx
      simp only [Prod.mk.injEq, Option.some.injEq, true_and] at hx
      exact hne hx
    · rw [e2]
      intro hx
      simp only [Prod.mk.injEq, Option.some.injEq, true_and] at hx
      exact hne hx
    · intro h2 h3
      exact constructors_of_error aes EK IK mac rand _
        (by rw [newCBCHMACryptor_eq, if_neg (by omega), if_neg (by omega), if_neg h3,
          if_neg h4])
    · intro h2
      exact constructors_of_error aes EK IK mac rand _
        (by rw [newCBCHMACryptor_eq, if_neg hE, if_pos h2])
    · intro h3
      have hI : ¬ IK.length < 16 := by
        rw [← h3]
        exact hE
      exact constructors_of_error aes EK IK mac rand _
        (by rw [newCBCHMACryptor_eq, if_neg hE, if_neg hI, if_pos h3])

/-- Witness of C16 (amended): a 17-byte encryption key with a 16-byte
integrity key is rejected with the `KeySizeError` of the block cipher. -/
theorem constructor_acceptance_witness :
    NewCBCHMACEncryptor toyAES (List.replicate 17 0) onesKey sumMac none
        = (none, some (GoError.KeySizeError (List.replicate 17 (0 : Byte)).length))
      ∧ NewCBCHMACDecryptor toyAES (List.replicate 17 0) onesKey sumMac
        = (none, some (GoError.KeySizeError (List.replicate 17 (0 : Byte)).length)) :=
  ((constructor_acceptance toyAES (List.replicate 17 0) onesKey sumMac none).2.2.2
    (by decide) (by decide)).2.2.1 (by decide) (by decide)

/-- C17 (MAC verification): `verify` returns no error exactly when the tag is
bytewise equal to `generateSignature(IK, H, m)`, and the library's
constant-time loop decides this same equality; otherwise it returns its
"signature verification failed" error, in particular for every tag whose
length differs from the length of the MAC output. -/
theorem verify_iff_tag_eq (tag token : Bytes) (hashing : MacFactory) (m : Bytes) :
    (verify tag token hashing generateSignature m = none
        ↔ tag = generateSignature token hashing m)
      ∧ (ConstantTimeCompareLoop (generateSignature token hashing m) tag = 1
        ↔ tag = generateSignature token hashing m)
      ∧ (tag ≠ generateSignature token hashing m →
          verify tag token hashing generateSignature m
            = some (GoError.errorString "signature verification failed"))
      ∧ (tag.length ≠ (generateSignature token hashing m).length →
          verify tag token hashing generateSignature m
            = some (GoError.errorString "signature verification failed")) := by
  refine ⟨verify_eq_none tag token hashing m, ?_, verify_eq_some tag token hashing m, ?_⟩
  · rw [← ConstantTimeCompare_eq_loop]
    unfold ConstantTimeCompare
    by_cases e : generateSignature token hashing m = tag
    · rw [if_pos e]
      exact ⟨fun _ => e.symm, fun _ => rfl⟩
    · rw [if_neg e]
      exact ⟨fun h => absurd h (by decide), fun h => absurd h.symm e⟩
  · intro hl
    exact verify_eq_some tag token hashing m (fun h => hl (congrArg List.length h))

/-- Witness of C17: a three-byte tag against the two-byte output of
`sumMac`. -/
theorem verify_iff_tag_eq_witness :
    verify [1, 2, 3] onesKey sumMac generateSignature hello
      = some (GoError.errorString "signature verification failed") :=
  (verify_iff_tag_eq [1, 2, 3] onesKey sumMac hello).2.2.2 (by decide)

/-- C18 (randomness failure): when the randomness source holds fewer than `B`
bytes, the encryptor's `Crypt` on a non-nil plaintext and an AD of at most
65535 bytes returns no parcel and the error of `io.ReadFull` (`EOF` for an
empty source that ends, `ErrUnexpectedEOF` for a source that ends after some
bytes, otherwise the source's own error); the outcome is the same under every
block cipher of that block size, MAC factory and integrity key, so no
encryption or MAC result enters it. -/
theorem randomness_failure (c : cryptorCBCHMAC) (hB : 0 < c.pher.BlockSize)
    (r : Reader) (hrand : c.rand = some r) (hshort : r.data.length < c.pher.BlockSize)
    (P A : Bytes) (hA : A.length ≤ 65535) :
    ∃ e : GoError,
      (∃ buf : Bytes, ReadFull c.rand c.pher.BlockSize = Run.done (buf, some e))
      ∧ encryptorCBCHMAC.Crypt c (some P) A = Run.done (none, some e)
      ∧ (r.err = GoError.EOF → r.data.length = 0 → e = GoError.EOF)
      ∧ (r.err = GoError.EOF → 0 < r.data.length → e = GoError.ErrUnexpectedEOF)
      ∧ (r.err ≠ GoError.EOF → e = r.err)
      ∧ ∀ (pher : Block) (mac : MacFactory) (IK : Bytes),
          pher.BlockSize = c.pher.BlockSize →
          encryptorCBCHMAC.Crypt { c with pher := pher, calcMac := mac, integrityKey := IK }
              (some P) A
            = encryptorCBCHMAC.Crypt c (some P) A := by
  refine ⟨_, ⟨r.data, ?_⟩, encryptor_Crypt_short_read c hB r hrand hshort P A hA, ?_, ?_, ?_, ?_⟩
  · rw [hrand]
    exact ReadFull_short r _ hshort
  · intro h1 h2
    rw [if_neg (by omega)]
    exact h1
  · intro h1 h2
    rw [if_pos ⟨h1, h2⟩]
  · intro h1
    rw [if_neg (fun h => h1 h.1)]
  · intro pher mac IK hp
    rw [encryptor_Crypt_short_read c hB r hrand hshort P A hA]
    exact encryptor_Crypt_short_read { c with pher := pher, calcMac := mac, integrityKey := IK }
      (by show 0 < pher.BlockSize; omega) r hrand
      (by show r.data.length < pher.BlockSize; omega) P A hA

/-- Witness of C18: `toyCryptor` with a randomness source that ends after
three bytes. -/
theorem randomness_failure_witness :
    ∃ e : GoError,
      (∃ buf : Bytes,
        ReadFull shortCryptor.rand shortCryptor.pher.BlockSize = Run.done (buf, some e))
      ∧ encryptorCBCHMAC.Crypt shortCryptor (some hello) [] = Run.done (none, some e)
      ∧ (shortReader.err = GoError.EOF → shortReader.data.length = 0 → e = GoError.EOF)
      ∧ (shortReader.err = GoError.EOF → 0 < shortReader.data.length →
          e = GoError.ErrUnexpectedEOF)
      ∧ (shortReader.err ≠ GoError.EOF → e = shortReader.err)
      ∧ ∀ (pher : Block) (mac : MacFactory) (IK : Bytes),
          pher.BlockSize = shortCryptor.pher.BlockSize →
          encryptorCBCHMAC.Crypt
              { shortCryptor with pher := pher, calcMac := mac, integrityKey := IK }
              (some hello) []
            = encryptorCBCHMAC.Crypt shortCryptor (some hello) [] :=
  randomness_failure shortCryptor (by decide) shortReader rfl (by decide) hello [] (by decide)

/-- C19 (idempotence of open): a call of the decryptor's `Crypt` that returns
leaves every byte of the caller's parcel unchanged, and a second call on the
parcel as the first call left it returns the same result (the same plaintext
and AD, or the same error) and again leaves the parcel unchanged; the result
is the one of the decryptor's `Crypt` as a function of the parcel. -/
theorem open_idempotent (c : cryptorCBCHMAC) (mem mem' : OpenMem) (res : OpenResult)
    (h : decryptorCBCHMAC.CryptMem c mem = Run.done (res, mem')) :
    mem'.ciphertext = mem.ciphertext
      ∧ (∃ mem'' : OpenMem, decryptorCBCHMAC.CryptMem c mem' = Run.done (res, mem'')
          ∧ mem''.ciphertext = mem.ciphertext)
      ∧ decryptorCBCHMAC.Crypt c mem.ciphertext = Run.done res := by
  obtain ⟨h1, h2⟩ := (CryptMem_spec c mem).1 res mem' h
  refine ⟨h1, ?_, h2⟩
  rw [← h1] at h2
  obtain ⟨mem'', h3⟩ := (CryptMem_spec c mem').2.2 res h2
  exact ⟨mem'', h3, ((CryptMem_spec c mem').1 res mem'' h3).1.trans h1⟩

/-- Witness of C19: the parcel sealed by `toyCryptor` for `"hello"`, opened
with empty local buffers. -/
theorem open_idempotent_witness :
    (some toySealed : Option Bytes) = some toySealed
      ∧ (∃ mem'' : OpenMem,
          decryptorCBCHMAC.CryptMem toyCryptor
              ⟨some toySealed, paddedPayload hello 16, hello⟩
            = Run.done (⟨some hello, some [], none⟩, mem'')
          ∧ mem''.ciphertext = some toySealed)
      ∧ decryptorCBCHMAC.Crypt toyCryptor (some toySealed)
          = Run.done ⟨some hello, some [], none⟩ :=
  open_idempotent toyCryptor ⟨some toySealed, [], []⟩
    ⟨some toySealed, paddedPayload hello 16, hello⟩ ⟨some hello, some [], none⟩ rfl

/-- C20 (PKCS#7 pad): for a data length `L` and a block size `B` in
`[1, 255]`, `padPKCS7(L, B)` returns `p = B - L mod B` bytes, `1 <= p <= B`,
each equal to `p`; when `L` is a multiple of `B` it is a full block of `B`
bytes each equal to `B`; and `L + p` is a positive multiple of `B`. -/
theorem padPKCS7_spec (L B : Nat) (h1 : 1 ≤ B) (h2 : B ≤ 255) :
    ∃ pad : Bytes, padPKCS7 L B = Run.done pad
      ∧ pad.length = B - L % B
      ∧ 1 ≤ B - L % B ∧ B - L % B ≤ B
      ∧ (∀ b ∈ pad, b.val = B - L % B)
      ∧ (L % B = 0 → pad.length = B ∧ ∀ b ∈ pad, b.val = B)
      ∧ 0 < L + pad.length ∧ (L + pad.length) % B = 0 := by
  have hlt := Nat.mod_lt L (show 0 < B by omega)
  have hv : (toByte (B - L % B)).val = B - L % B := toByte_val _ (by omega)
  refine ⟨List.replicate (B - L % B) (toByte (B - L % B)), ?_, ?_, by omega, by omega, ?_, ?_,
    ?_, ?_⟩
  · unfold padPKCS7
    rw [if_neg (by omega)]
  · rw [List.length_replicate]
  · intro b hb
    rw [List.eq_of_mem_replicate hb, hv]
  · intro hm
    rw [hm, Nat.sub_zero] at hv
    rw [List.length_replicate, hm, Nat.sub_zero]
    refine ⟨rfl, ?_⟩
    intro b hb
    rw [List.eq_of_mem_replicate hb, hv]
  · rw [List.length_replicate]
    omega
  · rw [List.length_replicate, padded_length_eq L B (by omega)]
    exact Nat.mul_mod_left _ _

/-- Witness of C20: `L = 16`, `B = 16` gives a full block of sixteen bytes
`0x10`. -/
theorem padPKCS7_spec_witness :
    ∃ pad : Bytes, padPKCS7 16 16 = Run.done pad
      ∧ pad.length = 16 - 16 % 16
      ∧ 1 ≤ 16 - 16 % 16 ∧ 16 - 16 % 16 ≤ 16
      ∧ (∀ b ∈ pad, b.val = 16 - 16 % 16)
      ∧ (16 % 16 = 0 → pad.length = 16 ∧ ∀ b ∈ pad, b.val = 16)
      ∧ 0 < 16 + pad.length ∧ (16 + pad.length) % 16 = 0 :=
  padPKCS7_spec 16 16 (by decide) (by decide)

/-- C21 (PKCS#7 unpad): `unpadPKCS7(D)` returns an error if and only if `D`
is empty, or its last byte `p` is 0, or `p > |D|`, or some byte among the
final `p` bytes of `D` differs from `p`; in every other case it returns the
index `|D| - p`. -/
theorem unpadPKCS7_spec (D : Bytes) :
    ((unpadPKCS7 D).2 ≠ none
        ↔ (D = [] ∨ (D.getD (D.length - 1) 0).val = 0
            ∨ D.length < (D.getD (D.length - 1) 0).val
            ∨ ∃ i : Nat, D.length - (D.getD (D.length - 1) 0).val ≤ i ∧ i < D.length
                ∧ (D.getD i 0).val ≠ (D.getD (D.length - 1) 0).val))
      ∧ ((unpadPKCS7 D).2 = none →
          unpadPKCS7 D = (D.length - (D.getD (D.length - 1) 0).val, none)) := by
  obtain ⟨hiff, hval⟩ := unpadPKCS7_ok_iff D
  constructor
  · rw [not_iff_comm, hiff]
    constructor
    · intro h
      by_contra hn
      apply h
      by_cases h0 : D = []
      · exact Or.inl h0
      · by_cases h1 : (D.getD (D.length - 1) 0).val = 0
        · exact Or.inr (Or.inl h1)
        · by_cases h2 : D.length < (D.getD (D.length - 1) 0).val
          · exact Or.inr (Or.inr (Or.inl h2))
          · right
            right
            right
            by_contra h3
            apply hn
            refine ⟨fun hl => h0 (List.length_eq_zero.mp hl), h1, by omega, ?_⟩
            intro i hi1 hi2
            by_contra h4
            exact h3 ⟨i, hi1, hi2, h4⟩
    · rintro ⟨h0, h1, h2, h3⟩ h
      rcases h with h | h | h | ⟨i, hi1, hi2, hi3⟩
      · exact h0 (by rw [h]; rfl)
      · exact h1 h
      · omega
      · exact hi3 (h3 i hi1 hi2)
  · intro h
    have h1 := hval h
    exact Prod.ext h1 h

/-- Witness of C21: `"hello"` followed by eleven bytes `0x0b` unpads to
index 5. -/
theorem unpadPKCS7_spec_witness :
    unpadPKCS7 (paddedPayload hello 16)
      = ((paddedPayload hello 16).length
          - ((paddedPayload hello 16).getD ((paddedPayload hello 16).length - 1) 0).val, none) :=
  (unpadPKCS7_spec (paddedPayload hello 16)).2 rfl

/-- C22 (pad/unpad round trip): for every byte sequence `P` and block size
`B` in `[1, 255]`, `padPKCS7(|P|, B)` returns a padding, `unpadPKCS7` on `P`
followed by that padding succeeds with index `|P|`, and truncating at that
index gives back `P`. -/
theorem pad_unpad_roundtrip (P : Bytes) (B : Nat) (h1 : 1 ≤ B) (h2 : B ≤ 255) :
    ∃ pad : Bytes, padPKCS7 P.length B = Run.done pad
      ∧ unpadPKCS7 (P ++ pad) = (P.length, none)
      ∧ (P ++ pad).take P.length = P := by
  refine ⟨List.replicate (B - P.length % B) (toByte (B - P.length % B)), ?_, ?_, ?_⟩
  · unfold padPKCS7
    rw [if_neg (by omega)]
  · exact unpadPKCS7_paddedPayload P B (by omega) h2
  · exact List.take_left' rfl

/-- Witness of C22: a plaintext of exactly one block (`|P| = B = 16`). -/
theorem pad_unpad_roundtrip_witness :
    ∃ pad : Bytes, padPKCS7 endsInOne.length 16 = Run.done pad
      ∧ unpadPKCS7 (endsInOne ++ pad) = (endsInOne.length, none)
      ∧ (endsInOne ++ pad).take endsInOne.length = endsInOne :=
  pad_unpad_roundtrip endsInOne 16 (by decide) (by decide)

/-- C23 (ciphertext slot): for every successful encryptor `Crypt(P, A)` that
drew the IV `iv`, the bytes of the parcel from offset `M + 2 + |A| + B` to the
end are the CBC encryption under the block cipher and `iv` of `P` followed by
`padPKCS7(|P|, B)`, and the caller's `P` is the same after the call. -/
theorem ciphertext_slot (c : cryptorCBCHMAC) (hv : c.Valid) (mem mem' : SealMem)
    (P parcel iv : Bytes) (hm : mem.message = some P)
    (hC : encryptorCBCHMAC.CryptMem c mem = Run.done ((some parcel, none), mem'))
    (hr : ReadFull c.rand c.pher.BlockSize = Run.done (iv, none)) :
    (∃ pad blocks : Bytes, padPKCS7 P.length c.pher.BlockSize = Run.done pad
        ∧ CBCEncrypt c.pher iv (P ++ pad) = Run.done blocks
        ∧ parcel.drop (c.macLength + 2 + mem.additionalData.length + c.pher.BlockSize) = blocks)
      ∧ mem'.message = some P
      ∧ encryptorCBCHMAC.Crypt c (some P) mem.additionalData
          = Run.done (some parcel, none) := by
  obtain ⟨h1, _, h3⟩ := encryptor_CryptMem_spec c mem mem' _ hC
  rw [hm] at h1 h3
  refine ⟨?_, h1, h3⟩
  obtain ⟨tag, iv', blocks, hr', _, htag, hiv, _, hb, _, hp⟩ :=
    sealed_parts c hv P mem.additionalData parcel h3
  have e : iv' = iv := by
    rw [hr] at hr'
    injection hr' with hr'
    exact (congrArg Prod.fst hr').symm
  subst e
  have hpos := hv.block.size_pos
  refine ⟨List.replicate (c.pher.BlockSize - P.length % c.pher.BlockSize)
    (toByte (c.pher.BlockSize - P.length % c.pher.BlockSize)), blocks, ?_, ?_, ?_⟩
  · unfold padPKCS7
    rw [if_neg (by omega)]
  · have hmod := paddedPayload_mod P c.pher.BlockSize hpos
    unfold CBCEncrypt
    rw [if_neg, hb]
    · rfl
    · intro h
      rcases h with h | h | h
      · omega
      · exact h hiv
      · exact h hmod
  · have e : parcel = (tag ++ (PutUint16 mem.additionalData.length
        ++ (mem.additionalData ++ iv'))) ++ blocks := by
      rw [hp]
      simp
    rw [e, List.drop_left' (by simp [htag, hiv, PutUint16_length]; omega)]

/-- Witness of C23: `"hello"` with empty additional data under `toyCryptor`,
starting from empty local buffers. -/
theorem ciphertext_slot_witness :
    (∃ pad blocks : Bytes, padPKCS7 hello.length toyCryptor.pher.BlockSize = Run.done pad
        ∧ CBCEncrypt toyCryptor.pher countingReader.data (hello ++ pad) = Run.done blocks
        ∧ toySealed.drop (toyCryptor.macLength + 2 + ([] : Bytes).length
            + toyCryptor.pher.BlockSize) = blocks)
      ∧ (some hello : Option Bytes) = some hello
      ∧ encryptorCBCHMAC.Crypt toyCryptor (some hello) []
          = Run.done (some toySealed, none) :=
  ciphertext_slot toyCryptor toyCryptor_valid ⟨some hello, [], [], [], []⟩
    ⟨some hello, [], paddedPayload hello 16, countingReader.data, toySealed⟩
    hello toySealed countingReader.data rfl rfl rfl

/-- C24 (padding failure on open): for every parcel whose tag verifies, whose
AD length is in range and whose ciphertext is a positive multiple of `B`, if
the CBC-decrypted payload does not end in a valid PKCS#7 run, the decryptor's
`Crypt` returns neither plaintext nor AD and the error of `unpadPKCS7`, which
is the padding error ("invalid padding" whenever the decrypted payload is not
empty); and in every failing outcome of the decryptor's `Crypt` both returned
byte sequences are absent. -/
theorem padding_failure (c : cryptorCBCHMAC) (ct : Bytes) (hgood : tagVerifies c ct)
    (hrange : c.macLength + 2 + parsedADLength c ct + c.pher.BlockSize ≤ ct.length)
    (hpos : 0 < ct.length - (c.macLength + 2 + parsedADLength c ct + c.pher.BlockSize))
    (hmult : (ct.length - (c.macLength + 2 + parsedADLength c ct + c.pher.BlockSize))
      % c.pher.BlockSize = 0)
    (hbad : ¬ ValidPKCS7Run (decryptedPayload c ct)) :
    (∃ e : GoError, (unpadPKCS7 (decryptedPayload c ct)).2 = some e
        ∧ decryptorCBCHMAC.Crypt c (some ct) = Run.done ⟨none, none, some e⟩
        ∧ (e = GoError.errorString "empty input" ∨ e = GoError.errorString "invalid padding")
        ∧ (decryptedPayload c ct ≠ [] → e = GoError.errorString "invalid padding"))
      ∧ ∀ (ct' : Option Bytes) (res : OpenResult),
          decryptorCBCHMAC.Crypt c ct' = Run.done res → res.err ≠ none →
            res.message = none ∧ res.additionalData = none := by
  refine ⟨?_, decryptor_Crypt_failure_absent c⟩
  have hB : 0 < c.pher.BlockSize := by
    rcases Nat.eq_zero_or_pos c.pher.BlockSize with h0 | h0
    · rw [h0, Nat.mod_zero] at hmult
      omega
    · exact h0
  have hfull := decryptor_Crypt_full_blocks c hB ct hgood hrange hmult
  rcases hu : unpadPKCS7 (decryptedPayload c ct) with ⟨i, _ | e⟩
  · exact absurd ((ValidPKCS7Run_iff _).mpr (by rw [hu])) hbad
  · rw [hu] at hfull
    exact ⟨e, rfl, hfull, unpadPKCS7_err _ i e hu,
      fun hne => unpadPKCS7_err_nonempty _ i e hne hu⟩

/-- Witness of C24: a parcel for `toyCryptor` whose single block decrypts to
bytes ending in `0x4a`. -/
theorem padding_failure_witness :
    (∃ e : GoError, (unpadPKCS7 (decryptedPayload toyCryptor badPaddingParcel)).2 = some e
        ∧ decryptorCBCHMAC.Crypt toyCryptor (some badPaddingParcel)
            = Run.done ⟨none, none, some e⟩
        ∧ (e = GoError.errorString "empty input" ∨ e = GoError.errorString "invalid padding")
        ∧ (decryptedPayload toyCryptor badPaddingParcel ≠ [] →
            e = GoError.errorString "invalid padding"))
      ∧ ∀ (ct' : Option Bytes) (res : OpenResult),
          decryptorCBCHMAC.Crypt toyCryptor ct' = Run.done res → res.err ≠ none →
            res.message = none ∧ res.additionalData = none :=
  padding_failure toyCryptor badPaddingParcel (by decide) (by decide) (by decide) (by decide)
    (fun h => absurd ((ValidPKCS7Run_iff _).mp h) (by decide))

/-- C25 (counterexample): the two-byte parcel `C` made of the tag of the
empty message verifies, and `C'` with a different first byte agrees with it
from offset `M` on; the decryptor's `Crypt` on `C'` fails with
`CipherTextError("cipherText is invalid")`, not with the integrity error. -/
theorem short_tampered_tag_not_integrity :
    tagVerifies toyCryptor tagOnlyParcel
      ∧ ([17, 0] : Bytes).length = tagOnlyParcel.length
      ∧ ([17, 0] : Bytes).drop toyCryptor.macLength = tagOnlyParcel.drop toyCryptor.macLength
      ∧ ([17, 0] : Bytes).take toyCryptor.macLength ≠ tagOnlyParcel.take toyCryptor.macLength
      ∧ decryptorCBCHMAC.Crypt toyCryptor (some [17, 0])
          = Run.done ⟨none, none, some (GoError.CipherTextError "cipherText is invalid")⟩
      ∧ decryptorCBCHMAC.Crypt toyCryptor (some [17, 0])
          ≠ Run.done ⟨none, none, some integrityError⟩ := by
  refine ⟨by decide, rfl, rfl, by decide, rfl, ?_⟩
  have e : decryptorCBCHMAC.Crypt toyCryptor (some [17, 0])
      = Run.done ⟨none, none, some (GoError.CipherTextError "cipherText is invalid")⟩ := rfl
  rw [e]
  intro h
  cases h

/-- C25 (amended): for every parcel `C` of length at least `M + 2 + B` whose
first `M` bytes equal `MAC(IK, C[M..])` and every `C'` of the same length that
agrees with `C` from offset `M` onward but differs in at least one of the
first `M` bytes, the decryptor's `Crypt` on `C'` fails with the integrity
error; nothing is assumed of the MAC. -/
theorem tampered_tag_rejected (c : cryptorCBCHMAC) (C C' : Bytes)
    (hlen : c.macLength + 2 + c.pher.BlockSize ≤ C.length)
    (hC : C.take c.macLength
      = generateSignature c.integrityKey c.calcMac (C.drop c.macLength))
    (hl : C'.length = C.length) (hsuf : C'.drop c.macLength = C.drop c.macLength)
    (hdiff : C'.take c.macLength ≠ C.take c.macLength) :
    decryptorCBCHMAC.Crypt c (some C') = Run.done ⟨none, none, some integrityError⟩ := by
  apply decryptor_Crypt_unverified c C' (by omega)
  unfold tagVerifies
  rw [hsuf, ← hC]
  exact hdiff

/-- Witness of C25 (amended): the first tag byte of the parcel sealed by
`toyCryptor` for `"hello"` is replaced. -/
theorem tampered_tag_rejected_witness :
    decryptorCBCHMAC.Crypt toyCryptor (some (toySealed.set 0 0))
      = Run.done ⟨none, none, some integrityError⟩ :=
  tampered_tag_rejected toyCryptor toySealed (toySealed.set 0 0) (by decide) (by decide)
    (by decide) (by decide) (by decide)

/-- C26 (unpad does not bound the padding length by the block size):
`unpadPKCS7` takes only the data; for every `n` in `[1, 255]` it returns index
0 and no error on `n` bytes all equal to `n`; so under a block size of 16 a
parcel whose tag verifies and whose two blocks decrypt to 32 bytes `0x20` is
opened by the decryptor's `Crypt` as the empty plaintext; and `padPKCS7` never
returns more than `B` bytes. -/
theorem unpad_accepts_long_run :
    (∀ n : Nat, 1 ≤ n → n ≤ 255 →
        unpadPKCS7 (List.replicate n (toByte n)) = (0, none))
      ∧ (∀ (c : cryptorCBCHMAC) (tag hdr ad iv blocks : Bytes),
          c.pher.BlockSize = 16 → tag.length = c.macLength → hdr.length = 2 →
          Uint16 hdr = ad.length → iv.length = 16 → blocks.length = 32 →
          tag = c.calcMac.hmac c.integrityKey (hdr ++ (ad ++ (iv ++ blocks))) →
          cbcDecryptBlocks c.pher 2 iv blocks = List.replicate 32 (toByte 32) →
          decryptorCBCHMAC.Crypt c (some (tag ++ (hdr ++ (ad ++ (iv ++ blocks)))))
            = Run.done ⟨some [], some ad, none⟩)
      ∧ (cbcDecryptBlocks toyCryptor.pher 2 ((longRunParcel.drop 4).take 16)
            (longRunParcel.drop 20) = List.replicate 32 (toByte 32)
          ∧ decryptorCBCHMAC.Crypt toyCryptor (some longRunParcel)
            = Run.done ⟨some [], some [], none⟩)
      ∧ ∀ (L B : Nat) (pad : Bytes), padPKCS7 L B = Run.done pad → pad.length ≤ B := by
  have hrun : ∀ n : Nat, 1 ≤ n → n ≤ 255 →
      unpadPKCS7 (List.replicate n (toByte n)) = (0, none) := by
    intro n h1 h2
    have h := unpadPKCS7_append_run [] n (by omega) h2
    simpa using h
  refine ⟨hrun, ?_, ⟨rfl, rfl⟩, padPKCS7_length_le⟩
  intro c tag hdr ad iv blocks hB htag hhdr hu hiv hbl hver hdec
  have hparts := decryptor_Crypt_parts c (by omega) tag hdr ad iv blocks htag hhdr hu
    (by omega) hver (by rw [hbl, hB])
  have hn : blocks.length / c.pher.BlockSize = 2 := by rw [hbl, hB]
  rw [hn, hdec, hrun 32 (by decide) (by decide)] at hparts
  exact hparts

/-- Witness of C26: thirty-two bytes `0x20` unpad to index 0. -/
theorem unpad_accepts_long_run_witness :
    unpadPKCS7 (List.replicate 32 (toByte 32)) = (0, none) :=
  unpad_accepts_long_run.1 32 (by decide) (by decide)

/-- C27 (seal is injective in the IV): for a fixed cryptor, plaintext `P` and
additional data `A`, the parcel returned by the encryptor's `Crypt` is the
output of `seal` on the IV read from the randomness source, hence a function
of those `B` bytes; two calls that read equal IVs return identical parcels and
two calls that read different IVs return different parcels. -/
theorem seal_injective_in_iv (c : cryptorCBCHMAC) (hv : c.Valid) (r₁ r₂ : Option Reader)
    (P A p₁ p₂ iv₁ iv₂ : Bytes)
    (h₁ : encryptorCBCHMAC.Crypt { c with rand := r₁ } (some P) A = Run.done (some p₁, none))
    (h₂ : encryptorCBCHMAC.Crypt { c with rand := r₂ } (some P) A = Run.done (some p₂, none))
    (hr₁ : ReadFull r₁ c.pher.BlockSize = Run.done (iv₁, none))
    (hr₂ : ReadFull r₂ c.pher.BlockSize = Run.done (iv₂, none)) :
    encryptorCBCHMAC.seal c iv₁ (paddedPayload P c.pher.BlockSize) A = Run.done p₁
      ∧ encryptorCBCHMAC.seal c iv₂ (paddedPayload P c.pher.BlockSize) A = Run.done p₂
      ∧ (iv₁ = iv₂ → p₁ = p₂)
      ∧ (iv₁ ≠ iv₂ → p₁ ≠ p₂) := by
  have hv₁ := Valid_rand c r₁ hv
  have hv₂ := Valid_rand c r₂ hv
  have hpos := hv.block.size_pos
  have hA : A.length ≤ 65535 := by
    obtain ⟨_, _, _, hA, _⟩ := encryptor_Crypt_success _ _ _ _ h₁
    exact hA
  have s₁ := seal_eq c hv iv₁ (paddedPayload P c.pher.BlockSize) A (ReadFull_ok _ _ _ hr₁)
    (paddedPayload_mod _ _ hpos) hA
  have s₂ := seal_eq c hv iv₂ (paddedPayload P c.pher.BlockSize) A (ReadFull_ok _ _ _ hr₂)
    (paddedPayload_mod _ _ hpos) hA
  have e₁ := encryptor_Crypt_eq { c with rand := r₁ } hv₁ P A iv₁ hA hr₁
  have e₂ := encryptor_Crypt_eq { c with rand := r₂ } hv₂ P A iv₂ hA hr₂
  rw [h₁] at e₁
  rw [h₂] at e₂
  have q₁ : p₁ = c.calcMac.hmac c.integrityKey
      (parcelBody c iv₁ (paddedPayload P c.pher.BlockSize) A)
      ++ parcelBody c iv₁ (paddedPayload P c.pher.BlockSize) A := by
    injection e₁ with e₁
    injection e₁ with e₁
    injection e₁ with e₁
  have q₂ : p₂ = c.calcMac.hmac c.integrityKey
      (parcelBody c iv₂ (paddedPayload P c.pher.BlockSize) A)
      ++ parcelBody c iv₂ (paddedPayload P c.pher.BlockSize) A := by
    injection e₂ with e₂
    injection e₂ with e₂
    injection e₂ with e₂
  refine ⟨by rw [s₁, q₁], by rw [s₂, q₂], ?_, ?_⟩
  · intro h
    rw [q₁, q₂, h]
  · intro hne hp
    have i₁ := sealed_iv { c with rand := r₁ } hv₁ P A p₁ iv₁ h₁ hr₁
    have i₂ := sealed_iv { c with rand := r₂ } hv₂ P A p₂ iv₂ h₂ hr₂
    rw [hp] at i₁
    exact hne (i₁.symm.trans i₂)

/-- Witness of C27: `"hello"` sealed by `toyCryptor` with the IV
`1, 2, ..., 16` and with the IV `16, 15, ..., 1`. -/
theorem seal_injective_in_iv_witness :
    encryptorCBCHMAC.seal toyCryptor countingReader.data
          (paddedPayload hello toyCryptor.pher.BlockSize) [] = Run.done toySealed
      ∧ encryptorCBCHMAC.seal toyCryptor descendingReader.data
          (paddedPayload hello toyCryptor.pher.BlockSize) [] = Run.done toySealedDescending
      ∧ (countingReader.data = descendingReader.data → toySealed = toySealedDescending)
      ∧ (countingReader.data ≠ descendingReader.data → toySealed ≠ toySealedDescending) :=
  seal_injective_in_iv toyCryptor toyCryptor_valid (some countingReader)
    (some descendingReader) hello [] toySealed toySealedDescending countingReader.data
    descendingReader.data rfl rfl rfl rfl

end libcipher
